import Mathlib

/-
Verification of the matting pipeline of the auto-crop service.

The embedded code is the most advanced pipeline variant of the repository:
the functions detectBackgroundColor, advancedBackgroundRemoval (five phases:
border flood fill, interior islands, transition refinement, boundary cleanup,
alpha application), smartErosion and smartDecontamination.

Modelling conventions:
- raster buffers are total functions from flat byte offsets to byte values
  (Nat → Nat for the removal core, Int → Nat for background detection, whose
  sampling loops can form negative offsets on degenerate rasters);
- the mask is a total function from pixel index to the mask byte
  (0 unclassified, 1 background, 2 transition, 3 foreground), updated
  pointwise, exactly as the Uint8Array is in the source;
- the per-pixel delta-E map (a Float32Array precomputed once from the data
  buffer via the floating-point sRGB -> Lab conversion) is abstracted as a
  given map dem : Nat → ℚ; every phase of the source reads only this map,
  never the colors, so the mask pipeline is embedded as a function of dem;
- the JavaScript while loops driven by an explicit queue are embedded as
  fuel-indexed recursions; the fuel passed at the call sites is proved
  sufficient (each pixel is enqueued at most once, which bounds the number
  of loop iterations; see the measure lemmas below).
-/

namespace AutoCrop

/-! ## Exact rational arithmetic in kernel-computable form

The source performs its threshold and colour arithmetic on JavaScript
numbers; the embedding uses exact rational arithmetic. The helpers below
are definitionally computable forms of the field operations and of
Math.max / Math.min (needed because the generic ℚ operations of the library
do not reduce inside the kernel); each is proved equal to the standard
operation. -/

/-- Exact rational value of a natural number. -/
def qOfNat (n : Nat) : ℚ := mkRat n 1

/-- Exact rational product. -/
def qMul (a b : ℚ) : ℚ := Rat.divInt (a.num * b.num) (a.den * b.den)

/-- Exact rational sum. -/
def qAdd (a b : ℚ) : ℚ := Rat.divInt (a.num * b.den + b.num * a.den) (a.den * b.den)

/-- Exact rational difference. -/
def qSub (a b : ℚ) : ℚ := Rat.divInt (a.num * b.den - b.num * a.den) (a.den * b.den)

/-- Exact rational quotient. -/
def qDiv (a b : ℚ) : ℚ := Rat.divInt (a.num * b.den) (a.den * b.num)

/-- Math.max on rationals. -/
def jsMaxQ (a b : ℚ) : ℚ := if a ≤ b then b else a

/-- Math.min on rationals. -/
def jsMinQ (a b : ℚ) : ℚ := if a ≤ b then a else b

/-- Math.max on integers. -/
def zMax (a b : Int) : Int := if a ≤ b then b else a

/-- Math.min on integers. -/
def zMin (a b : Int) : Int := if a ≤ b then a else b

theorem qOfNat_eq (n : Nat) : qOfNat n = (n : ℚ) := by
  rw [qOfNat, Rat.mkRat_one]; push_cast; rfl

theorem qMul_eq (a b : ℚ) : qMul a b = a * b := by
  rw [qMul, Rat.divInt_eq_div]
  push_cast
  rw [← div_mul_div_comm, Rat.num_div_den, Rat.num_div_den]

theorem qAdd_eq (a b : ℚ) : qAdd a b = a + b := by
  have ha : ((a.den : ℚ)) ≠ 0 := by exact_mod_cast a.den_nz
  have hb : ((b.den : ℚ)) ≠ 0 := by exact_mod_cast b.den_nz
  rw [qAdd, Rat.divInt_eq_div]
  conv_rhs => rw [← Rat.num_div_den a, ← Rat.num_div_den b]
  push_cast
  field_simp

theorem qSub_eq (a b : ℚ) : qSub a b = a - b := by
  have ha : ((a.den : ℚ)) ≠ 0 := by exact_mod_cast a.den_nz
  have hb : ((b.den : ℚ)) ≠ 0 := by exact_mod_cast b.den_nz
  rw [qSub, Rat.divInt_eq_div]
  conv_rhs => rw [← Rat.num_div_den a, ← Rat.num_div_den b]
  push_cast
  field_simp
  ring

theorem qDiv_eq (a b : ℚ) : qDiv a b = a / b := by
  rcases eq_or_ne b 0 with rb | rb
  · subst rb; simp [qDiv, Rat.divInt_eq_div]
  · have ha : ((a.den : ℚ)) ≠ 0 := by exact_mod_cast a.den_nz
    have hb : ((b.den : ℚ)) ≠ 0 := by exact_mod_cast b.den_nz
    have hbn : ((b.num : ℚ)) ≠ 0 := by simpa using Rat.num_ne_zero.mpr rb
    rw [qDiv, Rat.divInt_eq_div]
    conv_rhs => rw [← Rat.num_div_den a, ← Rat.num_div_den b]
    push_cast
    field_simp

theorem jsMaxQ_eq (a b : ℚ) : jsMaxQ a b = max a b := by rw [jsMaxQ, max_def]

theorem jsMinQ_eq (a b : ℚ) : jsMinQ a b = min a b := by rw [jsMinQ, min_def]

theorem zMax_eq (a b : Int) : zMax a b = max a b := by rw [zMax, max_def]

theorem zMin_eq (a b : Int) : zMin a b = min a b := by rw [zMin, min_def]

/-! ## Grid geometry and 8-neighbourhoods -/

/-- Neighbour offsets in x, from the source line
const dx8=[-1,1,0,0,-1,-1,1,1]. -/
def dx8 : List Int := [-1, 1, 0, 0, -1, -1, 1, 1]

/-- Neighbour offsets in y, from the source line dy8=[0,0,-1,1,-1,1,-1,1]. -/
def dy8 : List Int := [0, 0, -1, 1, -1, 1, -1, 1]

/-- Decoded x coordinate of a flat pixel index (cx = ci % width). -/
def xOf (w i : Nat) : Nat := i % w

/-- Decoded y coordinate of a flat pixel index (cy = (ci - cx) / width). -/
def yOf (w i : Nat) : Nat := i / w

/-- The d-th 8-neighbour of pixel i, with the bounds check
(nx<0||nx>=width||ny<0||ny>=height continue) of the source; none when the
neighbour falls outside the image. -/
def neighborIdx (w h i d : Nat) : Option Nat :=
  if 0 ≤ (xOf w i : Int) + dx8.getD d 0 ∧ (xOf w i : Int) + dx8.getD d 0 < (w : Int) ∧
      0 ≤ (yOf w i : Int) + dy8.getD d 0 ∧ (yOf w i : Int) + dy8.getD d 0 < (h : Int) then
    some ((((yOf w i : Int) + dy8.getD d 0) * w + ((xOf w i : Int) + dx8.getD d 0)).toNat)
  else none

/-- Pixels i and j are 8-adjacent in a w × h raster. -/
def Adj (w h i j : Nat) : Prop := ∃ d, d < 8 ∧ neighborIdx w h i d = some j

/-- Pixel i lies on the image border (first or last row or column). -/
def OnBorder (w h i : Nat) : Prop :=
  xOf w i = 0 ∨ xOf w i = w - 1 ∨ yOf w i = 0 ∨ yOf w i = h - 1

/-! ## Thresholds -/

/-- Effective Lab threshold, from const labTh = Math.max(threshold * 0.8, 2). -/
def labThOf (threshold : ℚ) : ℚ := jsMaxQ (qMul threshold (mkRat 8 10)) 2

/-- Transition threshold, from const transTh = labTh * 1.3. -/
def transThOf (labTh : ℚ) : ℚ := qMul labTh (mkRat 13 10)

/-! ## Phase 1: border-seeded flood fill -/

/-- State of the phase-1 traversal: the mask array and the pending part of
the queue (the source keeps the whole Int32Array with head index qH; the
pending part queue[qH..qT) is what drives the loop). -/
structure FloodState where
  mask : Nat → Nat
  queue : List Nat

/-- One border-seed visit: if (mask[i]) continue;
if (dem[i] <= labTh) mask=1 and enqueue; else if (dem[i] <= transTh) mask=2. -/
def seedVisit (dem : Nat → ℚ) (labTh transTh : ℚ) (st : FloodState) (i : Nat) :
    FloodState :=
  if st.mask i ≠ 0 then st
  else if dem i ≤ labTh then ⟨Function.update st.mask i 1, st.queue ++ [i]⟩
  else if dem i ≤ transTh then ⟨Function.update st.mask i 2, st.queue⟩
  else st

/-- Border pixel indices in source visiting order: for x in [0,w) the rows
y = 0 and y = h-1, then for y in [0,h) the columns x = 0 and x = w-1. -/
def seedIndices (w h : Nat) : List Nat :=
  ((List.range w).flatMap fun x => [0, h - 1].map fun y => y * w + x) ++
  ((List.range h).flatMap fun y => [0, w - 1].map fun x => y * w + x)

/-- Classification of one dequeued pixel's neighbour during the flood loop:
skip masked pixels, classify fresh ones by delta-E band, enqueueing only the
background band. -/
def expandNbr (dem : Nat → ℚ) (labTh transTh : ℚ)
    (st : FloodState) (ni : Option Nat) : FloodState :=
  match ni with
  | none => st
  | some ni =>
    if st.mask ni ≠ 0 then st
    else if dem ni ≤ labTh then ⟨Function.update st.mask ni 1, st.queue ++ [ni]⟩
    else if dem ni ≤ transTh then ⟨Function.update st.mask ni 2, st.queue⟩
    else ⟨Function.update st.mask ni 3, st.queue⟩

/-- Processing of all eight neighbours of dequeued pixel ci
(the for d = 0..7 loop of the source). -/
def expandPixel (w h : Nat) (dem : Nat → ℚ) (labTh transTh : ℚ)
    (st : FloodState) (ci : Nat) : FloodState :=
  (List.range 8).foldl (fun st d => expandNbr dem labTh transTh st (neighborIdx w h ci d)) st

/-- The while (qH < qT) loop of phase 1, embedded with explicit fuel. -/
def floodLoop (w h : Nat) (dem : Nat → ℚ) (labTh transTh : ℚ) :
    Nat → FloodState → FloodState
  | 0, st => st
  | fuel + 1, st =>
    match st.queue with
    | [] => st
    | ci :: rest =>
      floodLoop w h dem labTh transTh fuel
        (expandPixel w h dem labTh transTh ⟨st.mask, rest⟩ ci)

/-- The final sweep of phase 1: for i < tp, if (!mask[i]) mask[i] = 3. -/
def sweepMask (tp : Nat) (m : Nat → Nat) : Nat → Nat :=
  fun i => if i < tp ∧ m i = 0 then 3 else m i

/-- Phase 1 of advancedBackgroundRemoval: seed every border pixel, run the
queue-driven 8-connected flood fill, then mark every untouched pixel 3. -/
def phase1 (w h : Nat) (dem : Nat → ℚ) (labTh transTh : ℚ) : Nat → Nat :=
  let st0 := (seedIndices w h).foldl (seedVisit dem labTh transTh) ⟨fun _ => 0, []⟩
  let stF := floodLoop w h dem labTh transTh (2 * (w * h) + st0.queue.length + 1) st0
  sweepMask (w * h) stF.mask

/-! ## Phase 2: interior islands -/

/-- State of the interior-island scan: the mask, the visited array, and for
the component currently being explored the pending queue suffix rq[rh..] and
the already dequeued pixels rg. -/
structure IslandState where
  vis : Nat → Nat
  pending : List Nat
  rg : List Nat

/-- Neighbour handling inside the component search:
if (vis[ni] || mask[ni] !== 3 || dem[ni] > labTh) continue; vis[ni]=1; rq.push(ni). -/
def islandNbr (m : Nat → Nat) (dem : Nat → ℚ) (labTh : ℚ)
    (st : IslandState) (ni : Option Nat) : IslandState :=
  match ni with
  | none => st
  | some ni =>
    if st.vis ni ≠ 0 ∨ m ni ≠ 3 ∨ labTh < dem ni then st
    else ⟨Function.update st.vis ni 1, st.pending ++ [ni], st.rg⟩

/-- Expansion of all eight neighbours of a dequeued component pixel. -/
def islandExpand (w h : Nat) (m : Nat → Nat) (dem : Nat → ℚ) (labTh : ℚ)
    (st : IslandState) (ci : Nat) : IslandState :=
  (List.range 8).foldl (fun st d => islandNbr m dem labTh st (neighborIdx w h ci d)) st

/-- The while (rh < rq.length) component-collection loop, with explicit fuel;
each dequeued pixel is appended to rg before its neighbours are scanned. -/
def islandLoop (w h : Nat) (m : Nat → Nat) (dem : Nat → ℚ) (labTh : ℚ) :
    Nat → IslandState → IslandState
  | 0, st => st
  | fuel + 1, st =>
    match st.pending with
    | [] => st
    | ci :: rest =>
      islandLoop w h m dem labTh fuel
        (islandExpand w h m dem labTh ⟨st.vis, rest, st.rg ++ [ci]⟩ ci)

/-- The halo marking around one reclassified island pixel:
if (mask[ni] === 3 && dem[ni] <= transTh) mask[ni] = 2. -/
def haloAt (w h : Nat) (dem : Nat → ℚ) (transTh : ℚ) (m : Nat → Nat) (idx : Nat) :
    Nat → Nat :=
  (List.range 8).foldl (fun m d =>
    match neighborIdx w h idx d with
    | none => m
    | some ni => if m ni = 3 ∧ dem ni ≤ transTh then Function.update m ni 2 else m) m

/-- Mask-and-visited pair threaded through the phase-2 scan. -/
structure Phase2State where
  mask : Nat → Nat
  vis : Nat → Nat

/-- One iteration of the phase-2 outer loop at pixel i: skip unless the pixel
is still foreground, unvisited and background-coloured; otherwise collect its
component, and when it reaches minIslandSize reclassify it background and mark
its halo. -/
def islandVisit (w h : Nat) (dem : Nat → ℚ) (labTh transTh : ℚ) (minIslandSize : Nat)
    (st : Phase2State) (i : Nat) : Phase2State :=
  if st.mask i ≠ 3 ∨ st.vis i ≠ 0 ∨ labTh < dem i then st
  else
    let inner := islandLoop w h st.mask dem labTh (2 * (w * h) + 2)
      ⟨Function.update st.vis i 1, [i], []⟩
    if minIslandSize ≤ inner.rg.length then
      let mBg := inner.rg.foldl (fun m idx => Function.update m idx 1) st.mask
      let mHalo := inner.rg.foldl (haloAt w h dem transTh) mBg
      ⟨mHalo, inner.vis⟩
    else ⟨st.mask, inner.vis⟩

/-- Phase 2 of advancedBackgroundRemoval: the for i < tp island scan. -/
def phase2 (w h : Nat) (dem : Nat → ℚ) (labTh transTh : ℚ) (minIslandSize : Nat)
    (m : Nat → Nat) : Nat → Nat :=
  ((List.range (w * h)).foldl (islandVisit w h dem labTh transTh minIslandSize)
    ⟨m, fun _ => 0⟩).mask

/-! ## Phase 3: transition refinement -/

/-- Interior pixel indices in scan order: y from 1 to height-2 outer,
x from 1 to width-2 inner. -/
def interiorIndices (w h : Nat) : List Nat :=
  ((List.range (h - 2)).map (· + 1)).flatMap fun y =>
    ((List.range (w - 2)).map (· + 1)).map fun x => y * w + x

/-- Foreground and background neighbour counts of the interior pixel (x, y):
the source reads mask[(y+dy8[d])*width+(x+dx8[d])] without a bounds check. -/
def nbrCounts (w : Nat) (m : Nat → Nat) (x y : Nat) : Nat × Nat :=
  (List.range 8).foldl (fun (c : Nat × Nat) d =>
    let nm := m ((((y : Int) + dy8.getD d 0) * w + ((x : Int) + dx8.getD d 0)).toNat)
    if nm = 3 then (c.1 + 1, c.2) else if nm = 1 then (c.1, c.2 + 1) else c) (0, 0)

/-- One transition-refinement visit: promote when fg > bg and fg >= 3, else
demote when bg >= 5, else leave the pixel as is. -/
def refineVisit (w : Nat) (m : Nat → Nat) (i : Nat) : Nat → Nat :=
  if m i ≠ 2 then m
  else
    let c := nbrCounts w m (xOf w i) (yOf w i)
    if c.1 > c.2 ∧ c.1 ≥ 3 then Function.update m i 3
    else if c.2 ≥ 5 then Function.update m i 1
    else m

/-- Phase 3 of advancedBackgroundRemoval: a single in-place pass over the
interior pixels in scan order. -/
def phase3 (w h : Nat) (m : Nat → Nat) : Nat → Nat :=
  (interiorIndices w h).foldl (refineVisit w) m

/-! ## Phase 4: boundary cleanup -/

/-- The touchesBg test of phase 4: some direction d < 8 leaves the image
(out-of-bounds neighbours count as touching background) or hits a pixel whose
mask is 1. -/
def touchesBackground (w h : Nat) (m : Nat → Nat) (i : Nat) : Bool :=
  (List.range 8).any fun d =>
    match neighborIdx w h i d with
    | none => true
    | some ni => m ni == 1

/-- One boundary-cleanup visit, threading the mask and the reclassification
counter pc of the current pass. -/
def boundaryVisit (w h : Nat) (dem : Nat → ℚ) (labTh : ℚ)
    (st : (Nat → Nat) × Nat) (i : Nat) : (Nat → Nat) × Nat :=
  if st.1 i ≠ 3 ∧ st.1 i ≠ 2 then st
  else if ¬ touchesBackground w h st.1 i then st
  else if dem i ≤ qMul labTh (mkRat 15 10) then (Function.update st.1 i 1, st.2 + 1)
  else if dem i ≤ qMul labTh (mkRat 22 10) then (Function.update st.1 i 2, st.2 + 1)
  else st

/-- One full boundary-cleanup pass over all pixels in scan order, returning
the updated mask and the pass counter pc. -/
def boundaryPass (w h : Nat) (dem : Nat → ℚ) (labTh : ℚ) (m : Nat → Nat) :
    (Nat → Nat) × Nat :=
  (List.range (w * h)).foldl (boundaryVisit w h dem labTh) (m, 0)

/-- The for pass < 5 loop of phase 4, stopping as soon as a pass reports
pc = 0. -/
def phase4Loop (w h : Nat) (dem : Nat → ℚ) (labTh : ℚ) :
    Nat → (Nat → Nat) → (Nat → Nat)
  | 0, m => m
  | fuel + 1, m =>
    let p := boundaryPass w h dem labTh m
    if p.2 = 0 then p.1 else phase4Loop w h dem labTh fuel p.1

/-- Phase 4 of advancedBackgroundRemoval: at most five boundary passes. -/
def phase4 (w h : Nat) (dem : Nat → ℚ) (labTh : ℚ) (m : Nat → Nat) : Nat → Nat :=
  phase4Loop w h dem labTh 5 m

/-! ## Phase 5: applying the mask to the alpha channel -/

/-- Alpha of a transition pixel: Math.floor(Math.max(0, Math.min(255,
(dem[i]-labTh)/(transTh-labTh) * 255))). -/
def transitionAlpha (d labTh transTh : ℚ) : Nat :=
  (⌊jsMaxQ 0 (jsMinQ 255 (qMul (qDiv (qSub d labTh) (qSub transTh labTh)) 255))⌋).toNat

/-- One phase-5 visit: background pixels get alpha 0, transition pixels the
interpolated alpha, all other pixels are untouched. -/
def applyMaskVisit (channels : Nat) (m : Nat → Nat) (dem : Nat → ℚ)
    (labTh transTh : ℚ) (res : Nat → Nat) (i : Nat) : Nat → Nat :=
  if m i = 1 then Function.update res (i * channels + 3) 0
  else if m i = 2 then
    Function.update res (i * channels + 3) (transitionAlpha (dem i) labTh transTh)
  else res

/-- Phase 5 of advancedBackgroundRemoval: write the mask into the alpha
channel of a copy of the input buffer. -/
def applyMask (tp channels : Nat) (m : Nat → Nat) (dem : Nat → ℚ)
    (labTh transTh : ℚ) (data : Nat → Nat) : Nat → Nat :=
  (List.range tp).foldl (applyMaskVisit channels m dem labTh transTh) data

/-! ## The full removal core -/

/-- Result of advancedBackgroundRemoval: the RGBA buffer and the mask. -/
structure RemovalResult where
  result : Nat → Nat
  mask : Nat → Nat

/-- The five-phase advancedBackgroundRemoval of the source. The delta-E map
dem stands for the Float32Array the source precomputes from the data buffer
(one perceptual distance to the background colour per pixel); every phase of
the source reads only that map. -/
def advancedBackgroundRemoval (data : Nat → Nat) (w h channels : Nat)
    (dem : Nat → ℚ) (threshold : ℚ) (minIslandSize : Nat) : RemovalResult :=
  let labTh := labThOf threshold
  let transTh := transThOf labTh
  let m1 := phase1 w h dem labTh transTh
  let m2 := phase2 w h dem labTh transTh minIslandSize m1
  let m3 := phase3 w h m2
  let m4 := phase4 w h dem labTh m3
  ⟨applyMask (w * h) channels m4 dem labTh transTh data, m4⟩

/-! ## Post-filters -/

/-- Integer interval [lo, hi) as a list, the range of a JavaScript for loop. -/
def intRange (lo hi : Int) : List Int :=
  (List.range (hi - lo).toNat).map fun k : Nat => lo + (k : Int)

/-- The neighbourhood test of smartErosion: some offset (kx, ky) in the
radius-r box other than (0,0) leaves the image or hits a mask-1 pixel. -/
def erodeTouch (w h : Nat) (m : Nat → Nat) (r : Nat) (x y : Nat) : Bool :=
  (intRange (-(r : Int)) (r + 1)).any fun ky =>
    (intRange (-(r : Int)) (r + 1)).any fun kx =>
      if kx = 0 ∧ ky = 0 then false
      else
        let ny := (y : Int) + ky
        let nx := (x : Int) + kx
        if ny < 0 ∨ (h : Int) ≤ ny ∨ nx < 0 ∨ (w : Int) ≤ nx then true
        else m ((ny * w + nx).toNat) == 1

/-- smartErosion of the source: collect every not-fully-transparent pixel
whose radius-r box touches background or the image boundary, then zero its
alpha and set its mask to 1. Returns the updated buffer and mask. -/
def smartErosion (data : Nat → Nat) (w h ch : Nat) (m : Nat → Nat) (r : Nat) :
    (Nat → Nat) × (Nat → Nat) :=
  let toE := (List.range h).flatMap fun y =>
    ((List.range w).filter fun x =>
      data ((y * w + x) * ch + 3) != 0 && erodeTouch w h m r x y).map fun x => y * w + x
  (toE.foldl (fun res i => Function.update res (i * ch + 3) 0) data,
   toE.foldl (fun mm i => Function.update mm i 1) m)

/-- JavaScript Math.round: floor of x + 1/2 (halves round up). -/
def jsRound (q : ℚ) : Int := ⌊qAdd q (mkRat 1 2)⌋

/-- Clamp of an integer to the byte range, Math.max(0, Math.min(255, z)). -/
def clampByte (z : Int) : Int := zMax 0 (zMin 255 z)

/-- An RGB colour triple of byte values. -/
structure RGB where
  r : Nat
  g : Nat
  b : Nat
deriving DecidableEq

/-- One colour channel of smartDecontamination:
Math.max(0, Math.min(255, Math.round((obs - bgc*(1-af))/af))). -/
def decontChannel (obs bgc : Nat) (af : ℚ) : Nat :=
  (clampByte (jsRound (qDiv (qSub (qOfNat obs) (qMul (qOfNat bgc) (qSub 1 af))) af))).toNat

/-- One pixel of smartDecontamination: skip alpha 0, alpha 255 and non-
transition pixels; force alpha 0 below af = 0.1; otherwise un-premultiply the
three colour channels in place. -/
def decontVisit (ch : Nat) (m : Nat → Nat) (bg : RGB) (res : Nat → Nat) (i : Nat) :
    Nat → Nat :=
  let o := i * ch
  let a := res (o + 3)
  if a = 0 ∨ a = 255 ∨ m i ≠ 2 then res
  else
    let af : ℚ := qDiv (qOfNat a) 255
    if af < mkRat 1 10 then Function.update res (o + 3) 0
    else
      let r1 := Function.update res o (decontChannel (res o) bg.r af)
      let r2 := Function.update r1 (o + 1) (decontChannel (r1 (o + 1)) bg.g af)
      Function.update r2 (o + 2) (decontChannel (r2 (o + 2)) bg.b af)

/-- smartDecontamination of the source: a single pass over all pixels. -/
def smartDecontamination (data : Nat → Nat) (w h ch : Nat) (m : Nat → Nat)
    (bg : RGB) : Nat → Nat :=
  (List.range (w * h)).foldl (decontVisit ch m bg) data

/-! ## Background detection -/

/-- The eight fixed sample areas of detectBackgroundColor, s = 10. -/
def sampleAreas (w h : Nat) : List (Int × Int) :=
  [(0, 0), ((w : Int) - 10, 0), (0, (h : Int) - 10), ((w : Int) - 10, (h : Int) - 10),
   ((w / 2 : Nat) - 5, 0), ((w / 2 : Nat) - 5, (h : Int) - 10),
   (0, (h / 2 : Nat) - 5), ((w : Int) - 10, (h / 2 : Nat) - 5)]

/-- The sampled pixel coordinates: for each area, y from a.y to
min(a.y+10, height) and x from a.x to min(a.x+10, width). The lower bounds
are not clamped, so degenerate rasters produce negative coordinates. -/
def samplePixels (w h : Nat) : List (Int × Int) :=
  (sampleAreas w h).flatMap fun a =>
    (intRange a.2 (min (a.2 + 10) h)).flatMap fun y =>
      (intRange a.1 (min (a.1 + 10) w)).map fun x => (x, y)

/-- The flat buffer offsets o = (y*width+x)*channels read by the sampler
(the red channel; the source also reads o+1 and o+2). -/
def sampleOffsets (w h ch : Nat) : List Int :=
  (samplePixels w h).map fun p => (p.2 * w + p.1) * ch

/-- The RGB samples pushed by the sampling loops. -/
def samplesOf (data : Int → Nat) (w h ch : Nat) : List RGB :=
  (sampleOffsets w h ch).map fun o => ⟨data o, data (o + 1), data (o + 2)⟩

/-- One accumulated colour bucket of the detector. -/
structure Bucket where
  n : Nat
  r : Nat
  g : Nat
  b : Nat
deriving DecidableEq

/-- The 5-unit quantised bucket key of a sample. -/
def bucketKey (c : RGB) : Nat × Nat × Nat :=
  (c.r / 5 * 5, c.g / 5 * 5, c.b / 5 * 5)

/-- Insertion of one sample into the bucket map (an association list in
insertion order, as a JavaScript Map iterates). -/
def addSample (cc : List ((Nat × Nat × Nat) × Bucket)) (c : RGB) :
    List ((Nat × Nat × Nat) × Bucket) :=
  let k := bucketKey c
  if cc.any fun e => e.1 = k then
    cc.map fun e => if e.1 = k then (e.1, ⟨e.2.n + 1, e.2.r + c.r, e.2.g + c.g, e.2.b + c.b⟩) else e
  else cc ++ [(k, ⟨1, c.r, c.g, c.b⟩)]

/-- Rounded per-channel mean Math.round(e.r / e.n) of a bucket channel. -/
def roundedMean (s n : Nat) : Nat := (jsRound (qDiv (qOfNat s) (qOfNat n))).toNat

/-- The centroid of a bucket. -/
def bucketCentroid (e : Bucket) : RGB :=
  ⟨roundedMean e.r e.n, roundedMean e.g e.n, roundedMean e.b e.n⟩

/-- The dominant-bucket fold: mx starts at 0 and dom at opaque white, and a
bucket replaces dom exactly when its count strictly exceeds all before it. -/
def pickDominant (cc : List ((Nat × Nat × Nat) × Bucket)) : RGB :=
  (cc.foldl (fun (acc : Nat × RGB) e =>
    if e.2.n > acc.1 then (e.2.n, bucketCentroid e.2) else acc) (0, ⟨255, 255, 255⟩)).2

/-- detectBackgroundColor of the source. The data buffer is a total function
on integer offsets because the sampling loops of the source index the buffer
at negative offsets on rasters narrower or shorter than the sample blocks. -/
def detectBackgroundColor (data : Int → Nat) (w h ch : Nat) : RGB :=
  pickDominant ((samplesOf data w h ch).foldl addSample [])

/-! ## Spec-side predicates -/

/-- The background-coloured in-range pixels (delta-E within labTh). -/
def Low (w h : Nat) (dem : Nat → ℚ) (labTh : ℚ) : Set Nat :=
  {i | i < w * h ∧ dem i ≤ labTh}

/-- One step between adjacent members of a pixel set. -/
def StepIn (S : Set Nat) (w h : Nat) (i j : Nat) : Prop :=
  i ∈ S ∧ j ∈ S ∧ Adj w h i j

/-- Connectivity inside a pixel set (8-connected paths staying in S). -/
def ConnIn (S : Set Nat) (w h : Nat) (i j : Nat) : Prop :=
  i ∈ S ∧ j ∈ S ∧ Relation.ReflTransGen (StepIn S w h) i j

/-- The pixel is reachable from a border pixel through background-coloured
pixels: the region the border flood fill is meant to cover. -/
def ReachB (w h : Nat) (dem : Nat → ℚ) (labTh : ℚ) (i : Nat) : Prop :=
  ∃ b, OnBorder w h b ∧ ConnIn (Low w h dem labTh) w h b i

/-! ## Basic facts about the grid -/

theorem foldl_preserve {α β : Type _} {P : α → Prop} {f : α → β → α} {l : List β}
    (h : ∀ a b, P a → b ∈ l → P (f a b)) {a : α} (ha : P a) : P (l.foldl f a) := by
  induction l generalizing a with
  | nil => exact ha
  | cons b t ih =>
    exact ih (fun a c hc hm => h a c hc (List.mem_cons_of_mem _ hm))
      (h a b ha (List.mem_cons_self _ _))

theorem toNat_encode (nx ny : Int) (w : Nat) (hnx : 0 ≤ nx) (hny : 0 ≤ ny) :
    ((ny * w + nx).toNat) = ny.toNat * w + nx.toNat := by
  obtain ⟨a, rfl⟩ := Int.eq_ofNat_of_zero_le hny
  obtain ⟨b, rfl⟩ := Int.eq_ofNat_of_zero_le hnx
  rw [← Int.natCast_mul, ← Int.natCast_add, Int.toNat_natCast]
  simp

theorem xOf_encode {w : Nat} (x y : Nat) (hx : x < w) : xOf w (y * w + x) = x := by
  rw [xOf, Nat.mul_comm y w, Nat.mul_add_mod, Nat.mod_eq_of_lt hx]

theorem yOf_encode {w : Nat} (x y : Nat) (hx : x < w) : yOf w (y * w + x) = y := by
  have hw : 0 < w := Nat.pos_of_ne_zero (by rintro rfl; omega)
  rw [yOf, Nat.mul_comm y w, Nat.mul_add_div hw, Nat.div_eq_of_lt hx, Nat.add_zero]

theorem encode_lt {w h : Nat} (x y : Nat) (hx : x < w) (hy : y < h) :
    y * w + x < w * h := by
  calc y * w + x < y * w + w := by omega
  _ = (y + 1) * w := by ring
  _ ≤ h * w := Nat.mul_le_mul_right w hy
  _ = w * h := Nat.mul_comm h w

theorem decode_id {w : Nat} (i : Nat) (hw : 0 < w) : yOf w i * w + xOf w i = i := by
  rw [xOf, yOf, Nat.mul_comm]
  exact Nat.div_add_mod i w

theorem xOf_lt {w : Nat} (i : Nat) (hw : 0 < w) : xOf w i < w := Nat.mod_lt i hw

theorem yOf_lt {w h : Nat} (i : Nat) (hw : 0 < w) (hi : i < w * h) : yOf w i < h := by
  rw [yOf]
  exact Nat.div_lt_of_lt_mul (by omega)

theorem lt_of_yOf_lt {w h : Nat} (i : Nat) (hw : 0 < w) (hy : yOf w i < h) :
    i < w * h := by
  calc i = yOf w i * w + xOf w i := (decode_id i hw).symm
  _ < w * h := encode_lt _ _ (xOf_lt i hw) hy

/-- Unfolding of a successful neighbour lookup. -/
theorem neighborIdx_some {w h i d j : Nat} (hn : neighborIdx w h i d = some j) :
    0 ≤ (xOf w i : Int) + dx8.getD d 0 ∧ (xOf w i : Int) + dx8.getD d 0 < w ∧
    0 ≤ (yOf w i : Int) + dy8.getD d 0 ∧ (yOf w i : Int) + dy8.getD d 0 < h ∧
    j = ((yOf w i : Int) + dy8.getD d 0).toNat * w + ((xOf w i : Int) + dx8.getD d 0).toNat := by
  rw [neighborIdx] at hn
  split at hn
  · rename_i hcond
    obtain ⟨h1, h2, h3, h4⟩ := hcond
    injection hn with hj
    refine ⟨h1, h2, h3, h4, ?_⟩
    rw [← hj, toNat_encode _ _ w h1 h3]
  · exact absurd hn (by simp)

theorem neighborIdx_lt {w h i d j : Nat} (hn : neighborIdx w h i d = some j) :
    j < w * h := by
  obtain ⟨h1, h2, h3, h4, rfl⟩ := neighborIdx_some hn
  exact encode_lt _ _ (by omega) (by omega)

theorem neighborIdx_xOf {w h i d j : Nat} (hn : neighborIdx w h i d = some j) :
    (xOf w j : Int) = (xOf w i : Int) + dx8.getD d 0 := by
  obtain ⟨h1, h2, h3, h4, rfl⟩ := neighborIdx_some hn
  rw [xOf_encode _ _ (by omega)]
  omega

theorem neighborIdx_yOf {w h i d j : Nat} (hn : neighborIdx w h i d = some j) :
    (yOf w j : Int) = (yOf w i : Int) + dy8.getD d 0 := by
  obtain ⟨h1, h2, h3, h4, rfl⟩ := neighborIdx_some hn
  rw [yOf_encode _ _ (by omega)]
  omega

/-- A successful lookup in the reverse direction: if pixel i is in range and
its coordinates differ from those of j by the d-th offset vector, the lookup
of the opposite direction from j recovers i. -/
theorem neighborIdx_eq_of_coords {w h j : Nat} (i : Nat) (d : Nat)
    (hxr : 0 ≤ (xOf w j : Int) + dx8.getD d 0) (hxw : (xOf w j : Int) + dx8.getD d 0 < w)
    (hyr : 0 ≤ (yOf w j : Int) + dy8.getD d 0) (hyh : (yOf w j : Int) + dy8.getD d 0 < h)
    (hx : (xOf w i : Int) = (xOf w j : Int) + dx8.getD d 0)
    (hy : (yOf w i : Int) = (yOf w j : Int) + dy8.getD d 0)
    (hi : i < w * h) : neighborIdx w h j d = some i := by
  rw [neighborIdx]
  have hcond : 0 ≤ (xOf w j : Int) + dx8.getD d 0 ∧ (xOf w j : Int) + dx8.getD d 0 < w ∧
      0 ≤ (yOf w j : Int) + dy8.getD d 0 ∧ (yOf w j : Int) + dy8.getD d 0 < h :=
    ⟨hxr, hxw, hyr, hyh⟩
  simp only [if_pos hcond]
  congr 1
  have hw : 0 < w := by
    rcases Nat.eq_zero_or_pos w with rfl | hw
    · simp [xOf, Nat.mod_zero] at hxw
      omega
    · exact hw
  have := toNat_encode ((xOf w j : Int) + dx8.getD d 0) ((yOf w j : Int) + dy8.getD d 0) w hxr hyr
  rw [this, ← hx, ← hy]
  simp only [Int.toNat_natCast]
  exact decode_id i hw

theorem adj_symm {w h i j : Nat} (hi : i < w * h) (ha : Adj w h i j) : Adj w h j i := by
  obtain ⟨d, hd, hn⟩ := ha
  have hx := neighborIdx_xOf hn
  have hy := neighborIdx_yOf hn
  have hw : 0 < w := by
    rcases Nat.eq_zero_or_pos w with rfl | hw
    · omega
    · exact hw
  have hh : 0 < h := by
    rcases Nat.eq_zero_or_pos h with rfl | hh
    · omega
    · exact hh
  have hxi : xOf w i < w := xOf_lt i hw
  have hyi : yOf w i < h := yOf_lt i hw hi
  -- the opposite direction of each of the eight offsets
  have hpair : ∃ e, e < 8 ∧ dx8.getD e 0 = -(dx8.getD d 0) ∧ dy8.getD e 0 = -(dy8.getD d 0) := by
    interval_cases d
    · exact ⟨1, by decide⟩
    · exact ⟨0, by decide⟩
    · exact ⟨3, by decide⟩
    · exact ⟨2, by decide⟩
    · exact ⟨7, by decide⟩
    · exact ⟨6, by decide⟩
    · exact ⟨5, by decide⟩
    · exact ⟨4, by decide⟩
  obtain ⟨e, he, hex, hey⟩ := hpair
  refine ⟨e, he, neighborIdx_eq_of_coords i e ?_ ?_ ?_ ?_ ?_ ?_ hi⟩ <;>
    simp only [hex, hey] <;> omega

theorem adj_lt {w h i j : Nat} (ha : Adj w h i j) : j < w * h := by
  obtain ⟨d, hd, hn⟩ := ha
  exact neighborIdx_lt hn

/-! ## Phase-1 correctness: the flood fill computes border reachability -/

/-- The classification the flood fill gives a fresh pixel. -/
def classify (dem : Nat → ℚ) (labTh transTh : ℚ) (j : Nat) : Nat :=
  if dem j ≤ labTh then 1 else if dem j ≤ transTh then 2 else 3

/-- Count of still-unclassified in-range pixels (the termination measure). -/
def czCount (tp : Nat) (m : Nat → Nat) : Nat :=
  ((Finset.range tp).filter fun i => m i = 0).card

theorem czCount_update_lt {tp : Nat} {m : Nat → Nat} {i v : Nat}
    (hi : i < tp) (hm : m i = 0) (hv : v ≠ 0) :
    czCount tp (Function.update m i v) + 1 ≤ czCount tp m := by
  have hmem : i ∈ (Finset.range tp).filter (fun j => m j = 0) := by
    simp [hi, hm]
  have hsub : (Finset.range tp).filter (fun j => Function.update m i v j = 0) ⊆
      ((Finset.range tp).filter fun j => m j = 0).erase i := by
    intro j hj
    simp only [Finset.mem_filter, Finset.mem_range] at hj
    rcases eq_or_ne j i with rfl | hne
    · rw [Function.update_same] at hj
      exact absurd hj.2 hv
    · rw [Function.update_noteq hne] at hj
      simp [Finset.mem_erase, hne, hj.1, hj.2]
  calc czCount tp (Function.update m i v) + 1
      ≤ (((Finset.range tp).filter fun j => m j = 0).erase i).card + 1 :=
        Nat.add_le_add_right (Finset.card_le_card hsub) 1
  _ = czCount tp m := by
        rw [Finset.card_erase_of_mem hmem]
        have : 0 < czCount tp m := Finset.card_pos.mpr ⟨i, hmem⟩
        unfold czCount at *
        omega

theorem czCount_update_le {tp : Nat} {m : Nat → Nat} {i v : Nat} (hv : v ≠ 0) :
    czCount tp (Function.update m i v) ≤ czCount tp m := by
  apply Finset.card_le_card
  intro j hj
  simp only [Finset.mem_filter, Finset.mem_range] at hj ⊢
  rcases eq_or_ne j i with rfl | hne
  · rw [Function.update_same] at hj
    exact absurd hj.2 hv
  · rw [Function.update_noteq hne] at hj
    exact hj

section Phase1

variable (w h : Nat) (dem : Nat → ℚ) (labTh transTh : ℚ)

theorem expandNbr_stable {st : FloodState} {o : Option Nat} {j : Nat}
    (hj : st.mask j ≠ 0) :
    (expandNbr dem labTh transTh st o).mask j = st.mask j := by
  rcases o with _ | ni
  · rfl
  · rcases eq_or_ne j ni with rfl | hne
    · simp [expandNbr, hj]
    · by_cases h0 : st.mask ni ≠ 0
      · simp [expandNbr, h0]
      · by_cases hlab : dem ni ≤ labTh
        · simp [expandNbr, h0, hlab, Function.update_noteq hne]
        · by_cases htr : dem ni ≤ transTh <;>
            simp [expandNbr, h0, hlab, htr, Function.update_noteq hne]

theorem expandNbr_other {st : FloodState} {ni j : Nat} (hne : j ≠ ni) :
    (expandNbr dem labTh transTh st (some ni)).mask j = st.mask j := by
  by_cases h0 : st.mask ni ≠ 0
  · simp [expandNbr, h0]
  · by_cases hlab : dem ni ≤ labTh
    · simp [expandNbr, h0, hlab, Function.update_noteq hne]
    · by_cases htr : dem ni ≤ transTh <;>
        simp [expandNbr, h0, hlab, htr, Function.update_noteq hne]

theorem expandNbr_none {st : FloodState} :
    expandNbr dem labTh transTh st none = st := rfl

theorem expandNbr_fresh {s : FloodState} {n : Nat} (hm : s.mask n = 0) :
    (expandNbr dem labTh transTh s (some n)).mask n =
      classify dem labTh transTh n := by
  by_cases hlab : dem n ≤ labTh
  · simp [expandNbr, classify, hm, hlab]
  · by_cases htr : dem n ≤ transTh <;> simp [expandNbr, classify, hm, hlab, htr]

theorem expandNbr_queue {s : FloodState} {o : Option Nat} :
    (expandNbr dem labTh transTh s o).queue = s.queue ∨
    ∃ ni, o = some ni ∧ (expandNbr dem labTh transTh s o).queue = s.queue ++ [ni] ∧
      s.mask ni = 0 ∧ dem ni ≤ labTh ∧
      (expandNbr dem labTh transTh s o).mask ni = 1 := by
  rcases o with _ | ni
  · exact Or.inl rfl
  · rw [expandNbr]
    by_cases h0 : s.mask ni ≠ 0
    · simp [h0]
    · push_neg at h0
      by_cases hlab : dem ni ≤ labTh
      · refine Or.inr ⟨ni, rfl, ?_⟩
        simp [h0, hlab]
      · by_cases htr : dem ni ≤ transTh <;> simp [h0, hlab, htr]

theorem classify_ne_zero (j : Nat) : classify dem labTh transTh j ≠ 0 := by
  rw [classify]
  split
  · simp
  · split <;> simp

theorem classify_one {j : Nat} (hl : dem j ≤ labTh) :
    classify dem labTh transTh j = 1 := by
  rw [classify, if_pos hl]

theorem expandNbr_enqueue {s : FloodState} {n : Nat}
    (hm : s.mask n = 0) (hl : dem n ≤ labTh) :
    (expandNbr dem labTh transTh s (some n)).queue = s.queue ++ [n] := by
  simp [expandNbr, hm, hl]

theorem expandNbr_measure {t : Nat} {st : FloodState} {o : Option Nat}
    (ho : ∀ ni, o = some ni → ni < t) :
    2 * czCount t (expandNbr dem labTh transTh st o).mask +
      (expandNbr dem labTh transTh st o).queue.length ≤
    2 * czCount t st.mask + st.queue.length := by
  rcases o with _ | ni
  · exact le_refl _
  · have hni : ni < t := ho ni rfl
    by_cases h0 : st.mask ni ≠ 0
    · simp [expandNbr, h0]
    · push_neg at h0
      by_cases hlab : dem ni ≤ labTh
      · have := czCount_update_lt (m := st.mask) (v := 1) hni h0 (by omega)
        simp only [expandNbr, h0, hlab]
        norm_num
        omega
      · by_cases htr : dem ni ≤ transTh
        · have := czCount_update_lt (m := st.mask) (v := 2) hni h0 (by omega)
          simp only [expandNbr, h0, hlab, htr]
          norm_num
          omega
        · have := czCount_update_lt (m := st.mask) (v := 3) hni h0 (by omega)
          simp only [expandNbr, h0, hlab, htr]
          norm_num
          omega

/-- The neighbour fold of one dequeued pixel, as it appears in expandPixel,
over an arbitrary direction list. -/
def nbrFold (w h : Nat) (dem : Nat → ℚ) (labTh transTh : ℚ) (ci : Nat)
    (ds : List Nat) (st : FloodState) : FloodState :=
  ds.foldl (fun s d => expandNbr dem labTh transTh s (neighborIdx w h ci d)) st

theorem expandPixel_eq_nbrFold (ci : Nat) (st : FloodState) :
    expandPixel w h dem labTh transTh st ci =
      nbrFold w h dem labTh transTh ci (List.range 8) st := rfl

theorem nbrFold_stable (ci : Nat) (ds : List Nat) :
    ∀ st : FloodState, ∀ j, st.mask j ≠ 0 →
    (nbrFold w h dem labTh transTh ci ds st).mask j = st.mask j := by
  induction ds with
  | nil => intro st j hj; rfl
  | cons d ds ih =>
    intro st j hj
    rw [nbrFold, List.foldl_cons, ← nbrFold]
    rw [ih _ j (by rw [expandNbr_stable dem labTh transTh hj]; exact hj),
      expandNbr_stable dem labTh transTh hj]

theorem nbrFold_hit (ci : Nat) (ds : List Nat) :
    ∀ st : FloodState, ∀ j, st.mask j = 0 →
    (∃ d ∈ ds, neighborIdx w h ci d = some j) →
    (nbrFold w h dem labTh transTh ci ds st).mask j = classify dem labTh transTh j := by
  induction ds with
  | nil => intro st j _ hd; simp at hd
  | cons d ds ih =>
    intro st j hj hd
    rw [nbrFold, List.foldl_cons, ← nbrFold]
    by_cases hhit : neighborIdx w h ci d = some j
    · rw [hhit]
      rw [nbrFold_stable w h dem labTh transTh ci ds _ j
        (by rw [expandNbr_fresh dem labTh transTh hj]; exact classify_ne_zero _ _ _ _),
        expandNbr_fresh dem labTh transTh hj]
    · have hj1 : (expandNbr dem labTh transTh st (neighborIdx w h ci d)).mask j = 0 := by
        rcases hn : neighborIdx w h ci d with _ | ni
        · exact hj
        · have hne : j ≠ ni := by rintro rfl; exact hhit hn
          rw [expandNbr_other dem labTh transTh hne]
          exact hj
      refine ih _ j hj1 ?_
      obtain ⟨e, he, hne⟩ := hd
      rcases List.mem_cons.mp he with rfl | hmem
      · exact absurd hne hhit
      · exact ⟨e, hmem, hne⟩

theorem nbrFold_miss (ci : Nat) (ds : List Nat) :
    ∀ st : FloodState, ∀ j, st.mask j = 0 →
    (∀ d ∈ ds, neighborIdx w h ci d ≠ some j) →
    (nbrFold w h dem labTh transTh ci ds st).mask j = 0 := by
  induction ds with
  | nil => intro st j hj _; exact hj
  | cons d ds ih =>
    intro st j hj hmiss
    rw [nbrFold, List.foldl_cons, ← nbrFold]
    have hj1 : (expandNbr dem labTh transTh st (neighborIdx w h ci d)).mask j = 0 := by
      rcases hn : neighborIdx w h ci d with _ | ni
      · exact hj
      · have hne : j ≠ ni := by
          rintro rfl
          exact hmiss d (List.mem_cons_self _ _) hn
        rw [expandNbr_other dem labTh transTh hne]
        exact hj
    exact ih _ j hj1 fun e he => hmiss e (List.mem_cons_of_mem _ he)

theorem nbrFold_queue_prefix (ci : Nat) (ds : List Nat) :
    ∀ st : FloodState, ∃ new, (nbrFold w h dem labTh transTh ci ds st).queue =
      st.queue ++ new := by
  induction ds with
  | nil => exact fun st => ⟨[], by simp [nbrFold]⟩
  | cons d ds ih =>
    intro st
    rw [nbrFold, List.foldl_cons, ← nbrFold]
    obtain ⟨new1, h1⟩ := ih (expandNbr dem labTh transTh st (neighborIdx w h ci d))
    rcases expandNbr_queue dem labTh transTh
        (s := st) (o := neighborIdx w h ci d) with hq | ⟨ni, _, hq, _⟩
    · exact ⟨new1, by rw [h1, hq]⟩
    · exact ⟨ni :: new1, by rw [h1, hq]; simp⟩

theorem nbrFold_queue_mem (ci : Nat) (ds : List Nat) :
    ∀ st : FloodState, ∀ j, j ∈ (nbrFold w h dem labTh transTh ci ds st).queue →
    j ∈ st.queue ∨ ((∃ d ∈ ds, neighborIdx w h ci d = some j) ∧ st.mask j = 0 ∧
      dem j ≤ labTh) := by
  induction ds with
  | nil => exact fun st j hj => Or.inl hj
  | cons d ds ih =>
    intro st j hj
    rw [nbrFold, List.foldl_cons, ← nbrFold] at hj
    rcases ih _ j hj with hmem | ⟨⟨e, he, hne⟩, hm0, hlow⟩
    · rcases expandNbr_queue dem labTh transTh
          (s := st) (o := neighborIdx w h ci d) with hq | ⟨ni, ho, hq, hm, hl, _⟩
      · rw [hq] at hmem
        exact Or.inl hmem
      · rw [hq] at hmem
        rcases List.mem_append.mp hmem with hmem | hmem
        · exact Or.inl hmem
        · rcases List.mem_singleton.mp hmem with rfl
          exact Or.inr ⟨⟨d, List.mem_cons_self _ _, ho⟩, hm, hl⟩
    · have hm0' : st.mask j = 0 := by
        by_contra hne0
        rw [expandNbr_stable dem labTh transTh hne0] at hm0
        exact hne0 hm0
      exact Or.inr ⟨⟨e, List.mem_cons_of_mem _ he, hne⟩, hm0', hlow⟩

theorem nbrFold_queue_one (ci : Nat) (ds : List Nat) :
    ∀ st : FloodState, ∀ j, st.mask j = 0 →
    (nbrFold w h dem labTh transTh ci ds st).mask j = 1 →
    j ∈ (nbrFold w h dem labTh transTh ci ds st).queue := by
  induction ds with
  | nil =>
    intro st j hj hm
    rw [nbrFold, List.foldl_nil] at hm
    omega
  | cons d ds ih =>
    intro st j hj hm
    rw [nbrFold, List.foldl_cons, ← nbrFold] at hm ⊢
    by_cases hhit : neighborIdx w h ci d = some j
    · have hfresh := expandNbr_fresh dem labTh transTh (s := st) (n := j) hj
      by_cases hlab : dem j ≤ labTh
      · have henq := expandNbr_enqueue dem labTh transTh (s := st) hj hlab
        obtain ⟨new, hq⟩ := nbrFold_queue_prefix w h dem labTh transTh ci ds
          (expandNbr dem labTh transTh st (neighborIdx w h ci d))
        rw [hq, hhit, henq]
        simp
      · rw [hhit] at hm
        rw [nbrFold_stable w h dem labTh transTh ci ds _ j
            (by rw [hfresh]; exact classify_ne_zero _ _ _ _), hfresh] at hm
        rw [classify, if_neg hlab] at hm
        split at hm <;> omega
    · have hj1 : (expandNbr dem labTh transTh st (neighborIdx w h ci d)).mask j = 0 := by
        rcases hn : neighborIdx w h ci d with _ | ni
        · exact hj
        · have hne : j ≠ ni := by rintro rfl; exact hhit hn
          rw [expandNbr_other dem labTh transTh hne]
          exact hj
      exact ih _ j hj1 hm

theorem nbrFold_measure {t : Nat} (ci : Nat) (ds : List Nat)
    (hci : ∀ d ni, neighborIdx w h ci d = some ni → ni < t) :
    ∀ st : FloodState,
    2 * czCount t (nbrFold w h dem labTh transTh ci ds st).mask +
      (nbrFold w h dem labTh transTh ci ds st).queue.length ≤
    2 * czCount t st.mask + st.queue.length := by
  induction ds with
  | nil => exact fun st => le_refl _
  | cons d ds ih =>
    intro st
    rw [nbrFold, List.foldl_cons, ← nbrFold]
    exact le_trans (ih _) (expandNbr_measure dem labTh transTh (hci d))

end Phase1

/-- The loop invariant of the phase-1 traversal (both the seeding loops and
the queue-driven flood loop): queue entries are background pixels, mask
values are in range and correctly banded, every background pixel is border
reachable, and a background pixel whose neighbours are not all settled is
still pending in the queue. -/
structure P1Inv (w h : Nat) (dem : Nat → ℚ) (labTh transTh : ℚ) (st : FloodState) :
    Prop where
  qmask : ∀ j ∈ st.queue, st.mask j = 1
  mzero : ∀ j, ¬ j < w * h → st.mask j = 0
  mvals : ∀ j, st.mask j ≤ 3
  m1 : ∀ j, st.mask j = 1 → dem j ≤ labTh ∧ j < w * h ∧ ReachB w h dem labTh j
  m2 : ∀ j, st.mask j = 2 → j < w * h ∧ labTh < dem j ∧ dem j ≤ transTh
  m3 : ∀ j, st.mask j = 3 → j < w * h ∧ transTh < dem j
  closed : ∀ j, st.mask j = 1 → j ∈ st.queue ∨
    ∀ d, d < 8 → ∀ k, neighborIdx w h j d = some k → dem k ≤ labTh → st.mask k = 1

section Phase1B

variable {w h : Nat} {dem : Nat → ℚ} {labTh transTh : ℚ}

theorem classify_eq_one_iff {j : Nat} :
    classify dem labTh transTh j = 1 ↔ dem j ≤ labTh := by
  rw [classify]
  split
  · simp_all
  · split <;> simp_all

theorem classify_le_three (j : Nat) : classify dem labTh transTh j ≤ 3 := by
  rw [classify]
  split
  · omega
  · split <;> omega

theorem classify_eq_two {j : Nat} (hc : classify dem labTh transTh j = 2) :
    labTh < dem j ∧ dem j ≤ transTh := by
  rw [classify] at hc
  split at hc
  · omega
  · split at hc
    · constructor
      · linarith [not_le.mp (by assumption : ¬ dem j ≤ labTh)]
      · assumption
    · omega

theorem classify_eq_three {j : Nat} (hc : classify dem labTh transTh j = 3) :
    transTh < dem j := by
  rw [classify] at hc
  split at hc
  · omega
  · split at hc
    · omega
    · linarith [not_le.mp (by assumption : ¬ dem j ≤ transTh)]

/-- Processing one dequeued background pixel preserves the invariant. -/
theorem expandPixel_inv {s : FloodState} {ci : Nat} {rest : List Nat}
    (hlt : labTh ≤ transTh)
    (hq : s.queue = ci :: rest) (hinv : P1Inv w h dem labTh transTh s) :
    P1Inv w h dem labTh transTh
      (expandPixel w h dem labTh transTh ⟨s.mask, rest⟩ ci) := by
  have hci1 : s.mask ci = 1 := hinv.qmask ci (by rw [hq]; exact List.mem_cons_self _ _)
  obtain ⟨hcilow, hcilt, hcireach⟩ := hinv.m1 ci hci1
  set stm : FloodState := ⟨s.mask, rest⟩ with hstm
  rw [expandPixel_eq_nbrFold]
  set st' := nbrFold w h dem labTh transTh ci (List.range 8) stm with hst'
  have hstable : ∀ j, s.mask j ≠ 0 → st'.mask j = s.mask j := fun j hj =>
    nbrFold_stable w h dem labTh transTh ci (List.range 8) stm j hj
  have hhit : ∀ j, s.mask j = 0 → (∃ d ∈ List.range 8, neighborIdx w h ci d = some j) →
      st'.mask j = classify dem labTh transTh j := fun j hj hd =>
    nbrFold_hit w h dem labTh transTh ci (List.range 8) stm j hj hd
  have hmiss : ∀ j, s.mask j = 0 → (∀ d ∈ List.range 8, neighborIdx w h ci d ≠ some j) →
      st'.mask j = 0 := fun j hj hd =>
    nbrFold_miss w h dem labTh transTh ci (List.range 8) stm j hj hd
  have hqmem := nbrFold_queue_mem w h dem labTh transTh ci (List.range 8) stm
  have hqone := nbrFold_queue_one w h dem labTh transTh ci (List.range 8) stm
  obtain ⟨new, hqpre⟩ := nbrFold_queue_prefix w h dem labTh transTh ci (List.range 8) stm
  have hrest_sub : ∀ j, j ∈ rest → j ∈ st'.queue := by
    intro j hj
    rw [hqpre]
    exact List.mem_append_left _ hj
  -- value of the new mask on an arbitrary pixel
  have hval : ∀ j, st'.mask j = s.mask j ∨
      (s.mask j = 0 ∧ (∃ d ∈ List.range 8, neighborIdx w h ci d = some j) ∧
        st'.mask j = classify dem labTh transTh j) := by
    intro j
    by_cases hj : s.mask j = 0
    · by_cases hd : ∃ d ∈ List.range 8, neighborIdx w h ci d = some j
      · exact Or.inr ⟨hj, hd, hhit j hj hd⟩
      · push_neg at hd
        exact Or.inl (by rw [hmiss j hj hd, hj])
    · exact Or.inl (hstable j hj)
  refine ⟨?_, ?_, ?_, ?_, ?_, ?_, ?_⟩
  · -- qmask
    intro j hj
    rcases hqmem j hj with hjr | ⟨hd, hm0, hlow⟩
    · have : s.mask j = 1 := hinv.qmask j (by rw [hq]; exact List.mem_cons_of_mem _ hjr)
      rw [hstable j (by omega)]
      exact this
    · rw [hhit j hm0 hd]
      exact classify_one dem labTh transTh hlow
  · -- mzero
    intro j hj
    have hm0 : s.mask j = 0 := hinv.mzero j hj
    refine hmiss j hm0 ?_
    intro d hd hk
    exact absurd (neighborIdx_lt hk) hj
  · -- mvals
    intro j
    rcases hval j with hsame | ⟨_, _, hcl⟩
    · rw [hsame]; exact hinv.mvals j
    · rw [hcl]; exact classify_le_three j
  · -- m1
    intro j hj
    rcases hval j with hsame | ⟨hm0, hd, hcl⟩
    · rw [hsame] at hj
      exact hinv.m1 j hj
    · rw [hcl] at hj
      have hlow : dem j ≤ labTh := classify_eq_one_iff.mp hj
      obtain ⟨e, he, hne⟩ := hd
      have hjlt : j < w * h := neighborIdx_lt hne
      obtain ⟨b, hb, hbLow, hbJ, hpath⟩ := hcireach
      refine ⟨hlow, hjlt, b, hb, hbLow, ⟨hjlt, hlow⟩, ?_⟩
      exact hpath.tail ⟨⟨hcilt, hcilow⟩, ⟨hjlt, hlow⟩,
        ⟨e, List.mem_range.mp he, hne⟩⟩
  · -- m2
    intro j hj
    rcases hval j with hsame | ⟨hm0, hd, hcl⟩
    · rw [hsame] at hj
      exact hinv.m2 j hj
    · rw [hcl] at hj
      obtain ⟨e, he, hne⟩ := hd
      exact ⟨neighborIdx_lt hne, classify_eq_two hj⟩
  · -- m3
    intro j hj
    rcases hval j with hsame | ⟨hm0, hd, hcl⟩
    · rw [hsame] at hj
      exact hinv.m3 j hj
    · rw [hcl] at hj
      obtain ⟨e, he, hne⟩ := hd
      exact ⟨neighborIdx_lt hne, classify_eq_three hj⟩
  · -- closed
    intro j hj
    rcases hval j with hsame | ⟨hm0, hd, hcl⟩
    · rw [hsame] at hj
      rcases hinv.closed j hj with hjq | hcl
      · rw [hq] at hjq
        rcases List.mem_cons.mp hjq with rfl | hjr
        · -- j = ci : all its low neighbours are now settled to 1
          refine Or.inr fun d hd k hk hklow => ?_
          by_cases hk0 : s.mask k = 0
          · rw [hhit k hk0 ⟨d, List.mem_range.mpr hd, hk⟩]
            exact classify_one dem labTh transTh hklow
          · rw [hstable k hk0]
            have hkv := hinv.mvals k
            interval_cases hkc : s.mask k
            · omega
            · rfl
            · obtain ⟨_, hgt, _⟩ := hinv.m2 k hkc
              exact absurd hklow (by linarith)
            · obtain ⟨_, hgt⟩ := hinv.m3 k hkc
              exact absurd hklow (by linarith)
        · exact Or.inl (hrest_sub j hjr)
      · refine Or.inr fun d hd k hk hklow => ?_
        have hone := hcl d hd k hk hklow
        rw [hstable k (by omega)]
        exact hone
    · rw [hcl] at hj
      have hlow : dem j ≤ labTh := classify_eq_one_iff.mp hj
      exact Or.inl (hqone j hm0 (by rw [← hcl] at hj; exact hj))

theorem czCount_le (tp : Nat) (m : Nat → Nat) : czCount tp m ≤ tp := by
  calc czCount tp m ≤ (Finset.range tp).card := Finset.card_filter_le _ _
  _ = tp := Finset.card_range tp

/-- With sufficient fuel the flood loop drains its queue while preserving the
invariant and never unsettling a settled pixel. -/
theorem floodLoop_spec (hlt : labTh ≤ transTh) :
    ∀ fuel (st : FloodState),
    2 * czCount (w * h) st.mask + st.queue.length ≤ fuel →
    P1Inv w h dem labTh transTh st →
    P1Inv w h dem labTh transTh (floodLoop w h dem labTh transTh fuel st) ∧
    (floodLoop w h dem labTh transTh fuel st).queue = [] ∧
    ∀ j, st.mask j ≠ 0 →
      (floodLoop w h dem labTh transTh fuel st).mask j = st.mask j := by
  intro fuel
  induction fuel with
  | zero =>
    intro st hfuel hinv
    have hq : st.queue = [] := List.length_eq_zero.mp (by omega)
    rw [floodLoop]
    exact ⟨hinv, hq, fun j _ => rfl⟩
  | succ fuel ih =>
    rintro ⟨m, q⟩ hfuel hinv
    rcases hcq : q with _ | ⟨ci, rest⟩
    · subst hcq
      exact ⟨hinv, rfl, fun j _ => rfl⟩
    · subst hcq
      show P1Inv w h dem labTh transTh (floodLoop w h dem labTh transTh fuel
          (expandPixel w h dem labTh transTh ⟨m, rest⟩ ci)) ∧
        (floodLoop w h dem labTh transTh fuel
          (expandPixel w h dem labTh transTh ⟨m, rest⟩ ci)).queue = [] ∧
        ∀ j, m j ≠ 0 → (floodLoop w h dem labTh transTh fuel
          (expandPixel w h dem labTh transTh ⟨m, rest⟩ ci)).mask j = m j
      have hinv' := expandPixel_inv hlt (s := ⟨m, ci :: rest⟩) rfl hinv
      have hmeas := nbrFold_measure w h dem labTh transTh (t := w * h) ci (List.range 8)
        (fun d ni hn => neighborIdx_lt hn) ⟨m, rest⟩
      rw [← expandPixel_eq_nbrFold] at hmeas
      simp only [List.length_cons] at hfuel
      have hfuel' : 2 * czCount (w * h)
          (expandPixel w h dem labTh transTh ⟨m, rest⟩ ci).mask +
          (expandPixel w h dem labTh transTh ⟨m, rest⟩ ci).queue.length ≤ fuel := by
        simp only at hmeas
        omega
      obtain ⟨hi1, hi2, hi3⟩ := ih _ hfuel' hinv'
      refine ⟨hi1, hi2, fun j hj => ?_⟩
      have hst : (expandPixel w h dem labTh transTh ⟨m, rest⟩ ci).mask j = m j :=
        nbrFold_stable w h dem labTh transTh ci (List.range 8) ⟨m, rest⟩ j hj
      rw [hi3 j (by rw [hst]; exact hj), hst]

theorem seedVisit_stable {st : FloodState} {i j : Nat} (hj : st.mask j ≠ 0) :
    (seedVisit dem labTh transTh st i).mask j = st.mask j := by
  rcases eq_or_ne j i with rfl | hne
  · simp [seedVisit, hj]
  · rw [seedVisit]
    split
    · rfl
    · split
      · simp [Function.update_noteq hne]
      · split
        · simp [Function.update_noteq hne]
        · rfl

/-- Membership in the seed index list characterises the in-range border. -/
theorem mem_seedIndices {i : Nat} (hw : 0 < w) (hh : 0 < h) :
    i ∈ seedIndices w h ↔ i < w * h ∧ OnBorder w h i := by
  rw [seedIndices]
  constructor
  · intro hi
    rcases List.mem_append.mp hi with hi | hi
    · obtain ⟨x, hx, hmem⟩ := List.mem_flatMap.mp hi
      rw [List.mem_range] at hx
      obtain ⟨y, hy, rfl⟩ := List.mem_map.mp hmem
      rcases List.mem_cons.mp hy with rfl | hy
      · exact ⟨encode_lt x 0 hx hh, Or.inr (Or.inr (Or.inl (yOf_encode x 0 hx)))⟩
      · rcases List.mem_singleton.mp hy with rfl
        exact ⟨encode_lt x (h - 1) hx (by omega),
          Or.inr (Or.inr (Or.inr (yOf_encode x (h - 1) hx)))⟩
    · obtain ⟨y, hy, hmem⟩ := List.mem_flatMap.mp hi
      rw [List.mem_range] at hy
      obtain ⟨x, hx, rfl⟩ := List.mem_map.mp hmem
      rcases List.mem_cons.mp hx with rfl | hx
      · exact ⟨encode_lt 0 y hw hy, Or.inl (xOf_encode 0 y hw)⟩
      · rcases List.mem_singleton.mp hx with rfl
        exact ⟨encode_lt (w - 1) y (by omega) hy,
          Or.inr (Or.inl (xOf_encode (w - 1) y (by omega)))⟩
  · rintro ⟨hi, hb⟩
    have hxlt := xOf_lt i hw
    have hylt := yOf_lt i hw hi
    have hdec := decode_id i hw
    rcases hb with hb | hb | hb | hb
    · refine List.mem_append_right _ (List.mem_flatMap.mpr
        ⟨yOf w i, List.mem_range.mpr hylt, List.mem_map.mpr
          ⟨xOf w i, ?_, hdec⟩⟩)
      rw [hb]
      exact List.mem_cons_self _ _
    · refine List.mem_append_right _ (List.mem_flatMap.mpr
        ⟨yOf w i, List.mem_range.mpr hylt, List.mem_map.mpr
          ⟨xOf w i, ?_, hdec⟩⟩)
      rw [hb]
      exact List.mem_cons_of_mem _ (List.mem_singleton.mpr rfl)
    · refine List.mem_append_left _ (List.mem_flatMap.mpr
        ⟨xOf w i, List.mem_range.mpr hxlt, List.mem_map.mpr
          ⟨yOf w i, ?_, hdec⟩⟩)
      rw [hb]
      exact List.mem_cons_self _ _
    · refine List.mem_append_left _ (List.mem_flatMap.mpr
        ⟨xOf w i, List.mem_range.mpr hxlt, List.mem_map.mpr
          ⟨yOf w i, ?_, hdec⟩⟩)
      rw [hb]
      exact List.mem_cons_of_mem _ (List.mem_singleton.mpr rfl)

/-- Seeding one in-range border pixel preserves the invariant. -/
theorem seedVisit_inv {st : FloodState} {i : Nat} (hi : i < w * h)
    (hbord : OnBorder w h i) (hinv : P1Inv w h dem labTh transTh st) :
    P1Inv w h dem labTh transTh (seedVisit dem labTh transTh st i) := by
  rw [seedVisit]
  by_cases h0 : st.mask i ≠ 0
  · rw [if_pos h0]
    exact hinv
  · push_neg at h0
    rw [if_neg (by omega)]
    by_cases hlab : dem i ≤ labTh
    · rw [if_pos hlab]
      refine ⟨?_, ?_, ?_, ?_, ?_, ?_, ?_⟩ <;> dsimp only
      · intro j hj
        rcases List.mem_append.mp hj with hj | hj
        · rcases eq_or_ne j i with rfl | hne
          · simp
          · rw [Function.update_noteq hne]
            exact hinv.qmask j hj
        · rcases List.mem_singleton.mp hj with rfl
          simp
      · intro j hj
        rw [Function.update_noteq (by rintro rfl; exact hj hi)]
        exact hinv.mzero j hj
      · intro j
        rcases eq_or_ne j i with rfl | hne
        · simp
        · rw [Function.update_noteq hne]
          exact hinv.mvals j
      · intro j hj
        rcases eq_or_ne j i with rfl | hne
        · exact ⟨hlab, hi, _, hbord, ⟨hi, hlab⟩, ⟨hi, hlab⟩, Relation.ReflTransGen.refl⟩
        · rw [Function.update_noteq hne] at hj
          exact hinv.m1 j hj
      · intro j hj
        rcases eq_or_ne j i with rfl | hne
        · rw [Function.update_same] at hj
          omega
        · rw [Function.update_noteq hne] at hj
          exact hinv.m2 j hj
      · intro j hj
        rcases eq_or_ne j i with rfl | hne
        · rw [Function.update_same] at hj
          omega
        · rw [Function.update_noteq hne] at hj
          exact hinv.m3 j hj
      · intro j hj
        rcases eq_or_ne j i with rfl | hne
        · exact Or.inl (List.mem_append_right _ (List.mem_singleton.mpr rfl))
        · rw [Function.update_noteq hne] at hj
          rcases hinv.closed j hj with hq | hcl
          · exact Or.inl (List.mem_append_left _ hq)
          · refine Or.inr fun d hd k hk hklow => ?_
            rcases eq_or_ne k i with rfl | hkne
            · simp
            · rw [Function.update_noteq hkne]
              exact hcl d hd k hk hklow
    · rw [if_neg hlab]
      by_cases htr : dem i ≤ transTh
      · rw [if_pos htr]
        refine ⟨?_, ?_, ?_, ?_, ?_, ?_, ?_⟩ <;> dsimp only
        · intro j hj
          rcases eq_or_ne j i with rfl | hne
          · exact absurd (hinv.qmask _ hj) (by omega)
          · rw [Function.update_noteq hne]
            exact hinv.qmask j hj
        · intro j hj
          rw [Function.update_noteq (by rintro rfl; exact hj hi)]
          exact hinv.mzero j hj
        · intro j
          rcases eq_or_ne j i with rfl | hne
          · simp
          · rw [Function.update_noteq hne]
            exact hinv.mvals j
        · intro j hj
          rcases eq_or_ne j i with rfl | hne
          · rw [Function.update_same] at hj
            omega
          · rw [Function.update_noteq hne] at hj
            exact hinv.m1 j hj
        · intro j hj
          rcases eq_or_ne j i with rfl | hne
          · exact ⟨hi, by linarith [not_le.mp hlab], htr⟩
          · rw [Function.update_noteq hne] at hj
            exact hinv.m2 j hj
        · intro j hj
          rcases eq_or_ne j i with rfl | hne
          · rw [Function.update_same] at hj
            omega
          · rw [Function.update_noteq hne] at hj
            exact hinv.m3 j hj
        · intro j hj
          rcases eq_or_ne j i with rfl | hne
          · rw [Function.update_same] at hj
            omega
          · rw [Function.update_noteq hne] at hj
            rcases hinv.closed j hj with hq | hcl
            · exact Or.inl hq
            · refine Or.inr fun d hd k hk hklow => ?_
              rcases eq_or_ne k i with rfl | hkne
              · exact absurd hklow hlab
              · rw [Function.update_noteq hkne]
                exact hcl d hd k hk hklow
      · rw [if_neg htr]
        exact hinv

/-- The state reached after the two seeding loops. -/
def seedState (w h : Nat) (dem : Nat → ℚ) (labTh transTh : ℚ) : FloodState :=
  (seedIndices w h).foldl (seedVisit dem labTh transTh) ⟨fun _ => 0, []⟩

theorem seedState_inv (hw : 0 < w) (hh : 0 < h) :
    P1Inv w h dem labTh transTh (seedState w h dem labTh transTh) := by
  refine foldl_preserve (fun st i hst hi => ?_) ?_
  · exact seedVisit_inv ((mem_seedIndices hw hh).mp hi).1 ((mem_seedIndices hw hh).mp hi).2 hst
  · refine ⟨?_, ?_, ?_, ?_, ?_, ?_, ?_⟩ <;> dsimp only
    · exact fun j hj => absurd hj (List.not_mem_nil j)
    · exact fun j _ => rfl
    · exact fun j => by omega
    · exact fun j hj => absurd hj (by omega)
    · exact fun j hj => absurd hj (by omega)
    · exact fun j hj => absurd hj (by omega)
    · exact fun j hj => absurd hj (by omega)

/-- Every in-range border pixel with delta-E within labTh is marked
background (and enqueued) by the seeding loops. -/
theorem seedState_one (hw : 0 < w) (hh : 0 < h) (hlt : labTh ≤ transTh) {b : Nat}
    (hbord : OnBorder w h b) (hblt : b < w * h) (hlow : dem b ≤ labTh) :
    (seedState w h dem labTh transTh).mask b = 1 := by
  obtain ⟨l1, l2, hsplit⟩ :=
    List.append_of_mem ((mem_seedIndices hw hh).mpr ⟨hblt, hbord⟩)
  rw [seedState, hsplit, List.foldl_append, List.foldl_cons]
  have hmid : P1Inv w h dem labTh transTh
      (l1.foldl (seedVisit dem labTh transTh) ⟨fun _ => 0, []⟩) := by
    refine foldl_preserve (fun st i hst hi => ?_) ?_
    · have hmem : i ∈ seedIndices w h := by
        rw [hsplit]
        exact List.mem_append_left _ hi
      exact seedVisit_inv ((mem_seedIndices hw hh).mp hmem).1
        ((mem_seedIndices hw hh).mp hmem).2 hst
    · refine ⟨?_, ?_, ?_, ?_, ?_, ?_, ?_⟩ <;> dsimp only
      · exact fun j hj => absurd hj (List.not_mem_nil j)
      · exact fun j _ => rfl
      · exact fun j => by omega
      · exact fun j hj => absurd hj (by omega)
      · exact fun j hj => absurd hj (by omega)
      · exact fun j hj => absurd hj (by omega)
      · exact fun j hj => absurd hj (by omega)
  set mid := l1.foldl (seedVisit dem labTh transTh) ⟨fun _ => 0, []⟩ with hmiddef
  have hafter : (seedVisit dem labTh transTh mid b).mask b = 1 := by
    by_cases h0 : mid.mask b ≠ 0
    · rw [seedVisit, if_pos h0]
      have hv := hmid.mvals b
      interval_cases hbc : mid.mask b
      · omega
      · rfl
      · obtain ⟨_, hgt, _⟩ := hmid.m2 b hbc
        exact absurd hlow (by linarith)
      · obtain ⟨_, hgt⟩ := hmid.m3 b hbc
        exact absurd hlow (by linarith)
    · push_neg at h0
      rw [seedVisit, if_neg (by omega), if_pos hlow]
      simp
  refine foldl_preserve (P := fun (u : FloodState) => u.mask b = 1) (fun st i hst _ => ?_) hafter
  have hst' : st.mask b = 1 := hst
  have hne : st.mask b ≠ 0 := by rw [hst']; omega
  show (seedVisit dem labTh transTh st i).mask b = 1
  rw [seedVisit_stable hne]
  exact hst'

/-- The flooded state of phase 1, before the final sweep. -/
def floodedState (w h : Nat) (dem : Nat → ℚ) (labTh transTh : ℚ) : FloodState :=
  floodLoop w h dem labTh transTh
    (2 * (w * h) + (seedState w h dem labTh transTh).queue.length + 1)
    (seedState w h dem labTh transTh)

theorem phase1_eq_sweep :
    phase1 w h dem labTh transTh =
      sweepMask (w * h) (floodedState w h dem labTh transTh).mask := rfl

theorem floodedState_spec (hw : 0 < w) (hh : 0 < h) (hlt : labTh ≤ transTh) :
    P1Inv w h dem labTh transTh (floodedState w h dem labTh transTh) ∧
    (floodedState w h dem labTh transTh).queue = [] ∧
    ∀ j, (seedState w h dem labTh transTh).mask j ≠ 0 →
      (floodedState w h dem labTh transTh).mask j =
        (seedState w h dem labTh transTh).mask j := by
  refine floodLoop_spec hlt _ _ ?_ (seedState_inv hw hh)
  have := czCount_le (w * h) (seedState w h dem labTh transTh).mask
  omega

/-- Phase-1 characterisation: a pixel is classified background by the border
flood fill exactly when it is border reachable through background-coloured
pixels. -/
theorem phase1_one_iff (hw : 0 < w) (hh : 0 < h) (hlt : labTh ≤ transTh) (i : Nat) :
    phase1 w h dem labTh transTh i = 1 ↔ ReachB w h dem labTh i := by
  obtain ⟨hinv, hqF, hstab⟩ := @floodedState_spec w h dem labTh transTh hw hh hlt
  rw [phase1_eq_sweep, sweepMask]
  constructor
  · intro hone
    split at hone
    · omega
    · exact (hinv.m1 i hone).2.2
  · intro hreach
    obtain ⟨b, hbord, hbLow, hiLow, rtg⟩ := hreach
    have hb1 : (floodedState w h dem labTh transTh).mask b = 1 := by
      rw [hstab b (by rw [seedState_one hw hh hlt hbord hbLow.1 hbLow.2]; omega)]
      exact seedState_one hw hh hlt hbord hbLow.1 hbLow.2
    have hmark : ∀ x, Relation.ReflTransGen (StepIn (Low w h dem labTh) w h) b x →
        (floodedState w h dem labTh transTh).mask x = 1 := by
      intro x hx
      induction hx with
      | refl => exact hb1
      | tail hxy hstep ih =>
        obtain ⟨hxLow, hyLow, d, hd, hn⟩ := hstep
        rcases hinv.closed _ ih with hq | hcl
        · rw [hqF] at hq
          exact absurd hq (List.not_mem_nil _)
        · exact hcl d hd _ hn hyLow.2
    have := hmark i rtg
    rw [if_neg (by omega)]
    exact this

theorem phase1_two (hw : 0 < w) (hh : 0 < h) (hlt : labTh ≤ transTh) (i : Nat)
    (h2 : phase1 w h dem labTh transTh i = 2) :
    i < w * h ∧ labTh < dem i ∧ dem i ≤ transTh := by
  obtain ⟨hinv, _, _⟩ := @floodedState_spec w h dem labTh transTh hw hh hlt
  rw [phase1_eq_sweep, sweepMask] at h2
  split at h2
  · omega
  · exact hinv.m2 i h2

theorem phase1_zero (hw : 0 < w) (hh : 0 < h) (hlt : labTh ≤ transTh) (i : Nat) :
    phase1 w h dem labTh transTh i = 0 ↔ ¬ i < w * h := by
  obtain ⟨hinv, _, _⟩ := @floodedState_spec w h dem labTh transTh hw hh hlt
  rw [phase1_eq_sweep, sweepMask]
  constructor
  · intro h0
    split at h0
    · omega
    · intro hi
      rename_i hcond
      rcases not_and_or.mp hcond with hlt' | hne
      · exact hlt' hi
      · exact hne h0
  · intro hi
    rw [if_neg (by intro hc; exact hi hc.1)]
    exact hinv.mzero i hi

theorem phase1_vals (hw : 0 < w) (hh : 0 < h) (hlt : labTh ≤ transTh) (i : Nat)
    (hi : i < w * h) :
    phase1 w h dem labTh transTh i = 1 ∨ phase1 w h dem labTh transTh i = 2 ∨
      phase1 w h dem labTh transTh i = 3 := by
  obtain ⟨hinv, _, _⟩ := @floodedState_spec w h dem labTh transTh hw hh hlt
  rw [phase1_eq_sweep, sweepMask]
  have := hinv.mvals i
  split
  · omega
  · rename_i hcond
    rcases not_and_or.mp hcond with hlt' | hne
    · exact absurd hi hlt'
    · omega

/-- On background-coloured in-range pixels phase 1 leaves exactly the
classes background (if border reachable) and foreground (if not). -/
theorem phase1_low_three_iff (hw : 0 < w) (hh : 0 < h) (hlt : labTh ≤ transTh)
    (i : Nat) (hi : i < w * h) (hlow : dem i ≤ labTh) :
    (phase1 w h dem labTh transTh i = 3 ↔ ¬ ReachB w h dem labTh i) ∧
    phase1 w h dem labTh transTh i ≠ 2 := by
  have h2 : phase1 w h dem labTh transTh i ≠ 2 := by
    intro h2
    obtain ⟨_, hgt, _⟩ := phase1_two hw hh hlt i h2
    linarith
  refine ⟨⟨fun h3 hreach => ?_, fun hnreach => ?_⟩, h2⟩
  · rw [← phase1_one_iff hw hh hlt i] at hreach
    omega
  · rcases phase1_vals hw hh hlt i hi with h1 | hv | hv
    · exact absurd ((phase1_one_iff hw hh hlt i).mp h1) hnreach
    · exact absurd hv h2
    · exact hv

end Phase1B

/-! ## Threshold facts -/

theorem labThOf_ge_two (threshold : ℚ) : 2 ≤ labThOf threshold := by
  rw [labThOf, jsMaxQ_eq]
  exact le_max_right _ _

theorem transThOf_eq (labTh : ℚ) : transThOf labTh = labTh * (13/10) := by
  rw [transThOf, qMul_eq]
  norm_num

theorem labTh_le_transTh (threshold : ℚ) :
    labThOf threshold ≤ transThOf (labThOf threshold) := by
  have h2 := labThOf_ge_two threshold
  rw [transThOf_eq]
  nlinarith

/-- In a path inside a pixel set, every endpoint reached is in the set. -/
theorem rtg_mem_right {S : Set Nat} {w h b x : Nat} (hb : b ∈ S)
    (hx : Relation.ReflTransGen (StepIn S w h) b x) : x ∈ S := by
  induction hx with
  | refl => exact hb
  | tail hxy hstep ih => exact hstep.2.1

/-- Claim C3: in the border-seeded flood fill of the segmentation engine only
background pixels propagate, so a pixel is classified background exactly when
it is joined to a border pixel by an 8-connected path all of whose pixels are
themselves classified background; in particular no background classification
arises through a path that passes through a transition pixel. -/
theorem c3_no_propagation_through_transition (w h : Nat) (dem : Nat → ℚ)
    (threshold : ℚ) (hw : 0 < w) (hh : 0 < h) (i : Nat) :
    phase1 w h dem (labThOf threshold) (transThOf (labThOf threshold)) i = 1 ↔
    ∃ b, OnBorder w h b ∧
      ConnIn {j | phase1 w h dem (labThOf threshold) (transThOf (labThOf threshold)) j = 1}
        w h b i := by
  set labTh := labThOf threshold with hlabdef
  set transTh := transThOf (labThOf threshold) with htransdef
  have hlt : labTh ≤ transTh := labTh_le_transTh threshold
  constructor
  · intro h1
    have hreach := (phase1_one_iff hw hh hlt i).mp h1
    obtain ⟨b, hbord, hbLow, hiLow, rtg⟩ := hreach
    have hb1 : phase1 w h dem labTh transTh b = 1 :=
      (phase1_one_iff hw hh hlt b).mpr ⟨b, hbord, hbLow, hbLow, Relation.ReflTransGen.refl⟩
    refine ⟨b, hbord, hb1, h1, ?_⟩
    -- convert the low path into a background-classified path
    have hstep : ∀ x, Relation.ReflTransGen (StepIn (Low w h dem labTh) w h) b x →
        Relation.ReflTransGen
          (StepIn {j | phase1 w h dem labTh transTh j = 1} w h) b x := by
      intro x hx
      induction hx with
      | refl => exact Relation.ReflTransGen.refl
      | tail hxy hstep ih =>
        rename_i x' y'
        obtain ⟨hxLow, hyLow, hadj⟩ := hstep
        have hx1 : phase1 w h dem labTh transTh x' = 1 :=
          (phase1_one_iff hw hh hlt x').mpr ⟨b, hbord, hbLow, hxLow, hxy⟩
        have hy1 : phase1 w h dem labTh transTh y' = 1 :=
          (phase1_one_iff hw hh hlt y').mpr
            ⟨b, hbord, hbLow, hyLow, hxy.tail ⟨hxLow, hyLow, hadj⟩⟩
        exact ih.tail ⟨hx1, hy1, hadj⟩
    exact hstep i rtg
  · rintro ⟨b, hbord, hb1, hi1, rtg⟩
    exact hi1

/-! ## Shallow per-phase lemmas: persistence and provenance of mask values -/

theorem foldl_back {α β : Type _} {Q : α → Prop} {f : α → β → α} {l : List β}
    (h : ∀ a b, b ∈ l → Q (f a b) → Q a) : ∀ {a : α}, Q (l.foldl f a) → Q a := by
  induction l with
  | nil => exact fun hq => hq
  | cons b t ih =>
    intro a hq
    exact h a b (List.mem_cons_self _ _)
      (ih (fun a c hc => h a c (List.mem_cons_of_mem _ hc)) hq)

section PhaseShallow

variable {w h : Nat} {dem : Nat → ℚ} {labTh transTh : ℚ}

theorem haloAt_ne_three {m : Nat → Nat} {idx i : Nat} (hi : m i ≠ 3) :
    haloAt w h dem transTh m idx i = m i := by
  rw [haloAt]
  refine foldl_preserve (P := fun (g : Nat → Nat) => g i = m i) (fun g d hg _ => ?_) rfl
  rcases hn : neighborIdx w h idx d with _ | ni
  · exact hg
  · show (if g ni = 3 ∧ dem ni ≤ transTh then Function.update g ni 2 else g) i = m i
    by_cases hcond : g ni = 3 ∧ dem ni ≤ transTh
    · rw [if_pos hcond]
      rcases eq_or_ne i ni with rfl | hne
      · rw [show g i = m i from hg] at hcond
        exact absurd hcond.1 hi
      · rw [Function.update_noteq hne]
        exact hg
    · rw [if_neg hcond]
      exact hg

theorem haloAt_two_of {m : Nat → Nat} {idx i : Nat}
    (h2 : haloAt w h dem transTh m idx i = 2) : m i = 2 ∨ dem i ≤ transTh := by
  rw [haloAt] at h2
  refine foldl_preserve
    (P := fun (g : Nat → Nat) => g i = 2 → m i = 2 ∨ dem i ≤ transTh) (fun g d hg _ h2' => ?_)
    (fun hm => Or.inl hm) h2
  rcases hn : neighborIdx w h idx d with _ | ni
  · rw [hn] at h2'
    exact hg h2'
  · rw [hn] at h2'
    replace h2' : (if g ni = 3 ∧ dem ni ≤ transTh then Function.update g ni 2 else g) i = 2 := h2'
    by_cases hcond : g ni = 3 ∧ dem ni ≤ transTh
    · rw [if_pos hcond] at h2'
      rcases eq_or_ne i ni with rfl | hne
      · exact Or.inr hcond.2
      · rw [Function.update_noteq hne] at h2'
        exact hg h2'
    · rw [if_neg hcond] at h2'
      exact hg h2'

theorem haloAt_one_of {m : Nat → Nat} {idx i : Nat}
    (h1 : haloAt w h dem transTh m idx i = 1) : m i = 1 := by
  rw [haloAt] at h1
  refine foldl_preserve
    (P := fun (g : Nat → Nat) => g i = 1 → m i = 1) (fun g d hg _ h1' => ?_)
    (fun hm => hm) h1
  rcases hn : neighborIdx w h idx d with _ | ni
  · rw [hn] at h1'
    exact hg h1'
  · rw [hn] at h1'
    replace h1' : (if g ni = 3 ∧ dem ni ≤ transTh then Function.update g ni 2 else g) i = 1 := h1'
    by_cases hcond : g ni = 3 ∧ dem ni ≤ transTh
    · rw [if_pos hcond, Function.update_apply] at h1'
      by_cases heq : i = ni
      · rw [if_pos heq] at h1'
        exact absurd h1' (by decide)
      · rw [if_neg heq] at h1'
        exact hg h1'
    · rw [if_neg hcond] at h1'
      exact hg h1'

theorem ones_val (rg : List Nat) (m : Nat → Nat) (i : Nat) :
    (rg.foldl (fun g idx => Function.update g idx 1) m) i = m i ∨
    ((rg.foldl (fun g idx => Function.update g idx 1) m) i = 1 ∧ i ∈ rg) := by
  refine foldl_preserve
    (P := fun (g : Nat → Nat) => g i = m i ∨ (g i = 1 ∧ i ∈ rg))
    (fun g idx hg hmem => ?_) (Or.inl rfl)
  rcases eq_or_ne i idx with rfl | hne
  · exact Or.inr ⟨Function.update_same _ _ _, hmem⟩
  · rw [Function.update_noteq hne]
    exact hg

theorem ones_keep_one {rg : List Nat} {m : Nat → Nat} {i : Nat} (h1 : m i = 1) :
    (rg.foldl (fun g idx => Function.update g idx 1) m) i = 1 := by
  rcases ones_val rg m i with hv | ⟨hv, _⟩
  · rw [hv, h1]
  · exact hv

theorem ones_one_of {rg : List Nat} {m : Nat → Nat} {i : Nat}
    (h1 : (rg.foldl (fun g idx => Function.update g idx 1) m) i = 1) :
    m i = 1 ∨ i ∈ rg := by
  rcases ones_val rg m i with hv | ⟨_, hmem⟩
  · exact Or.inl (hv ▸ h1)
  · exact Or.inr hmem

theorem ones_two_of {rg : List Nat} {m : Nat → Nat} {i : Nat}
    (h2 : (rg.foldl (fun g idx => Function.update g idx 1) m) i = 2) :
    m i = 2 := by
  rcases ones_val rg m i with hv | ⟨hv, _⟩
  · exact hv ▸ h2
  · omega

theorem halos_keep_one {rg : List Nat} {m : Nat → Nat} {i : Nat} (h1 : m i = 1) :
    (rg.foldl (haloAt w h dem transTh) m) i = 1 := by
  refine foldl_preserve (P := fun (g : Nat → Nat) => g i = 1)
    (fun g idx hg _ => ?_) h1
  have hg' : g i = 1 := hg
  show haloAt w h dem transTh g idx i = 1
  rw [haloAt_ne_three (by omega)]
  exact hg'

theorem halos_one_of {rg : List Nat} {m : Nat → Nat} {i : Nat}
    (h1 : (rg.foldl (haloAt w h dem transTh) m) i = 1) : m i = 1 := by
  refine foldl_preserve (P := fun (g : Nat → Nat) => g i = 1 → m i = 1)
    (fun g idx hg _ hval => hg (haloAt_one_of hval)) (fun hm => hm) h1

theorem halos_two_of {rg : List Nat} {m : Nat → Nat} {i : Nat}
    (h2 : (rg.foldl (haloAt w h dem transTh) m) i = 2) :
    m i = 2 ∨ dem i ≤ transTh := by
  refine foldl_preserve
    (P := fun (g : Nat → Nat) => g i = 2 → m i = 2 ∨ dem i ≤ transTh)
    (fun g idx hg _ hval => ?_) (fun hm => Or.inl hm) h2
  rcases haloAt_two_of hval with hg2 | hlow
  · exact hg hg2
  · exact Or.inr hlow

theorem islandExpand_rg {m : Nat → Nat} (st : IslandState) (ci : Nat) :
    (islandExpand w h m dem labTh st ci).rg = st.rg := by
  rw [islandExpand]
  refine foldl_preserve (P := fun (s : IslandState) => s.rg = st.rg)
    (fun s d hs _ => ?_) rfl
  rw [islandNbr.eq_def]
  split
  · exact hs
  · split
    · exact hs
    · exact hs

theorem islandExpand_pending {m : Nat → Nat} (st : IslandState) (ci j : Nat)
    (hj : j ∈ (islandExpand w h m dem labTh st ci).pending) :
    j ∈ st.pending ∨ dem j ≤ labTh := by
  revert hj
  rw [islandExpand]
  refine foldl_preserve
    (P := fun (s : IslandState) => j ∈ s.pending → j ∈ st.pending ∨ dem j ≤ labTh)
    (fun s d hs _ hj => ?_) (fun hj => Or.inl hj)
  revert hj
  rw [islandNbr.eq_def]
  split
  · exact hs
  · split
    · exact hs
    · rename_i hcond
      push_neg at hcond
      intro hj
      rcases List.mem_append.mp hj with hj | hj
      · exact hs hj
      · rcases List.mem_singleton.mp hj with rfl
        exact Or.inr hcond.2.2

theorem islandLoop_rg_low {m : Nat → Nat} :
    ∀ (fuel : Nat) (st : IslandState),
    (∀ j ∈ st.rg, dem j ≤ labTh) → (∀ j ∈ st.pending, dem j ≤ labTh) →
    ∀ j ∈ (islandLoop w h m dem labTh fuel st).rg, dem j ≤ labTh := by
  intro fuel
  induction fuel with
  | zero => exact fun st hrg _ => hrg
  | succ fuel ih =>
    rintro ⟨vis, pending, rg⟩ hrg hpend
    rcases hp : pending with _ | ⟨ci, rest⟩
    · subst hp
      exact hrg
    · subst hp
      show ∀ j ∈ (islandLoop w h m dem labTh fuel
        (islandExpand w h m dem labTh ⟨vis, rest, rg ++ [ci]⟩ ci)).rg, dem j ≤ labTh
      refine ih _ ?_ ?_
      · rw [islandExpand_rg]
        intro j hj
        rcases List.mem_append.mp hj with hj | hj
        · exact hrg j hj
        · rcases List.mem_singleton.mp hj with rfl
          exact hpend j (List.mem_cons_self _ _)
      · intro j hj
        rcases islandExpand_pending _ _ _ hj with hj | hlow
        · exact hpend j (List.mem_cons_of_mem _ hj)
        · exact hlow

theorem islandVisit_eq {minIslandSize : Nat} (st : Phase2State) (n : Nat) :
    islandVisit w h dem labTh transTh minIslandSize st n =
    if st.mask n ≠ 3 ∨ st.vis n ≠ 0 ∨ labTh < dem n then st
    else if minIslandSize ≤ (islandLoop w h st.mask dem labTh (2 * (w * h) + 2)
        ⟨Function.update st.vis n 1, [n], []⟩).rg.length then
      ⟨(islandLoop w h st.mask dem labTh (2 * (w * h) + 2)
          ⟨Function.update st.vis n 1, [n], []⟩).rg.foldl (haloAt w h dem transTh)
        ((islandLoop w h st.mask dem labTh (2 * (w * h) + 2)
          ⟨Function.update st.vis n 1, [n], []⟩).rg.foldl
          (fun m idx => Function.update m idx 1) st.mask),
       (islandLoop w h st.mask dem labTh (2 * (w * h) + 2)
          ⟨Function.update st.vis n 1, [n], []⟩).vis⟩
    else ⟨st.mask, (islandLoop w h st.mask dem labTh (2 * (w * h) + 2)
        ⟨Function.update st.vis n 1, [n], []⟩).vis⟩ := rfl

theorem islandVisit_one_persist {minIslandSize : Nat} {st : Phase2State} {n i : Nat}
    (h1 : st.mask i = 1) :
    (islandVisit w h dem labTh transTh minIslandSize st n).mask i = 1 := by
  rw [islandVisit_eq]
  split
  · exact h1
  · split
    · exact halos_keep_one (ones_keep_one h1)
    · exact h1

theorem islandVisit_one_of {minIslandSize : Nat} {st : Phase2State} {n i : Nat}
    (h1 : (islandVisit w h dem labTh transTh minIslandSize st n).mask i = 1) :
    st.mask i = 1 ∨ dem i ≤ labTh := by
  rw [islandVisit_eq] at h1
  split at h1
  · exact Or.inl h1
  · rename_i hguard
    push_neg at hguard
    split at h1
    · have hmBg := halos_one_of h1
      rcases ones_one_of hmBg with hm | hmem
      · exact Or.inl hm
      · refine Or.inr (islandLoop_rg_low _ _ ?_ ?_ i hmem)
        · intro j hj
          exact absurd hj (List.not_mem_nil j)
        · intro j hj
          rcases List.mem_singleton.mp hj with rfl
          exact hguard.2.2
    · exact Or.inl h1

theorem islandVisit_two_of {minIslandSize : Nat} {st : Phase2State} {n i : Nat}
    (h2 : (islandVisit w h dem labTh transTh minIslandSize st n).mask i = 2) :
    st.mask i = 2 ∨ dem i ≤ transTh := by
  rw [islandVisit_eq] at h2
  split at h2
  · exact Or.inl h2
  · split at h2
    · rcases halos_two_of h2 with hmBg | hlow
      · exact Or.inl (ones_two_of hmBg)
      · exact Or.inr hlow
    · exact Or.inl h2

theorem phase2_one_persist {minIslandSize : Nat} {m : Nat → Nat} {i : Nat}
    (h1 : m i = 1) :
    phase2 w h dem labTh transTh minIslandSize m i = 1 := by
  rw [phase2]
  exact foldl_preserve (P := fun (st : Phase2State) => st.mask i = 1)
    (fun st n hst _ => islandVisit_one_persist hst) h1

theorem phase2_one_of {minIslandSize : Nat} {m : Nat → Nat} {i : Nat}
    (h1 : phase2 w h dem labTh transTh minIslandSize m i = 1) :
    m i = 1 ∨ dem i ≤ labTh := by
  rw [phase2] at h1
  refine foldl_preserve
    (P := fun (st : Phase2State) => st.mask i = 1 → m i = 1 ∨ dem i ≤ labTh)
    (fun st n hst _ hval => ?_) (fun hm => Or.inl hm) h1
  rcases islandVisit_one_of hval with hm | hlow
  · exact hst hm
  · exact Or.inr hlow

theorem phase2_two_of {minIslandSize : Nat} {m : Nat → Nat} {i : Nat}
    (h2 : phase2 w h dem labTh transTh minIslandSize m i = 2) :
    m i = 2 ∨ dem i ≤ transTh := by
  rw [phase2] at h2
  refine foldl_preserve
    (P := fun (st : Phase2State) => st.mask i = 2 → m i = 2 ∨ dem i ≤ transTh)
    (fun st n hst _ hval => ?_) (fun hm => Or.inl hm) h2
  rcases islandVisit_two_of hval with hm | hlow
  · exact hst hm
  · exact Or.inr hlow

theorem refineVisit_eq (m : Nat → Nat) (j : Nat) :
    refineVisit w m j =
    if m j ≠ 2 then m
    else if (nbrCounts w m (xOf w j) (yOf w j)).1 > (nbrCounts w m (xOf w j) (yOf w j)).2 ∧
        (nbrCounts w m (xOf w j) (yOf w j)).1 ≥ 3 then Function.update m j 3
    else if (nbrCounts w m (xOf w j) (yOf w j)).2 ≥ 5 then Function.update m j 1
    else m := rfl

theorem refineVisit_other {m : Nat → Nat} {j i : Nat} (hne : i ≠ j) :
    refineVisit w m j i = m i := by
  rw [refineVisit_eq]
  split
  · rfl
  · split
    · rw [Function.update_noteq hne]
    · split
      · rw [Function.update_noteq hne]
      · rfl

theorem refineVisit_vals {m : Nat → Nat} {j i : Nat} :
    refineVisit w m j i = m i ∨
    (i = j ∧ m i = 2 ∧ (refineVisit w m j i = 1 ∨ refineVisit w m j i = 3)) := by
  rcases eq_or_ne i j with rfl | hne
  · rw [refineVisit_eq]
    split
    · exact Or.inl rfl
    · rename_i hm2
      push_neg at hm2
      split
      · exact Or.inr ⟨rfl, hm2, Or.inr (Function.update_same _ _ _)⟩
      · split
        · exact Or.inr ⟨rfl, hm2, Or.inl (Function.update_same _ _ _)⟩
        · exact Or.inl rfl
  · exact Or.inl (refineVisit_other hne)

theorem phase3_one_persist {m : Nat → Nat} {i : Nat} (h1 : m i = 1) :
    phase3 w h m i = 1 := by
  rw [phase3]
  refine foldl_preserve (P := fun (g : Nat → Nat) => g i = 1)
    (fun g j hg _ => ?_) h1
  rcases refineVisit_vals (m := g) (j := j) (i := i) with hv | ⟨_, hg2, _⟩
  · rw [hv]
    exact hg
  · omega

theorem phase3_provenance {m : Nat → Nat} {i : Nat} :
    (phase3 w h m i = 1 → m i = 1 ∨ m i = 2) ∧
    (phase3 w h m i = 2 → m i = 2) := by
  rw [phase3]
  refine foldl_preserve
    (P := fun (g : Nat → Nat) =>
      (g i = 1 → m i = 1 ∨ m i = 2) ∧ (g i = 2 → m i = 2))
    (fun g j hg _ => ?_) ⟨fun hm => Or.inl hm, fun hm => hm⟩
  rcases refineVisit_vals (m := g) (j := j) (i := i) with hv | ⟨_, hg2, hval⟩
  · rw [hv]
    exact hg
  · constructor
    · intro _
      exact Or.inr (hg.2 hg2)
    · intro hc
      omega

theorem boundaryVisit_one_persist {st : (Nat → Nat) × Nat} {j i : Nat}
    (h1 : st.1 i = 1) : (boundaryVisit w h dem labTh st j).1 i = 1 := by
  rw [boundaryVisit]
  split
  · exact h1
  · split
    · exact h1
    · rcases eq_or_ne i j with rfl | hne
      · rename_i hguard _
        push_neg at hguard
        omega
      · split
        · show Function.update st.1 j 1 i = 1
          rw [Function.update_noteq hne]
          exact h1
        · split
          · show Function.update st.1 j 2 i = 1
            rw [Function.update_noteq hne]
            exact h1
          · exact h1

theorem boundaryVisit_provenance {st : (Nat → Nat) × Nat} {j i : Nat} :
    ((boundaryVisit w h dem labTh st j).1 i = 1 →
      st.1 i = 1 ∨ dem i ≤ qMul labTh (mkRat 15 10)) ∧
    ((boundaryVisit w h dem labTh st j).1 i = 2 →
      st.1 i = 2 ∨ dem i ≤ qMul labTh (mkRat 22 10)) := by
  rw [boundaryVisit]
  split
  · exact ⟨fun hm => Or.inl hm, fun hm => Or.inl hm⟩
  · split
    · exact ⟨fun hm => Or.inl hm, fun hm => Or.inl hm⟩
    · split
      · rename_i hband
        constructor
        · intro hv
          replace hv : Function.update st.1 j 1 i = 1 := hv
          rcases eq_or_ne i j with rfl | hne
          · exact Or.inr hband
          · rw [Function.update_noteq hne] at hv
            exact Or.inl hv
        · intro hv
          replace hv : Function.update st.1 j 1 i = 2 := hv
          rcases eq_or_ne i j with rfl | hne
          · rw [Function.update_same] at hv
            omega
          · rw [Function.update_noteq hne] at hv
            exact Or.inl hv
      · split
        · rename_i hband
          constructor
          · intro hv
            replace hv : Function.update st.1 j 2 i = 1 := hv
            rcases eq_or_ne i j with rfl | hne
            · rw [Function.update_same] at hv
              omega
            · rw [Function.update_noteq hne] at hv
              exact Or.inl hv
          · intro hv
            replace hv : Function.update st.1 j 2 i = 2 := hv
            rcases eq_or_ne i j with rfl | hne
            · exact Or.inr hband
            · rw [Function.update_noteq hne] at hv
              exact Or.inl hv
        · exact ⟨fun hm => Or.inl hm, fun hm => Or.inl hm⟩

theorem boundaryPass_one_persist {m : Nat → Nat} {i : Nat} (h1 : m i = 1) :
    (boundaryPass w h dem labTh m).1 i = 1 := by
  rw [boundaryPass]
  exact foldl_preserve (P := fun (st : (Nat → Nat) × Nat) => st.1 i = 1)
    (fun st j hst _ => boundaryVisit_one_persist hst) h1

theorem boundaryPass_provenance {m : Nat → Nat} {i : Nat} :
    ((boundaryPass w h dem labTh m).1 i = 1 →
      m i = 1 ∨ dem i ≤ qMul labTh (mkRat 15 10)) ∧
    ((boundaryPass w h dem labTh m).1 i = 2 →
      m i = 2 ∨ dem i ≤ qMul labTh (mkRat 22 10)) := by
  rw [boundaryPass]
  refine foldl_preserve
    (P := fun (st : (Nat → Nat) × Nat) =>
      (st.1 i = 1 → m i = 1 ∨ dem i ≤ qMul labTh (mkRat 15 10)) ∧
      (st.1 i = 2 → m i = 2 ∨ dem i ≤ qMul labTh (mkRat 22 10)))
    (fun st j hst _ => ?_) ⟨fun hm => Or.inl hm, fun hm => Or.inl hm⟩
  constructor
  · intro hv
    rcases boundaryVisit_provenance.1 hv with hm | hband
    · exact hst.1 hm
    · exact Or.inr hband
  · intro hv
    rcases boundaryVisit_provenance.2 hv with hm | hband
    · exact hst.2 hm
    · exact Or.inr hband

theorem phase4Loop_one_persist {m : Nat → Nat} {i : Nat} :
    ∀ fuel, m i = 1 → phase4Loop w h dem labTh fuel m i = 1 := by
  intro fuel
  induction fuel generalizing m with
  | zero => exact fun h1 => h1
  | succ fuel ih =>
    intro h1
    rw [phase4Loop]
    split
    · exact boundaryPass_one_persist h1
    · exact ih (boundaryPass_one_persist h1)

theorem phase4Loop_provenance {i : Nat} :
    ∀ fuel (m : Nat → Nat),
    (phase4Loop w h dem labTh fuel m i = 1 →
      m i = 1 ∨ dem i ≤ qMul labTh (mkRat 15 10)) ∧
    (phase4Loop w h dem labTh fuel m i = 2 →
      m i = 2 ∨ dem i ≤ qMul labTh (mkRat 22 10)) := by
  intro fuel
  induction fuel with
  | zero => exact fun m => ⟨fun hm => Or.inl hm, fun hm => Or.inl hm⟩
  | succ fuel ih =>
    intro m
    rw [phase4Loop]
    split
    · exact boundaryPass_provenance
    · constructor
      · intro hv
        rcases (ih _).1 hv with hm | hband
        · exact boundaryPass_provenance.1 hm
        · exact Or.inr hband
      · intro hv
        rcases (ih _).2 hv with hm | hband
        · exact boundaryPass_provenance.2 hm
        · exact Or.inr hband

end PhaseShallow

/-! ## Claim C2: behaviour at threshold zero -/

theorem removal_mask_eq (data : Nat → Nat) (w h channels : Nat) (dem : Nat → ℚ)
    (threshold : ℚ) (minIslandSize : Nat) :
    (advancedBackgroundRemoval data w h channels dem threshold minIslandSize).mask =
    phase4 w h dem (labThOf threshold)
      (phase3 w h
        (phase2 w h dem (labThOf threshold) (transThOf (labThOf threshold)) minIslandSize
          (phase1 w h dem (labThOf threshold) (transThOf (labThOf threshold))))) := rfl

theorem removal_result_eq (data : Nat → Nat) (w h channels : Nat) (dem : Nat → ℚ)
    (threshold : ℚ) (minIslandSize : Nat) :
    (advancedBackgroundRemoval data w h channels dem threshold minIslandSize).result =
    applyMask (w * h) channels
      (advancedBackgroundRemoval data w h channels dem threshold minIslandSize).mask
      dem (labThOf threshold) (transThOf (labThOf threshold)) data := rfl

theorem phase1_one_dem {w h : Nat} {dem : Nat → ℚ} {labTh transTh : ℚ}
    (hw : 0 < w) (hh : 0 < h) (hlt : labTh ≤ transTh) {i : Nat}
    (h1 : phase1 w h dem labTh transTh i = 1) : dem i ≤ labTh := by
  obtain ⟨hinv, _, _⟩ := @floodedState_spec w h dem labTh transTh hw hh hlt
  rw [phase1_eq_sweep, sweepMask] at h1
  split at h1
  · omega
  · exact (hinv.m1 i h1).1

/-- The delta-E of every pixel the removal core classifies background is at
most 1.5 times the effective Lab threshold. -/
theorem removal_mask_one_dem {w h channels minIslandSize : Nat} {data : Nat → Nat}
    {dem : Nat → ℚ} {threshold : ℚ} (hw : 0 < w) (hh : 0 < h) (i : Nat)
    (h1 : (advancedBackgroundRemoval data w h channels dem threshold
      minIslandSize).mask i = 1) :
    dem i ≤ labThOf threshold * (15/10) := by
  set labTh := labThOf threshold with hlabdef
  have h2lab := labThOf_ge_two threshold
  have hlt : labTh ≤ transThOf labTh := labTh_le_transTh threshold
  have hband : qMul labTh (mkRat 15 10) = labTh * (15/10) := by
    rw [qMul_eq]
    norm_num
  rw [removal_mask_eq, phase4] at h1
  rcases (phase4Loop_provenance 5 _).1 h1 with h3 | hb
  · rcases (phase3_provenance).1 h3 with h2 | h2
    · rcases phase2_one_of h2 with hp1 | hlow
      · have := phase1_one_dem hw hh hlt hp1
        nlinarith
      · nlinarith
    · rcases phase2_two_of h2 with hp1 | htr
      · have := (phase1_two hw hh hlt i hp1).2.2
        rw [transThOf_eq] at this
        nlinarith
      · rw [transThOf_eq] at htr
        nlinarith
  · rw [hband] at hb
    exact hb

/-- Claim C2 (counterexample): with the threshold forced to 0, a single-pixel
image whose pixel has delta-E 1 to the background colour (so not an exact
colour match) is still classified background by the pipeline; exact-match
mode does not occur. -/
theorem c2_counterexample :
    (advancedBackgroundRemoval (fun _ => 0) 1 1 4 (fun _ => 1) 0 100).mask 0 = 1 ∧
    ¬ ((1 : ℚ) = 0) := ⟨by decide, by decide⟩

/-- Claim C2 (amended): with the threshold parameter forced to 0 or negative,
the effective Lab threshold clamps to 2 rather than 0; every in-range border
pixel with delta-E up to 2 is classified background (so the pipeline does not
degenerate to exact-match mode), and every pixel classified background has
delta-E at most 3 = 1.5 times the clamped threshold. -/
theorem c2_threshold_clamp (w h channels minIslandSize : Nat) (data : Nat → Nat)
    (dem : Nat → ℚ) (threshold : ℚ) (hth : threshold ≤ 0)
    (hw : 0 < w) (hh : 0 < h) :
    labThOf threshold = 2 ∧
    (∀ i, i < w * h → OnBorder w h i → dem i ≤ 2 →
      (advancedBackgroundRemoval data w h channels dem threshold
        minIslandSize).mask i = 1) ∧
    (∀ i, (advancedBackgroundRemoval data w h channels dem threshold
        minIslandSize).mask i = 1 → dem i ≤ 3) := by
  have hclamp : labThOf threshold = 2 := by
    rw [labThOf, jsMaxQ_eq, qMul_eq, Rat.mkRat_eq_div]
    push_cast
    rw [max_eq_right (by nlinarith)]
  refine ⟨hclamp, ?_, ?_⟩
  · intro i hi hbord hdem
    have hlt : labThOf threshold ≤ transThOf (labThOf threshold) :=
      labTh_le_transTh threshold
    have h1 : phase1 w h dem (labThOf threshold) (transThOf (labThOf threshold)) i = 1 := by
      refine (phase1_one_iff hw hh hlt i).mpr
        ⟨i, hbord, ⟨hi, ?_⟩, ⟨hi, ?_⟩, Relation.ReflTransGen.refl⟩ <;>
        rw [hclamp] <;> exact hdem
    rw [removal_mask_eq, phase4]
    exact phase4Loop_one_persist 5
      (phase3_one_persist (phase2_one_persist h1))
  · intro i h1
    have := removal_mask_one_dem hw hh i h1
    rw [hclamp] at this
    nlinarith

/-- Witness for claim C3 at a concrete instance. -/
theorem c3_witness :
    (phase1 1 1 (fun _ => (1 : ℚ)) (labThOf 15) (transThOf (labThOf 15)) 0 = 1 ↔
    ∃ b, OnBorder 1 1 b ∧
      ConnIn {j | phase1 1 1 (fun _ => (1 : ℚ)) (labThOf 15) (transThOf (labThOf 15)) j = 1}
        1 1 b 0) :=
  c3_no_propagation_through_transition 1 1 (fun _ => 1) 15 (by decide) (by decide) 0

/-- Witness for claim C2 at a concrete instance. -/
theorem c2_witness :
    labThOf 0 = 2 ∧
    (advancedBackgroundRemoval (fun _ => 0) 1 1 4 (fun _ => (1 : ℚ)) 0 100).mask 0 = 1 ∧
    (1 : ℚ) ≤ 3 := by
  have hmain := c2_threshold_clamp 1 1 4 100 (fun _ => 0) (fun _ => 1) 0
    (by decide) (by decide) (by decide)
  refine ⟨hmain.1, hmain.2.1 0 (by decide) (Or.inl rfl) (by decide), ?_⟩
  exact hmain.2.2 0 (hmain.2.1 0 (by decide) (Or.inl rfl) (by decide))

/-! ## Claim C5: transition refinement -/

/-- A pixel of the interior region the refinement pass scans
(1 <= x <= w-2, 1 <= y <= h-2). -/
def InteriorPix (w h i : Nat) : Prop :=
  0 < xOf w i ∧ xOf w i < w - 1 ∧ 0 < yOf w i ∧ yOf w i < h - 1

instance (w h i : Nat) : Decidable (InteriorPix w h i) :=
  decidable_of_iff (0 < xOf w i ∧ xOf w i < w - 1 ∧ 0 < yOf w i ∧ yOf w i < h - 1)
    (by rw [InteriorPix])

instance (w h i : Nat) : Decidable (OnBorder w h i) :=
  decidable_of_iff (xOf w i = 0 ∨ xOf w i = w - 1 ∨ yOf w i = 0 ∨ yOf w i = h - 1)
    (by rw [OnBorder])

theorem mem_interiorIndices {w h i : Nat} :
    i ∈ interiorIndices w h ↔ InteriorPix w h i := by
  rw [interiorIndices, InteriorPix]
  constructor
  · intro hi
    obtain ⟨y, hy, hmem⟩ := List.mem_flatMap.mp hi
    obtain ⟨y0, hy0, rfl⟩ := List.mem_map.mp hy
    rw [List.mem_range] at hy0
    obtain ⟨x, hx, rfl⟩ := List.mem_map.mp hmem
    obtain ⟨x0, hx0, rfl⟩ := List.mem_map.mp hx
    rw [List.mem_range] at hx0
    have hxw : x0 + 1 < w := by omega
    rw [xOf_encode _ _ hxw, yOf_encode _ _ hxw]
    omega
  · rintro ⟨hx0, hxw, hy0, hyh⟩
    have hw : 0 < w := by omega
    refine List.mem_flatMap.mpr ⟨yOf w i, ?_, ?_⟩
    · refine List.mem_map.mpr ⟨yOf w i - 1, List.mem_range.mpr (by omega), by omega⟩
    · refine List.mem_map.mpr ⟨xOf w i, ?_, decode_id i hw⟩
      refine List.mem_map.mpr ⟨xOf w i - 1, List.mem_range.mpr (by omega), by omega⟩

/-- Every element of a duplicate-free position below tp splits List.range tp
with no later occurrence. -/
theorem exists_range_split {i tp : Nat} (hi : i < tp) :
    ∃ L1 L2, List.range tp = L1 ++ i :: L2 ∧ i ∉ L1 ∧ i ∉ L2 := by
  induction tp with
  | zero => omega
  | succ tp ih =>
    rcases Nat.lt_or_ge i tp with hlt | hge
    · obtain ⟨L1, L2, hsplit, hmem1, hmem⟩ := ih hlt
      refine ⟨L1, L2 ++ [tp], ?_, hmem1, ?_⟩
      · rw [List.range_succ, hsplit]
        simp
      · intro hc
        rcases List.mem_append.mp hc with hc | hc
        · exact hmem hc
        · rcases List.mem_singleton.mp hc with rfl
          omega
    · have : i = tp := by omega
      subst this
      exact ⟨List.range i, [], by rw [List.range_succ],
        by simp [List.mem_range], List.not_mem_nil i⟩

/-- The mask when the scan of phase 3 reaches a given interior pixel. -/
theorem phase3_at {w h : Nat} {m : Nat → Nat} {i : Nat} {L1 L2 : List Nat}
    (hsplit : interiorIndices w h = L1 ++ i :: L2) (hi2 : i ∉ L2) :
    phase3 w h m i = refineVisit w (L1.foldl (refineVisit w) m) i i := by
  rw [phase3, hsplit, List.foldl_append, List.foldl_cons]
  refine foldl_preserve
    (P := fun (g : Nat → Nat) => g i = refineVisit w (L1.foldl (refineVisit w) m) i i)
    (fun g j hg hj => ?_) rfl
  have hg' : g i = refineVisit w (L1.foldl (refineVisit w) m) i i := hg
  show refineVisit w g j i = refineVisit w (L1.foldl (refineVisit w) m) i i
  rw [refineVisit_other (fun hc => hi2 (by rw [hc]; exact hj))]
  exact hg'

theorem phase3_not_interior {w h : Nat} {m : Nat → Nat} {i : Nat}
    (hi : ¬ InteriorPix w h i) : phase3 w h m i = m i := by
  rw [phase3]
  refine foldl_preserve (P := fun (g : Nat → Nat) => g i = m i)
    (fun g j hg hj => ?_) rfl
  have hg' : g i = m i := hg
  have hne : i ≠ j := fun hc => hi (by rw [hc]; exact mem_interiorIndices.mp hj)
  show refineVisit w g j i = m i
  rw [refineVisit_other hne]
  exact hg'

theorem phase3_not_transition {w h : Nat} {m : Nat → Nat} {i : Nat}
    (hm : m i ≠ 2) : phase3 w h m i = m i := by
  rw [phase3]
  refine foldl_preserve (P := fun (g : Nat → Nat) => g i = m i)
    (fun g j hg hj => ?_) rfl
  have hg' : g i = m i := hg
  show refineVisit w g j i = m i
  rcases eq_or_ne i j with rfl | hne
  · rw [refineVisit_eq]
    rw [if_pos (by rw [hg']; exact hm)]
    exact hg'
  · rw [refineVisit_other hne]
    exact hg'

/-- Delta-E map of the 3 x 3 counterexample image for claim C5: the top-edge
middle pixel lies in the transition band, every other pixel is far from the
background colour. -/
def c5dem : Nat → ℚ := fun i => if i = 1 then 13 else 100

/-- Mask of the C5 counterexample image after phases 1 and 2 at threshold 15. -/
def c5mask : Nat → Nat :=
  phase2 3 3 c5dem (labThOf 15) (transThOf (labThOf 15)) 100
    (phase1 3 3 c5dem (labThOf 15) (transThOf (labThOf 15)))

/-- Claim C5 (counterexample): in a 3 x 3 image whose top-edge middle pixel
is in the transition band and all other pixels are foreground, that border
transition pixel has five in-bounds foreground neighbours and no background
neighbour, so the claimed promotion rule (fg > bg and fg >= 3) applies to it,
yet the refinement pass leaves it transition: the pass never examines pixels
of the border rows and columns. -/
theorem c5_counterexample :
    c5mask 1 = 2 ∧
    ((List.range 8).filter fun d =>
      (neighborIdx 3 3 1 d).elim false fun k => c5mask k == 3).length = 5 ∧
    ((List.range 8).filter fun d =>
      (neighborIdx 3 3 1 d).elim false fun k => c5mask k == 1).length = 0 ∧
    ((5 : Nat) > 0 ∧ (5 : Nat) ≥ 3) ∧
    phase3 3 3 c5mask 1 = 2 := by
  exact ⟨by decide, by decide, by decide, by decide, by decide⟩

/-- Claim C5 (amended): transition refinement is a single in-place pass over
the interior pixels in scan order. A border-row or border-column pixel is
never re-examined, and a pixel that is not transition is left unchanged. An
interior pixel that is transition when the scan reaches it (the mask is the
partially updated one) is promoted to foreground iff its foreground
neighbour count (on the partially updated mask) strictly exceeds its
background count and is at least 3, else demoted to background iff its
background count is at least 5, and otherwise left transition. -/
theorem c5_refinement (w h : Nat) (m : Nat → Nat) :
    (∀ i, ¬ InteriorPix w h i → phase3 w h m i = m i) ∧
    (∀ i, m i ≠ 2 → phase3 w h m i = m i) ∧
    (∀ i L1 L2, interiorIndices w h = L1 ++ i :: L2 → i ∉ L2 →
      phase3 w h m i = refineVisit w (L1.foldl (refineVisit w) m) i i) ∧
    (∀ (g : Nat → Nat) i, g i = 2 →
      refineVisit w g i i =
        if (nbrCounts w g (xOf w i) (yOf w i)).1 > (nbrCounts w g (xOf w i) (yOf w i)).2 ∧
            (nbrCounts w g (xOf w i) (yOf w i)).1 ≥ 3 then 3
        else if (nbrCounts w g (xOf w i) (yOf w i)).2 ≥ 5 then 1
        else 2) := by
  refine ⟨fun i => phase3_not_interior, fun i => phase3_not_transition,
    fun i L1 L2 => phase3_at, fun g i hg => ?_⟩
  rw [refineVisit_eq]
  rw [if_neg (by simp [hg])]
  by_cases h1 : (nbrCounts w g (xOf w i) (yOf w i)).1 > (nbrCounts w g (xOf w i) (yOf w i)).2 ∧
      (nbrCounts w g (xOf w i) (yOf w i)).1 ≥ 3
  · rw [if_pos h1, if_pos h1, Function.update_same]
  · rw [if_neg h1, if_neg h1]
    by_cases h2 : (nbrCounts w g (xOf w i) (yOf w i)).2 ≥ 5
    · rw [if_pos h2, if_pos h2, Function.update_same]
    · rw [if_neg h2, if_neg h2]
      exact hg

/-- Witness for claim C5 at a concrete instance. -/
theorem c5_witness :
    phase3 3 3 (fun j => if j = 4 then 2 else 3) 0 = 3 ∧
    phase3 3 3 (fun j => if j = 0 then 1 else 3) 0 = 1 ∧
    phase3 3 3 (fun j => if j = 4 then 2 else 3) 4 =
      refineVisit 3 ([].foldl (refineVisit 3) (fun j => if j = 4 then 2 else 3)) 4 4 ∧
    refineVisit 3 (fun j => if j = 4 then 2 else 3) 4 4 = 3 := by
  have hmain := c5_refinement 3 3 (fun j => if j = 4 then 2 else 3)
  refine ⟨hmain.1 0 (by decide), ?_, ?_, ?_⟩
  · exact (c5_refinement 3 3 (fun j => if j = 0 then 1 else 3)).2.1 0 (by decide)
  · exact hmain.2.2.1 4 [] [] (by decide) (by decide)
  · rw [hmain.2.2.2 (fun j => if j = 4 then 2 else 3) 4 (by decide)]
    decide

/-! ## Claim C6: boundary cleanup -/

/-- k full boundary-cleanup passes, no early stop. -/
def passIter (w h : Nat) (dem : Nat → ℚ) (labTh : ℚ) :
    Nat → (Nat → Nat) → (Nat → Nat)
  | 0, m => m
  | k + 1, m => passIter w h dem labTh k (boundaryPass w h dem labTh m).1

theorem boundaryVisit_fst_other (w h : Nat) (dem : Nat → ℚ) (labTh : ℚ)
    (st : (Nat → Nat) × Nat) (j i : Nat) (hne : i ≠ j) :
    (boundaryVisit w h dem labTh st j).1 i = st.1 i := by
  rw [boundaryVisit]
  split
  · rfl
  · split
    · rfl
    · split
      · exact Function.update_noteq hne _ _
      · split
        · exact Function.update_noteq hne _ _
        · rfl

/-- A pass that reports zero reclassifications left the mask untouched:
every write increments the counter. -/
theorem boundaryPass_pc_zero (w h : Nat) (dem : Nat → ℚ) (labTh : ℚ)
    (m : Nat → Nat) (hz : (boundaryPass w h dem labTh m).2 = 0) :
    (boundaryPass w h dem labTh m).1 = m := by
  have hkey : (boundaryPass w h dem labTh m).2 = 0 →
      (boundaryPass w h dem labTh m).1 = m := by
    rw [boundaryPass]
    refine foldl_preserve
      (P := fun (st : (Nat → Nat) × Nat) => st.2 = 0 → st.1 = m)
      (fun st j hst _ => ?_) (fun _ => rfl)
    rw [boundaryVisit]
    split
    · exact hst
    · split
      · exact hst
      · split
        · exact fun hc => absurd hc (Nat.succ_ne_zero st.2)
        · split
          · exact fun hc => absurd hc (Nat.succ_ne_zero st.2)
          · exact hst
  exact hkey hz

/-- The bounded pass loop of phase 4 runs some number k of full passes with
k at most the fuel, and either exhausts the fuel or stops because the last
pass it ran reported zero reclassifications. -/
theorem phase4Loop_runs (w h : Nat) (dem : Nat → ℚ) (labTh : ℚ) :
    ∀ fuel (m : Nat → Nat), ∃ k, k ≤ fuel ∧
      phase4Loop w h dem labTh fuel m = passIter w h dem labTh k m ∧
      (k = fuel ∨ (0 < k ∧
        (boundaryPass w h dem labTh (passIter w h dem labTh (k - 1) m)).2 = 0)) := by
  intro fuel
  induction fuel with
  | zero => exact fun m => ⟨0, le_refl 0, rfl, Or.inl rfl⟩
  | succ fuel ih =>
    intro m
    have hstep : phase4Loop w h dem labTh (fuel + 1) m =
        if (boundaryPass w h dem labTh m).2 = 0 then (boundaryPass w h dem labTh m).1
        else phase4Loop w h dem labTh fuel (boundaryPass w h dem labTh m).1 := rfl
    by_cases hz : (boundaryPass w h dem labTh m).2 = 0
    · refine ⟨1, by omega, ?_, Or.inr ⟨by omega, ?_⟩⟩
      · rw [hstep, if_pos hz]
        rfl
      · exact hz
    · obtain ⟨k, hk, heq, hstop⟩ := ih (boundaryPass w h dem labTh m).1
      refine ⟨k + 1, by omega, ?_, ?_⟩
      · rw [hstep, if_neg hz]
        exact heq
      · rcases hstop with rfl | ⟨hk0, hz'⟩
        · exact Or.inl rfl
        · refine Or.inr ⟨by omega, ?_⟩
          obtain ⟨k', rfl⟩ : ∃ k', k = k' + 1 := ⟨k - 1, by omega⟩
          exact hz'

/-- Claim C6 (counterexample): on a 1 x 1 image whose only pixel sits in the
1.5-band (delta-E 16, labTh 12, transTh 15.6), the pixel leaves phase 3 as
Foreground, has no in-bounds 8-neighbour at all (so it is not 8-adjacent to
any Background-classified pixel), yet the boundary relaxer reclassifies it
to Background: leaving the image counts as touching background. -/
theorem c6_counterexample :
    phase3 1 1 (phase2 1 1 (fun _ => 16) (labThOf 15) (transThOf (labThOf 15)) 100
      (phase1 1 1 (fun _ => 16) (labThOf 15) (transThOf (labThOf 15)))) 0 = 3 ∧
    (advancedBackgroundRemoval (fun _ => 0) 1 1 4 (fun _ => 16) 15 100).mask 0 = 1 ∧
    (∀ d, d < 8 → neighborIdx 1 1 0 d = none) := by
  exact ⟨by decide, by decide, by decide⟩

/-- Claim C6 (amended): in each boundary-cleanup pass, a visit writes only
its own pixel; a pixel changed by its visit was Foreground or Transition and
touched background at visit time, where touching background means some of
the 8 directions leaves the image bounds or hits a Background-mask pixel,
and the new value is Background when delta-E is at most 1.5 x labTh, else
Transition when at most 2.2 x labTh; conversely every such qualifying pixel
is rewritten (a Transition pixel in the 2.2-band is rewritten to Transition
again, and this no-op write still counts as a reclassification in pc); the
pass processes the pixels in scan order on the partially updated mask; and
the loop runs at most 5 passes, stopping early exactly when a pass reports
pc = 0. -/
theorem c6_boundary (w h : Nat) (dem : Nat → ℚ) (labTh : ℚ) (m : Nat → Nat) :
    (∀ (st : (Nat → Nat) × Nat) j i, i ≠ j →
      (boundaryVisit w h dem labTh st j).1 i = st.1 i) ∧
    (∀ (st : (Nat → Nat) × Nat) j,
      (boundaryVisit w h dem labTh st j).1 j ≠ st.1 j →
      (st.1 j = 2 ∨ st.1 j = 3) ∧ touchesBackground w h st.1 j = true ∧
      ((dem j ≤ qMul labTh (mkRat 15 10) ∧
          (boundaryVisit w h dem labTh st j).1 j = 1) ∨
       (¬ dem j ≤ qMul labTh (mkRat 15 10) ∧ dem j ≤ qMul labTh (mkRat 22 10) ∧
          (boundaryVisit w h dem labTh st j).1 j = 2))) ∧
    (∀ (st : (Nat → Nat) × Nat) j, (st.1 j = 2 ∨ st.1 j = 3) →
      touchesBackground w h st.1 j = true →
      ((dem j ≤ qMul labTh (mkRat 15 10) →
          (boundaryVisit w h dem labTh st j).1 j = 1 ∧
          (boundaryVisit w h dem labTh st j).2 = st.2 + 1) ∧
       (¬ dem j ≤ qMul labTh (mkRat 15 10) → dem j ≤ qMul labTh (mkRat 22 10) →
          (boundaryVisit w h dem labTh st j).1 j = 2 ∧
          (boundaryVisit w h dem labTh st j).2 = st.2 + 1))) ∧
    (∀ (g : Nat → Nat) i, touchesBackground w h g i = true ↔
      ∃ d, d < 8 ∧ (neighborIdx w h i d = none ∨
        ∃ k, neighborIdx w h i d = some k ∧ g k = 1)) ∧
    (∀ i L1 L2, List.range (w * h) = L1 ++ i :: L2 → i ∉ L2 →
      (boundaryPass w h dem labTh m).1 i =
        (boundaryVisit w h dem labTh
          (L1.foldl (boundaryVisit w h dem labTh) (m, 0)) i).1 i) ∧
    (∃ k, k ≤ 5 ∧ phase4 w h dem labTh m = passIter w h dem labTh k m ∧
      (k = 5 ∨ (0 < k ∧
        (boundaryPass w h dem labTh (passIter w h dem labTh (k - 1) m)).2 = 0))) := by
  refine ⟨fun st j i hne => boundaryVisit_fst_other w h dem labTh st j i hne,
    ?_, ?_, ?_, ?_, ?_⟩
  · intro st j hch
    by_cases h1 : st.1 j ≠ 3 ∧ st.1 j ≠ 2
    · rw [boundaryVisit, if_pos h1] at hch
      exact absurd rfl hch
    · by_cases h2 : touchesBackground w h st.1 j = true
      · have h3 : ¬ ¬ touchesBackground w h st.1 j = true := not_not.mpr h2
        by_cases h4 : dem j ≤ qMul labTh (mkRat 15 10)
        · refine ⟨by omega, h2, Or.inl ⟨h4, ?_⟩⟩
          rw [boundaryVisit, if_neg h1, if_neg h3, if_pos h4]
          exact Function.update_same _ _ _
        · by_cases h5 : dem j ≤ qMul labTh (mkRat 22 10)
          · refine ⟨by omega, h2, Or.inr ⟨h4, h5, ?_⟩⟩
            rw [boundaryVisit, if_neg h1, if_neg h3, if_neg h4, if_pos h5]
            exact Function.update_same _ _ _
          · rw [boundaryVisit, if_neg h1, if_neg h3, if_neg h4, if_neg h5] at hch
            exact absurd rfl hch
      · rw [boundaryVisit, if_neg h1, if_pos h2] at hch
        exact absurd rfl hch
  · intro st j hm ht
    constructor
    · intro h4
      rw [boundaryVisit, if_neg (by omega), if_neg (not_not.mpr ht), if_pos h4]
      exact ⟨Function.update_same _ _ _, rfl⟩
    · intro h4 h5
      rw [boundaryVisit, if_neg (by omega), if_neg (not_not.mpr ht), if_neg h4,
        if_pos h5]
      exact ⟨Function.update_same _ _ _, rfl⟩
  · intro g i
    rw [touchesBackground, List.any_eq_true]
    constructor
    · rintro ⟨d, hd, hmatch⟩
      refine ⟨d, List.mem_range.mp hd, ?_⟩
      cases hni : neighborIdx w h i d with
      | none => exact Or.inl rfl
      | some k =>
        rw [hni] at hmatch
        exact Or.inr ⟨k, rfl, by simpa using hmatch⟩
    · rintro ⟨d, hd, hcase⟩
      refine ⟨d, List.mem_range.mpr hd, ?_⟩
      rcases hcase with hnone | ⟨k, hk, hgk⟩
      · rw [hnone]
      · rw [hk]
        simpa using hgk
  · intro i L1 L2 hsplit hi2
    rw [boundaryPass, hsplit, List.foldl_append, List.foldl_cons]
    refine foldl_preserve
      (P := fun (st : (Nat → Nat) × Nat) =>
        st.1 i = (boundaryVisit w h dem labTh
          (L1.foldl (boundaryVisit w h dem labTh) (m, 0)) i).1 i)
      (fun st j hst hj => ?_) rfl
    have hst' : st.1 i = (boundaryVisit w h dem labTh
        (L1.foldl (boundaryVisit w h dem labTh) (m, 0)) i).1 i := hst
    have hne : i ≠ j := fun hc => hi2 (by rw [hc]; exact hj)
    show (boundaryVisit w h dem labTh st j).1 i = _
    rw [boundaryVisit_fst_other w h dem labTh st j i hne]
    exact hst'
  · rw [phase4]
    exact phase4Loop_runs w h dem labTh 5 m

/-- Witness for claim C6 at a concrete instance. -/
theorem c6_witness :
    (((3 : Nat) = 2 ∨ (3 : Nat) = 3) ∧
      touchesBackground 1 1 (fun _ => 3) 0 = true ∧
      (((16 : ℚ) ≤ qMul 12 (mkRat 15 10) ∧
          (boundaryVisit 1 1 (fun _ => 16) 12 ((fun _ => 3), 0) 0).1 0 = 1) ∨
       (¬ (16 : ℚ) ≤ qMul 12 (mkRat 15 10) ∧ (16 : ℚ) ≤ qMul 12 (mkRat 22 10) ∧
          (boundaryVisit 1 1 (fun _ => 16) 12 ((fun _ => 3), 0) 0).1 0 = 2))) ∧
    ((boundaryVisit 1 1 (fun _ => 16) 12 ((fun _ => 3), 0) 0).1 0 = 1 ∧
      (boundaryVisit 1 1 (fun _ => 16) 12 ((fun _ => 3), 0) 0).2 = 0 + 1) ∧
    (boundaryPass 1 1 (fun _ => 16) 12 (fun _ => 3)).1 0 =
      (boundaryVisit 1 1 (fun _ => 16) 12
        (([] : List Nat).foldl (boundaryVisit 1 1 (fun _ => 16) 12)
          ((fun _ => 3), 0)) 0).1 0 ∧
    (boundaryVisit 1 1 (fun _ => 16) 12 ((fun _ => 3), 0) 5).1 0 = 3 := by
  refine ⟨(c6_boundary 1 1 (fun _ => 16) 12 (fun _ => 3)).2.1 ((fun _ => 3), 0) 0
      (by decide),
    ((c6_boundary 1 1 (fun _ => 16) 12 (fun _ => 3)).2.2.1 ((fun _ => 3), 0) 0
      (by decide) (by decide)).1 (by decide),
    (c6_boundary 1 1 (fun _ => 16) 12 (fun _ => 3)).2.2.2.2.1 0 [] []
      (by decide) (by decide),
    (c6_boundary 1 1 (fun _ => 16) 12 (fun _ => 3)).1 ((fun _ => 3), 0) 5 0
      (by decide)⟩

/-! ## Claim C7: the alpha compositor -/

theorem applyMaskVisit_other (m : Nat → Nat) (dem : Nat → ℚ) (labTh transTh : ℚ)
    (res : Nat → Nat) (j p : Nat) (hne : p ≠ j * 4 + 3) :
    applyMaskVisit 4 m dem labTh transTh res j p = res p := by
  rw [applyMaskVisit]
  split
  · exact Function.update_noteq hne _ _
  · split
    · exact Function.update_noteq hne _ _
    · rfl

/-- Claim C7 (confirmed): on an RGBA buffer the alpha compositor writes
alpha 0 for Background pixels, the clamped-and-floored interpolated alpha
for Transition pixels, leaves the alpha of every other pixel unchanged, and
never touches a non-alpha offset; the interpolation formula is 255 times
(deltaE - labTh) / (transTh - labTh), clamped to [0, 255], floored. -/
theorem c7_alpha_compositor (tp : Nat) (m : Nat → Nat) (dem : Nat → ℚ)
    (labTh transTh : ℚ) (data : Nat → Nat) :
    (∀ i, i < tp → m i = 1 →
      applyMask tp 4 m dem labTh transTh data (i * 4 + 3) = 0) ∧
    (∀ i, i < tp → m i = 2 →
      applyMask tp 4 m dem labTh transTh data (i * 4 + 3) =
        transitionAlpha (dem i) labTh transTh) ∧
    (∀ i, i < tp → m i ≠ 1 → m i ≠ 2 →
      applyMask tp 4 m dem labTh transTh data (i * 4 + 3) = data (i * 4 + 3)) ∧
    (∀ o, o % 4 ≠ 3 → applyMask tp 4 m dem labTh transTh data o = data o) ∧
    (∀ d l t : ℚ, transitionAlpha d l t =
      (⌊max 0 (min 255 ((d - l) / (t - l) * 255))⌋).toNat) := by
  have hother : ∀ o, o % 4 ≠ 3 → applyMask tp 4 m dem labTh transTh data o = data o := by
    intro o ho
    rw [applyMask]
    refine foldl_preserve (P := fun (res : Nat → Nat) => res o = data o)
      (fun res j hres _ => ?_) rfl
    have hres' : res o = data o := hres
    show applyMaskVisit 4 m dem labTh transTh res j o = data o
    rw [applyMaskVisit_other m dem labTh transTh res j o (by omega)]
    exact hres'
  have halpha : ∀ i, i < tp →
      applyMask tp 4 m dem labTh transTh data (i * 4 + 3) =
        if m i = 1 then 0
        else if m i = 2 then transitionAlpha (dem i) labTh transTh
        else data (i * 4 + 3) := by
    intro i hi
    obtain ⟨L1, L2, hsplit, hi1, hi2⟩ := exists_range_split hi
    rw [applyMask, hsplit, List.foldl_append, List.foldl_cons]
    have hpre : ∀ (L : List Nat), (m i ≠ 1 ∧ m i ≠ 2) →
        (L.foldl (applyMaskVisit 4 m dem labTh transTh) data) (i * 4 + 3) =
          data (i * 4 + 3) := by
      intro L hm
      refine foldl_preserve
        (P := fun (res : Nat → Nat) => res (i * 4 + 3) = data (i * 4 + 3))
        (fun res j hres _ => ?_) rfl
      have hres' : res (i * 4 + 3) = data (i * 4 + 3) := hres
      show applyMaskVisit 4 m dem labTh transTh res j (i * 4 + 3) = data (i * 4 + 3)
      rcases eq_or_ne i j with rfl | hne
      · rw [applyMaskVisit, if_neg hm.1, if_neg hm.2]
        exact hres'
      · rw [applyMaskVisit_other m dem labTh transTh res j _ (by omega)]
        exact hres'
    have hsuf : ∀ (g : Nat → Nat),
        (L2.foldl (applyMaskVisit 4 m dem labTh transTh)
          (applyMaskVisit 4 m dem labTh transTh g i)) (i * 4 + 3) =
        (applyMaskVisit 4 m dem labTh transTh g i) (i * 4 + 3) := by
      intro g
      refine foldl_preserve
        (P := fun (res : Nat → Nat) => res (i * 4 + 3) =
          (applyMaskVisit 4 m dem labTh transTh g i) (i * 4 + 3))
        (fun res j hres hj => ?_) rfl
      have hres' : res (i * 4 + 3) =
          (applyMaskVisit 4 m dem labTh transTh g i) (i * 4 + 3) := hres
      have hne : i ≠ j := fun hc => hi2 (by rw [hc]; exact hj)
      show applyMaskVisit 4 m dem labTh transTh res j (i * 4 + 3) = _
      rw [applyMaskVisit_other m dem labTh transTh res j _ (by omega)]
      exact hres'
    rw [hsuf]
    by_cases h1 : m i = 1
    · rw [applyMaskVisit, if_pos h1, if_pos h1, Function.update_same]
    · by_cases h2 : m i = 2
      · rw [applyMaskVisit, if_neg h1, if_pos h2, if_neg h1, if_pos h2,
          Function.update_same]
      · rw [applyMaskVisit, if_neg h1, if_neg h2, if_neg h1, if_neg h2]
        exact hpre L1 ⟨h1, h2⟩
  refine ⟨fun i hi hm => ?_, fun i hi hm => ?_, fun i hi h1 h2 => ?_, hother,
    fun d l t => ?_⟩
  · rw [halpha i hi, if_pos hm]
  · rw [halpha i hi, if_neg (by omega), if_pos hm]
  · rw [halpha i hi, if_neg h1, if_neg h2]
  · rw [transitionAlpha, jsMaxQ_eq, jsMinQ_eq, qMul_eq, qDiv_eq, qSub_eq, qSub_eq]

/-- Witness for claim C7 at a concrete instance. -/
theorem c7_witness :
    applyMask 2 4 (fun j => if j = 0 then 1 else 2) (fun _ => 14) 12
      (mkRat 78 5) (fun _ => 9) (0 * 4 + 3) = 0 ∧
    applyMask 2 4 (fun j => if j = 0 then 1 else 2) (fun _ => 14) 12
      (mkRat 78 5) (fun _ => 9) (1 * 4 + 3) =
      transitionAlpha 14 12 (mkRat 78 5) ∧
    applyMask 2 4 (fun j => if j = 0 then 3 else 2) (fun _ => 14) 12
      (mkRat 78 5) (fun _ => 9) (0 * 4 + 3) = 9 ∧
    applyMask 2 4 (fun j => if j = 0 then 1 else 2) (fun _ => 14) 12
      (mkRat 78 5) (fun _ => 9) 6 = 9 := by
  refine ⟨(c7_alpha_compositor 2 (fun j => if j = 0 then 1 else 2) (fun _ => 14) 12
      (mkRat 78 5) (fun _ => 9)).1 0 (by decide) (by decide),
    (c7_alpha_compositor 2 (fun j => if j = 0 then 1 else 2) (fun _ => 14) 12
      (mkRat 78 5) (fun _ => 9)).2.1 1 (by decide) (by decide),
    (c7_alpha_compositor 2 (fun j => if j = 0 then 3 else 2) (fun _ => 14) 12
      (mkRat 78 5) (fun _ => 9)).2.2.1 0 (by decide) (by decide) (by decide),
    (c7_alpha_compositor 2 (fun j => if j = 0 then 1 else 2) (fun _ => 14) 12
      (mkRat 78 5) (fun _ => 9)).2.2.2.1 6 (by decide)⟩

/-! ## Claim C8: smart decontamination -/

theorem jsRound_eq (q : ℚ) : jsRound q = ⌊q + 1/2⌋ := by
  rw [jsRound, qAdd_eq]
  rw [show (mkRat 1 2 : ℚ) = 1/2 by rw [Rat.mkRat_eq_div]; norm_num]

theorem clampByte_nonneg (z : Int) : 0 ≤ clampByte z := by
  rw [clampByte, zMax_eq]
  exact le_max_left _ _

/-- Clamping to [0, 255] can only move a value closer to any point of
[0, 255]. -/
theorem clampByte_close (v fg : Int) (h0 : 0 ≤ fg) (h255 : fg ≤ 255) :
    |clampByte v - fg| ≤ |v - fg| := by
  rw [clampByte, zMax_eq, zMin_eq]
  rcases le_total v 0 with hv0 | hv0
  · rw [min_eq_right (by omega : v ≤ (255 : Int)),
      max_eq_left (by omega : v ≤ (0 : Int))]
    rw [abs_of_nonpos (by omega), abs_of_nonpos (by omega)]
    omega
  · rcases le_total v 255 with hv255 | hv255
    · rw [min_eq_right hv255, max_eq_right hv0]
    · rw [min_eq_left hv255, max_eq_right (by omega : (0 : Int) ≤ 255)]
      rw [abs_of_nonneg (by omega), abs_of_nonneg (by omega)]
      omega

/-- The af < 0.1 test of smartDecontamination in terms of the alpha byte. -/
theorem af_lt_tenth_iff (a : Nat) :
    (qDiv (qOfNat a) 255 < mkRat 1 10) ↔ a ≤ 25 := by
  rw [qDiv_eq, qOfNat_eq, Rat.mkRat_eq_div]
  rw [show ((1 : Int) : ℚ) / ((10 : Nat) : ℚ) = 1/10 by norm_num]
  rw [div_lt_div_iff (by norm_num) (by norm_num)]
  constructor
  · intro hc
    have h2 : (a : ℚ) * 10 < 255 := by linarith
    have h3 : a * 10 < 255 := by exact_mod_cast h2
    omega
  · intro hc
    have h3 : (a : ℚ) ≤ 25 := by exact_mod_cast hc
    linarith

theorem decontVisit_skip (m : Nat → Nat) (bg : RGB) (res : Nat → Nat) (i : Nat)
    (hs : res (i * 4 + 3) = 0 ∨ res (i * 4 + 3) = 255 ∨ m i ≠ 2) :
    decontVisit 4 m bg res i = res := by
  simp only [decontVisit]
  rw [if_pos hs]

theorem decontVisit_low (m : Nat → Nat) (bg : RGB) (res : Nat → Nat) (i : Nat)
    (hs : ¬ (res (i * 4 + 3) = 0 ∨ res (i * 4 + 3) = 255 ∨ m i ≠ 2))
    (hl : qDiv (qOfNat (res (i * 4 + 3))) 255 < mkRat 1 10) :
    decontVisit 4 m bg res i = Function.update res (i * 4 + 3) 0 := by
  simp only [decontVisit]
  rw [if_neg hs, if_pos hl]

theorem decontVisit_main (m : Nat → Nat) (bg : RGB) (res : Nat → Nat) (i : Nat)
    (hs : ¬ (res (i * 4 + 3) = 0 ∨ res (i * 4 + 3) = 255 ∨ m i ≠ 2))
    (hl : ¬ qDiv (qOfNat (res (i * 4 + 3))) 255 < mkRat 1 10) :
    decontVisit 4 m bg res i (i * 4) =
      decontChannel (res (i * 4)) bg.r (qDiv (qOfNat (res (i * 4 + 3))) 255) ∧
    decontVisit 4 m bg res i (i * 4 + 1) =
      decontChannel (res (i * 4 + 1)) bg.g (qDiv (qOfNat (res (i * 4 + 3))) 255) ∧
    decontVisit 4 m bg res i (i * 4 + 2) =
      decontChannel (res (i * 4 + 2)) bg.b (qDiv (qOfNat (res (i * 4 + 3))) 255) ∧
    (∀ p, p ≠ i * 4 → p ≠ i * 4 + 1 → p ≠ i * 4 + 2 →
      decontVisit 4 m bg res i p = res p) := by
  simp only [decontVisit]
  rw [if_neg hs, if_neg hl]
  refine ⟨?_, ?_, ?_, ?_⟩
  · rw [Function.update_noteq (show i * 4 ≠ i * 4 + 2 by omega),
      Function.update_noteq (show i * 4 ≠ i * 4 + 1 by omega),
      Function.update_same]
  · rw [Function.update_noteq (show i * 4 + 1 ≠ i * 4 + 2 by omega),
      Function.update_same,
      Function.update_noteq (show i * 4 + 1 ≠ i * 4 by omega)]
  · rw [Function.update_same,
      Function.update_noteq (show i * 4 + 2 ≠ i * 4 + 1 by omega),
      Function.update_noteq (show i * 4 + 2 ≠ i * 4 by omega)]
  · intro p h0 h1 h2
    rw [Function.update_noteq h2, Function.update_noteq h1, Function.update_noteq h0]

theorem decontVisit_pixel_other (m : Nat → Nat) (bg : RGB) (res : Nat → Nat)
    (j p : Nat) (h0 : p ≠ j * 4) (h1 : p ≠ j * 4 + 1) (h2 : p ≠ j * 4 + 2)
    (h3 : p ≠ j * 4 + 3) :
    decontVisit 4 m bg res j p = res p := by
  by_cases hs : res (j * 4 + 3) = 0 ∨ res (j * 4 + 3) = 255 ∨ m j ≠ 2
  · rw [decontVisit_skip m bg res j hs]
  · by_cases hl : qDiv (qOfNat (res (j * 4 + 3))) 255 < mkRat 1 10
    · rw [decontVisit_low m bg res j hs hl]
      exact Function.update_noteq h3 _ _
    · exact (decontVisit_main m bg res j hs hl).2.2.2 p h0 h1 h2

/-- Per-pixel behaviour of smartDecontamination on a 4-channel buffer. -/
theorem smartDecont_pixel (data : Nat → Nat) (w h : Nat) (m : Nat → Nat)
    (bg : RGB) (i : Nat) (hi : i < w * h) :
    (data (i * 4 + 3) = 0 ∨ data (i * 4 + 3) = 255 ∨ m i ≠ 2 →
      ∀ c, c ≤ 3 →
        smartDecontamination data w h 4 m bg (i * 4 + c) = data (i * 4 + c)) ∧
    (¬ (data (i * 4 + 3) = 0 ∨ data (i * 4 + 3) = 255 ∨ m i ≠ 2) →
      qDiv (qOfNat (data (i * 4 + 3))) 255 < mkRat 1 10 →
      smartDecontamination data w h 4 m bg (i * 4 + 3) = 0 ∧
      ∀ c, c ≤ 2 →
        smartDecontamination data w h 4 m bg (i * 4 + c) = data (i * 4 + c)) ∧
    (¬ (data (i * 4 + 3) = 0 ∨ data (i * 4 + 3) = 255 ∨ m i ≠ 2) →
      ¬ qDiv (qOfNat (data (i * 4 + 3))) 255 < mkRat 1 10 →
      smartDecontamination data w h 4 m bg (i * 4) =
        decontChannel (data (i * 4)) bg.r (qDiv (qOfNat (data (i * 4 + 3))) 255) ∧
      smartDecontamination data w h 4 m bg (i * 4 + 1) =
        decontChannel (data (i * 4 + 1)) bg.g (qDiv (qOfNat (data (i * 4 + 3))) 255) ∧
      smartDecontamination data w h 4 m bg (i * 4 + 2) =
        decontChannel (data (i * 4 + 2)) bg.b (qDiv (qOfNat (data (i * 4 + 3))) 255) ∧
      smartDecontamination data w h 4 m bg (i * 4 + 3) = data (i * 4 + 3)) := by
  obtain ⟨L1, L2, hsplit, hi1, hi2⟩ := exists_range_split hi
  have hstep : ∀ (L : List Nat), i ∉ L → ∀ (r0 : Nat → Nat) (c : Nat), c ≤ 3 →
      (L.foldl (decontVisit 4 m bg) r0) (i * 4 + c) = r0 (i * 4 + c) := by
    intro L hiL r0
    have : ∀ c, c ≤ 3 → (L.foldl (decontVisit 4 m bg) r0) (i * 4 + c) = r0 (i * 4 + c) := by
      refine foldl_preserve
        (P := fun (res : Nat → Nat) => ∀ c, c ≤ 3 →
          res (i * 4 + c) = r0 (i * 4 + c))
        (fun res j hres hj => ?_) (fun c hc => rfl)
      intro c hc
      have hne : i ≠ j := fun hcon => hiL (by rw [hcon]; exact hj)
      have hv : decontVisit 4 m bg res j (i * 4 + c) = res (i * 4 + c) :=
        decontVisit_pixel_other m bg res j _ (by omega) (by omega) (by omega) (by omega)
      rw [hv]
      exact hres c hc
    exact this
  have hg3 : (L1.foldl (decontVisit 4 m bg) data) (i * 4 + 3) = data (i * 4 + 3) :=
    hstep L1 hi1 data 3 (by omega)
  have hrw : smartDecontamination data w h 4 m bg =
      L2.foldl (decontVisit 4 m bg)
        (decontVisit 4 m bg (L1.foldl (decontVisit 4 m bg) data) i) := by
    rw [smartDecontamination, hsplit, List.foldl_append, List.foldl_cons]
  refine ⟨fun hs c hc => ?_, fun hs hl => ?_, fun hs hl => ?_⟩
  · rw [hrw, hstep L2 hi2 _ c hc,
      decontVisit_skip m bg _ i (by rw [hg3]; exact hs)]
    exact hstep L1 hi1 data c hc
  · have hv : decontVisit 4 m bg (L1.foldl (decontVisit 4 m bg) data) i =
        Function.update (L1.foldl (decontVisit 4 m bg) data) (i * 4 + 3) 0 :=
      decontVisit_low m bg _ i (by rw [hg3]; exact hs) (by rw [hg3]; exact hl)
    constructor
    · rw [hrw, hstep L2 hi2 _ 3 (by omega), hv, Function.update_same]
    · intro c hc
      rw [hrw, hstep L2 hi2 _ c (by omega), hv,
        Function.update_noteq (by omega)]
      exact hstep L1 hi1 data c (by omega)
  · have hmain := decontVisit_main m bg (L1.foldl (decontVisit 4 m bg) data) i
      (by rw [hg3]; exact hs) (by rw [hg3]; exact hl)
    refine ⟨?_, ?_, ?_, ?_⟩
    · have e1 : List.foldl (decontVisit 4 m bg)
          (decontVisit 4 m bg (List.foldl (decontVisit 4 m bg) data L1) i) L2 (i * 4) =
          decontVisit 4 m bg (List.foldl (decontVisit 4 m bg) data L1) i (i * 4) :=
        hstep L2 hi2 _ 0 (by omega)
      have e2 : List.foldl (decontVisit 4 m bg) data L1 (i * 4) = data (i * 4) :=
        hstep L1 hi1 data 0 (by omega)
      rw [hrw, e1, hmain.1, hg3, e2]
    · rw [hrw, hstep L2 hi2 _ 1 (by omega), hmain.2.1, hg3,
        hstep L1 hi1 data 1 (by omega)]
    · rw [hrw, hstep L2 hi2 _ 2 (by omega), hmain.2.2.1, hg3,
        hstep L1 hi1 data 2 (by omega)]
    · rw [hrw, hstep L2 hi2 _ 3 (by omega),
        hmain.2.2.2 (i * 4 + 3) (by omega) (by omega) (by omega)]
      exact hg3

/-- The invertibility error bound: if the observed byte was synthesized as
round(fg * af + bgc * (1 - af)) with af = a / 255, decontamination recovers
fg up to round(255 / (2a)) per channel (clamping only helps). -/
theorem decont_recover (fg bgc a obs : Nat)
    (hfg : fg ≤ 255) (ha1 : 26 ≤ a) (ha2 : a ≤ 254)
    (hobs : (obs : Int) = jsRound (qAdd (qMul (qOfNat fg) (qDiv (qOfNat a) 255))
      (qMul (qOfNat bgc) (qSub 1 (qDiv (qOfNat a) 255))))) :
    |(decontChannel obs bgc (qDiv (qOfNat a) 255) : Int) - (fg : Int)| ≤
      jsRound (qDiv 255 (qMul 2 (qOfNat a))) := by
  have hapos : (0 : ℚ) < (a : ℚ) := by exact_mod_cast (by omega : 0 < a)
  rw [decontChannel]
  simp only [jsRound_eq, qDiv_eq, qSub_eq, qMul_eq, qAdd_eq, qOfNat_eq] at hobs ⊢
  set af : ℚ := (a : ℚ) / 255 with hafdef
  have hafpos : (0 : ℚ) < af := by rw [hafdef]; positivity
  have hafne : af ≠ 0 := ne_of_gt hafpos
  set v : ℚ := (fg : ℚ) * af + (bgc : ℚ) * (1 - af) with hvdef
  set e : ℚ := (obs : ℚ) - v with hedef
  have hcast : (((obs : Int)) : ℚ) = (obs : ℚ) := by push_cast; rfl
  have hobs1 : (obs : ℚ) ≤ v + 1/2 := by
    rw [← hcast, hobs]
    exact_mod_cast Int.floor_le (v + 1/2)
  have hobs2 : v + 1/2 < (obs : ℚ) + 1 := by
    rw [← hcast, hobs]
    exact_mod_cast Int.lt_floor_add_one (v + 1/2)
  have he1 : e ≤ 1/2 := by rw [hedef]; linarith
  have he2 : -(1/2) < e := by rw [hedef]; linarith
  have hq : ((obs : ℚ) - (bgc : ℚ) * (1 - af)) / af = (fg : ℚ) + e / af := by
    rw [hedef, hvdef]
    field_simp
    ring
  rw [hq]
  have hsplit2 : (fg : ℚ) + e / af + 1/2 = ((fg : Int) : ℚ) + (e / af + 1/2) := by
    push_cast
    ring
  rw [hsplit2, Int.floor_int_add]
  set dlt : Int := ⌊e / af + 1/2⌋ with hdlt
  set B : Int := ⌊(255 : ℚ) / (2 * (a : ℚ)) + 1/2⌋ with hB
  have hhalf : (1/2 : ℚ) / af = 255 / (2 * (a : ℚ)) := by
    rw [hafdef]
    field_simp
  have hub : e / af ≤ 255 / (2 * (a : ℚ)) := by
    rw [← hhalf]
    exact (div_le_div_right hafpos).mpr he1
  have hlb : -(255 / (2 * (a : ℚ))) < e / af := by
    rw [← hhalf]
    have hd : (-(1/2) : ℚ) / af < e / af := (div_lt_div_right hafpos).mpr he2
    have he : (-(1/2) : ℚ) / af = -((1/2 : ℚ) / af) := by ring
    rw [he] at hd
    exact hd
  have hdltB : dlt ≤ B := by
    rw [hdlt, hB]
    exact Int.floor_le_floor (by linarith)
  have hBq : (255 : ℚ) / (2 * (a : ℚ)) + 1/2 < (B : ℚ) + 1 := by
    rw [hB]
    exact_mod_cast Int.lt_floor_add_one ((255 : ℚ) / (2 * (a : ℚ)) + 1/2)
  have hBdlt : -B ≤ dlt := by
    rw [hdlt, Int.le_floor]
    push_cast
    linarith
  have htoNat : ((clampByte ((fg : Int) + dlt)).toNat : Int) =
      clampByte ((fg : Int) + dlt) := Int.toNat_of_nonneg (clampByte_nonneg _)
  rw [htoNat]
  calc |clampByte ((fg : Int) + dlt) - (fg : Int)|
      ≤ |((fg : Int) + dlt) - (fg : Int)| :=
        clampByte_close _ _ (by exact_mod_cast Nat.zero_le fg) (by exact_mod_cast hfg)
    _ = |dlt| := by congr 1; ring
    _ ≤ B := abs_le.mpr ⟨hBdlt, hdltB⟩

/-- Claim C8 (counterexample): synthesizing a pixel with fg = 152, bg = 0 and
alpha byte 26 (af just above the 0.1 cutoff) stores the rounded byte 15, and
decontamination recovers 147, an error of 5 per channel, not within 1. -/
theorem c8_counterexample :
    jsRound (qAdd (qMul (qOfNat 152) (qDiv (qOfNat 26) 255))
      (qMul (qOfNat 0) (qSub 1 (qDiv (qOfNat 26) 255)))) = 15 ∧
    decontChannel 15 0 (qDiv (qOfNat 26) 255) = 147 ∧
    smartDecontamination (fun o => if o = 0 then 15 else if o = 3 then 26 else 0)
      1 1 4 (fun _ => 2) ⟨0, 0, 0⟩ 0 = 147 ∧
    ¬ (152 - 147 ≤ 1) := by
  exact ⟨by decide, by decide, by decide, by decide⟩

/-- Claim C8 (amended): on a Transition pixel with alpha byte a not 0 or 255,
decontamination forces the pixel fully transparent exactly when a <= 25
(af = a/255 < 0.1); for 26 <= a <= 254 it rewrites each colour channel to
clamp(round((observed - background*(1 - af)) / af)) and leaves alpha alone;
and for an observed byte synthesized as round(fg*af + bg*(1 - af)) the
recovered channel is within round(255 / (2a)) of fg — a bound that is 5, not
1, at the cutoff a = 26, and at most 1 only once a >= 85. -/
theorem c8_decontamination :
    (∀ (data : Nat → Nat) (w h : Nat) (m : Nat → Nat) (bg : RGB) (i : Nat),
      i < w * h → m i = 2 → 1 ≤ data (i * 4 + 3) → data (i * 4 + 3) ≤ 25 →
      smartDecontamination data w h 4 m bg (i * 4 + 3) = 0) ∧
    (∀ (data : Nat → Nat) (w h : Nat) (m : Nat → Nat) (bg : RGB) (i : Nat),
      i < w * h → m i = 2 → 26 ≤ data (i * 4 + 3) → data (i * 4 + 3) ≤ 254 →
      smartDecontamination data w h 4 m bg (i * 4) =
        decontChannel (data (i * 4)) bg.r (qDiv (qOfNat (data (i * 4 + 3))) 255) ∧
      smartDecontamination data w h 4 m bg (i * 4 + 1) =
        decontChannel (data (i * 4 + 1)) bg.g (qDiv (qOfNat (data (i * 4 + 3))) 255) ∧
      smartDecontamination data w h 4 m bg (i * 4 + 2) =
        decontChannel (data (i * 4 + 2)) bg.b (qDiv (qOfNat (data (i * 4 + 3))) 255) ∧
      smartDecontamination data w h 4 m bg (i * 4 + 3) = data (i * 4 + 3)) ∧
    (∀ (fg bgc a obs : Nat), fg ≤ 255 → 26 ≤ a → a ≤ 254 →
      (obs : Int) = jsRound (qAdd (qMul (qOfNat fg) (qDiv (qOfNat a) 255))
        (qMul (qOfNat bgc) (qSub 1 (qDiv (qOfNat a) 255)))) →
      |(decontChannel obs bgc (qDiv (qOfNat a) 255) : Int) - (fg : Int)| ≤
        jsRound (qDiv 255 (qMul 2 (qOfNat a)))) := by
  refine ⟨fun data w h m bg i hi hm ha1 ha2 => ?_,
    fun data w h m bg i hi hm ha1 ha2 => ?_,
    fun fg bgc a obs hfg ha1 ha2 hobs => decont_recover fg bgc a obs hfg ha1 ha2 hobs⟩
  · exact ((smartDecont_pixel data w h m bg i hi).2.1
      (by push_neg; exact ⟨by omega, by omega, hm⟩)
      ((af_lt_tenth_iff _).mpr ha2)).1
  · exact (smartDecont_pixel data w h m bg i hi).2.2
      (by push_neg; exact ⟨by omega, by omega, hm⟩)
      (fun hc => by have h25 := (af_lt_tenth_iff _).mp hc; omega)

/-- Witness for claim C8 at a concrete instance. -/
theorem c8_witness :
    smartDecontamination (fun o => if o = 3 then 20 else 50) 1 1 4
      (fun _ => 2) ⟨0, 0, 0⟩ (0 * 4 + 3) = 0 ∧
    smartDecontamination (fun o => if o = 0 then 15 else if o = 3 then 26 else 0)
      1 1 4 (fun _ => 2) ⟨0, 0, 0⟩ (0 * 4) =
      decontChannel ((fun o => if o = 0 then 15 else if o = 3 then 26 else 0) (0 * 4))
        (0 : Nat)
        (qDiv (qOfNat ((fun o => if o = 0 then 15 else if o = 3 then 26 else 0)
          (0 * 4 + 3))) 255) ∧
    |(decontChannel 15 0 (qDiv (qOfNat 26) 255) : Int) - (152 : Int)| ≤
      jsRound (qDiv 255 (qMul 2 (qOfNat 26))) := by
  refine ⟨c8_decontamination.1 (fun o => if o = 3 then 20 else 50) 1 1
      (fun _ => 2) ⟨0, 0, 0⟩ 0 (by decide) (by decide) (by decide) (by decide),
    (c8_decontamination.2.1 (fun o => if o = 0 then 15 else if o = 3 then 26 else 0)
      1 1 (fun _ => 2) ⟨0, 0, 0⟩ 0 (by decide) (by decide) (by decide) (by decide)).1,
    c8_decontamination.2.2 152 0 26 15 (by decide) (by decide) (by decide) (by decide)⟩

/-! ## Claim C9: the background estimator -/

/-- One step of the dominant-bucket fold of detectBackgroundColor. -/
def pickStep (acc : Nat × RGB) (e : (Nat × Nat × Nat) × Bucket) : Nat × RGB :=
  if e.2.n > acc.1 then (e.2.n, bucketCentroid e.2) else acc

theorem pickDominant_eq_fold (cc : List ((Nat × Nat × Nat) × Bucket)) :
    pickDominant cc = (cc.foldl pickStep (0, ⟨255, 255, 255⟩)).2 := rfl

theorem mem_intRange {z lo hi : Int} : z ∈ intRange lo hi ↔ lo ≤ z ∧ z < hi := by
  rw [intRange]
  constructor
  · intro hz
    obtain ⟨k, hk, rfl⟩ := List.mem_map.mp hz
    rw [List.mem_range] at hk
    omega
  · intro hb
    refine List.mem_map.mpr ⟨(z - lo).toNat, List.mem_range.mpr (by omega), by omega⟩

/-- The bottom-right sample block always contributes the pixel
(w - 10, h - 10), whatever the raster size: the loop bounds are clamped only
from above. -/
theorem corner_mem_samplePixels (w h : Nat) :
    (((w : Int) - 10, (h : Int) - 10) : Int × Int) ∈ samplePixels w h := by
  rw [samplePixels]
  refine List.mem_flatMap.mpr ⟨((w : Int) - 10, (h : Int) - 10), ?_, ?_⟩
  · rw [sampleAreas]
    simp
  · refine List.mem_flatMap.mpr ⟨(h : Int) - 10, ?_, ?_⟩
    · exact mem_intRange.mpr ⟨le_refl _, lt_min (by omega) (by omega)⟩
    · refine List.mem_map.mpr ⟨(w : Int) - 10, ?_, rfl⟩
      exact mem_intRange.mpr ⟨le_refl _, lt_min (by omega) (by omega)⟩

theorem samplesOf_ne_nil (data : Int → Nat) (w h ch : Nat) :
    samplesOf data w h ch ≠ [] := by
  rw [samplesOf, sampleOffsets]
  intro hc
  rw [List.map_eq_nil_iff, List.map_eq_nil_iff] at hc
  have := corner_mem_samplePixels w h
  rw [hc] at this
  exact List.not_mem_nil _ this

theorem addSample_ne_nil (cc : List ((Nat × Nat × Nat) × Bucket)) (c : RGB) :
    addSample cc c ≠ [] := by
  simp only [addSample]
  split
  · rename_i hany
    intro hc
    rw [List.map_eq_nil_iff] at hc
    subst hc
    simp at hany
  · intro hc
    simp at hc

theorem buckets_pos (l : List RGB) :
    ∀ e ∈ l.foldl addSample [], 1 ≤ e.2.n := by
  refine foldl_preserve
    (P := fun (cc : List ((Nat × Nat × Nat) × Bucket)) => ∀ e ∈ cc, 1 ≤ e.2.n)
    (fun cc c hcc _ => ?_) (fun e he => absurd he (List.not_mem_nil e))
  simp only [addSample]
  split
  · intro e he
    obtain ⟨e0, he0, rfl⟩ := List.mem_map.mp he
    split
    · exact Nat.le_add_left 1 _
    · exact hcc e0 he0
  · intro e he
    rcases List.mem_append.mp he with he | he
    · exact hcc e he
    · rcases List.mem_singleton.mp he with rfl
      exact le_refl 1

theorem buckets_ne_nil (l : List RGB) (hl : l ≠ []) :
    l.foldl addSample [] ≠ [] := by
  rcases l with _ | ⟨c, t⟩
  · exact absurd rfl hl
  · rw [List.foldl_cons]
    refine foldl_preserve
      (P := fun (cc : List ((Nat × Nat × Nat) × Bucket)) => cc ≠ [])
      (fun cc c2 _ _ => addSample_ne_nil cc c2) (addSample_ne_nil [] c)

/-- The dominant-bucket fold returns either the unbeaten accumulator or the
first entry whose count strictly exceeds everything before it. -/
theorem pickFold_cases (cc : List ((Nat × Nat × Nat) × Bucket)) :
    ∀ acc : Nat × RGB,
    (cc.foldl pickStep acc = acc ∧ ∀ e ∈ cc, e.2.n ≤ acc.1) ∨
    (∃ e ∈ cc, cc.foldl pickStep acc = (e.2.n, bucketCentroid e.2) ∧
      acc.1 < e.2.n ∧ ∀ f ∈ cc, f.2.n ≤ e.2.n) := by
  induction cc with
  | nil => exact fun acc => Or.inl ⟨rfl, fun e he => absurd he (List.not_mem_nil e)⟩
  | cons e t ih =>
    intro acc
    rw [List.foldl_cons]
    by_cases he : e.2.n > acc.1
    · rw [show pickStep acc e = (e.2.n, bucketCentroid e.2) by
        rw [pickStep, if_pos he]]
      rcases ih (e.2.n, bucketCentroid e.2) with ⟨heq, hall⟩ | ⟨f, hf, heq, hlt, hall⟩
      · refine Or.inr ⟨e, List.mem_cons_self e t, heq, he, fun f hf => ?_⟩
        rcases List.mem_cons.mp hf with rfl | hf
        · exact le_refl _
        · exact hall f hf
      · refine Or.inr ⟨f, List.mem_cons_of_mem e hf, heq, by omega, fun g hg => ?_⟩
        rcases List.mem_cons.mp hg with rfl | hg
        · omega
        · exact hall g hg
    · rw [show pickStep acc e = acc by rw [pickStep, if_neg he]]
      rcases ih acc with ⟨heq, hall⟩ | ⟨f, hf, heq, hlt, hall⟩
      · refine Or.inl ⟨heq, fun g hg => ?_⟩
        rcases List.mem_cons.mp hg with rfl | hg
        · omega
        · exact hall g hg
      · refine Or.inr ⟨f, List.mem_cons_of_mem e hf, heq, hlt, fun g hg => ?_⟩
        rcases List.mem_cons.mp hg with rfl | hg
        · omega
        · exact hall g hg

/-- Claim C9 (counterexample): on the degenerate 0 x 0 raster the sampler
still collects 200 (out-of-range) samples, all buffer reads returning 0, and
the estimator returns black, not the claimed opaque-white default. -/
theorem c9_counterexample :
    detectBackgroundColor (fun _ => 0) 0 0 4 = ⟨0, 0, 0⟩ ∧
    (⟨0, 0, 0⟩ : RGB) ≠ ⟨255, 255, 255⟩ ∧
    (samplesOf (fun _ => 0) 0 0 4).length = 200 := by
  refine ⟨?_, by decide, ?_⟩
  · set_option maxRecDepth 4000 in decide
  · set_option maxRecDepth 4000 in decide

/-- Claim C9 (amended): the estimator returns the per-channel rounded mean
of the samples of a maximal-count 5-unit bucket (the first such bucket in
insertion order on ties). The sample blocks are clamped only from above, so
the bottom-right block always contributes the pixel (w-10, h-10) and the
sample list is never empty, every bucket holds at least one sample, and the
opaque-white default is unreachable: on a degenerate raster the estimator
averages out-of-range reads instead of returning white. -/
theorem c9_detector :
    (∀ w h : Nat, (((w : Int) - 10, (h : Int) - 10) : Int × Int) ∈ samplePixels w h) ∧
    (∀ (data : Int → Nat) (w h ch : Nat), samplesOf data w h ch ≠ []) ∧
    (∀ (l : List RGB) (e : (Nat × Nat × Nat) × Bucket),
      e ∈ l.foldl addSample [] → 1 ≤ e.2.n) ∧
    (∀ (data : Int → Nat) (w h ch : Nat),
      ∃ e ∈ (samplesOf data w h ch).foldl addSample [],
        detectBackgroundColor data w h ch = bucketCentroid e.2 ∧
        ∀ f ∈ (samplesOf data w h ch).foldl addSample [], f.2.n ≤ e.2.n) ∧
    (∀ s n : Nat, roundedMean s n = (⌊(s : ℚ) / (n : ℚ) + 1/2⌋).toNat) := by
  refine ⟨corner_mem_samplePixels, samplesOf_ne_nil,
    fun l e he => buckets_pos l e he, fun data w h ch => ?_, fun s n => ?_⟩
  · rcases pickFold_cases ((samplesOf data w h ch).foldl addSample [])
      (0, ⟨255, 255, 255⟩) with ⟨heq, hall⟩ | ⟨e, he, heq, hlt, hall⟩
    · rcases hcc : (samplesOf data w h ch).foldl addSample [] with _ | ⟨e, t⟩
      · exact absurd hcc (buckets_ne_nil _ (samplesOf_ne_nil data w h ch))
      · have h1 : 1 ≤ e.2.n := buckets_pos _ e (by rw [hcc]; exact List.mem_cons_self e t)
        have h0 : e.2.n ≤ 0 := by
          have := hall e (by rw [hcc]; exact List.mem_cons_self e t)
          omega
        omega
    · refine ⟨e, he, ?_, hall⟩
      rw [detectBackgroundColor, pickDominant_eq_fold, heq]
  · rw [roundedMean, jsRound_eq, qDiv_eq, qOfNat_eq, qOfNat_eq]

/-- Witness for claim C9 at a concrete instance. -/
theorem c9_witness :
    1 ≤ ((((0, 0, 0) : Nat × Nat × Nat), (⟨1, 0, 0, 0⟩ : Bucket)) :
      (Nat × Nat × Nat) × Bucket).2.n ∧
    (((0 : Nat) : Int) - 10, ((0 : Nat) : Int) - 10) ∈ samplePixels 0 0 := by
  refine ⟨c9_detector.2.2.1 [⟨0, 0, 0⟩] ((0, 0, 0), ⟨1, 0, 0, 0⟩) (by decide),
    c9_detector.1 0 0⟩

/-! ## Claim C10: sampler bounds safety -/

theorem sampleAreas_nonneg (w h : Nat) :
    ∀ a ∈ sampleAreas w h, (10 ≤ w → 0 ≤ a.1) ∧ (10 ≤ h → 0 ≤ a.2) := by
  intro a ha
  rw [sampleAreas] at ha
  fin_cases ha <;> constructor <;> intro h10 <;> dsimp only <;> omega

theorem samplePixels_bounds (w h : Nat) (hw : 10 ≤ w) (hh : 10 ≤ h) :
    ∀ p ∈ samplePixels w h, 0 ≤ p.1 ∧ p.1 < w ∧ 0 ≤ p.2 ∧ p.2 < h := by
  intro p hp
  rw [samplePixels] at hp
  obtain ⟨a, ha, hp⟩ := List.mem_flatMap.mp hp
  obtain ⟨y, hy, hx⟩ := List.mem_flatMap.mp hp
  obtain ⟨x, hxm, rfl⟩ := List.mem_map.mp hx
  obtain ⟨hy1, hy2⟩ := mem_intRange.mp hy
  obtain ⟨hx1, hx2⟩ := mem_intRange.mp hxm
  have hna := sampleAreas_nonneg w h a ha
  have hax := hna.1 hw
  have hay := hna.2 hh
  refine ⟨by omega, ?_, by omega, ?_⟩
  · have := min_le_right (a.1 + 10) (w : Int)
    omega
  · have := min_le_right (a.2 + 10) (h : Int)
    omega

/-- Claim C10 (confirmed, with tightness): for w, h at least 10 and at least
3 channels every offset the sampler reads is inside the buffer, and for any
nonzero raster with a side below 10 the sampler generates a pixel with a
negative coordinate, so the precondition is tight. -/
theorem c10_sampling :
    (∀ w h ch : Nat, 10 ≤ w → 10 ≤ h → 3 ≤ ch →
      ∀ o ∈ sampleOffsets w h ch, 0 ≤ o ∧ o + 2 < (w * h * ch : Int)) ∧
    (∀ w h : Nat, 1 ≤ w → w ≤ 9 → 1 ≤ h →
      ∃ p ∈ samplePixels w h, p.1 < 0) ∧
    (∀ w h : Nat, 1 ≤ h → h ≤ 9 → 1 ≤ w →
      ∃ p ∈ samplePixels w h, p.2 < 0) := by
  refine ⟨fun w h ch hw hh hch o ho => ?_, fun w h hw1 hw9 hh1 => ?_,
    fun w h hh1 hh9 hw1 => ?_⟩
  · rw [sampleOffsets] at ho
    obtain ⟨p, hp, rfl⟩ := List.mem_map.mp ho
    obtain ⟨hx0, hxw, hy0, hyh⟩ := samplePixels_bounds w h hw hh p hp
    have hchz : (3 : Int) ≤ (ch : Int) := by exact_mod_cast hch
    have hwz : (10 : Int) ≤ (w : Int) := by exact_mod_cast hw
    have hhz : (10 : Int) ≤ (h : Int) := by exact_mod_cast hh
    have hyw : p.2 * w ≤ ((h : Int) - 1) * w :=
      mul_le_mul_of_nonneg_right (by omega) (by positivity)
    have hidx0 : 0 ≤ p.2 * (w : Int) + p.1 := by
      have : (0 : Int) ≤ p.2 * w := mul_nonneg hy0 (by positivity)
      omega
    have hidx : p.2 * (w : Int) + p.1 ≤ (w : Int) * h - 1 := by nlinarith
    constructor
    · exact mul_nonneg hidx0 (by positivity)
    · have hstep : (p.2 * (w : Int) + p.1) * ch ≤ ((w : Int) * h - 1) * ch :=
        mul_le_mul_of_nonneg_right hidx (by positivity)
      nlinarith
  · refine ⟨((w : Int) - 10, 0), ?_, by dsimp only; omega⟩
    rw [samplePixels]
    refine List.mem_flatMap.mpr ⟨((w : Int) - 10, 0), by rw [sampleAreas]; simp, ?_⟩
    refine List.mem_flatMap.mpr ⟨0, ?_, ?_⟩
    · exact mem_intRange.mpr ⟨le_refl _, lt_min (by omega) (by omega)⟩
    · exact List.mem_map.mpr ⟨(w : Int) - 10,
        mem_intRange.mpr ⟨le_refl _, lt_min (by omega) (by omega)⟩, rfl⟩
  · refine ⟨(0, (h : Int) - 10), ?_, by dsimp only; omega⟩
    rw [samplePixels]
    refine List.mem_flatMap.mpr ⟨(0, (h : Int) - 10), by rw [sampleAreas]; simp, ?_⟩
    refine List.mem_flatMap.mpr ⟨(h : Int) - 10, ?_, ?_⟩
    · exact mem_intRange.mpr ⟨le_refl _, lt_min (by omega) (by omega)⟩
    · exact List.mem_map.mpr ⟨0,
        mem_intRange.mpr ⟨le_refl _, lt_min (by omega) (by omega)⟩, rfl⟩

/-- Witness for claim C10 at a concrete instance. -/
theorem c10_witness :
    (0 ≤ (0 : Int) ∧ (0 : Int) + 2 < ((10 : Nat) * (10 : Nat) * (3 : Nat) : Int)) ∧
    (∃ p ∈ samplePixels 5 5, p.1 < 0) ∧
    (∃ p ∈ samplePixels 5 5, p.2 < 0) := by
  refine ⟨c10_sampling.1 10 10 3 (by decide) (by decide) (by decide) 0 (by decide),
    c10_sampling.2.1 5 5 (by decide) (by decide) (by decide),
    c10_sampling.2.2 5 5 (by decide) (by decide) (by decide)⟩

/-! ## Claim C4: the interior island detector.

Deep correctness of the phase-2 component search: the inner BFS collects
exactly the 8-connected component of still-foreground background-coloured
unvisited pixels, and the outer scan reclassifies a component iff it reaches
minIslandSize. -/

section Phase2Deep

variable (w h : Nat) (m : Nat → Nat) (dem : Nat → ℚ) (labTh : ℚ)

/-- The neighbour fold of one dequeued pixel, over an arbitrary direction
list. -/
def islNbrFold (ci : Nat) (ds : List Nat) (st : IslandState) : IslandState :=
  ds.foldl (fun s d => islandNbr m dem labTh s (neighborIdx w h ci d)) st

theorem islandExpand_eq_fold (st : IslandState) (ci : Nat) :
    islandExpand w h m dem labTh st ci = islNbrFold w h m dem labTh ci (List.range 8) st :=
  rfl

theorem islandNbr_none (s : IslandState) :
    islandNbr m dem labTh s none = s := rfl

theorem islandNbr_some (s : IslandState) (ni : Nat) :
    islandNbr m dem labTh s (some ni) =
      if s.vis ni ≠ 0 ∨ m ni ≠ 3 ∨ labTh < dem ni then s
      else ⟨Function.update s.vis ni 1, s.pending ++ [ni], s.rg⟩ := rfl

theorem islandNbr_vals (s : IslandState) (o : Option Nat) :
    islandNbr m dem labTh s o = s ∨
    ∃ ni, o = some ni ∧ s.vis ni = 0 ∧ m ni = 3 ∧ dem ni ≤ labTh ∧
      islandNbr m dem labTh s o =
        ⟨Function.update s.vis ni 1, s.pending ++ [ni], s.rg⟩ := by
  rcases o with _ | ni
  · exact Or.inl (islandNbr_none m dem labTh s)
  · rw [islandNbr_some]
    by_cases hc : s.vis ni ≠ 0 ∨ m ni ≠ 3 ∨ labTh < dem ni
    · rw [if_pos hc]
      exact Or.inl rfl
    · rw [if_neg hc]
      push_neg at hc
      exact Or.inr ⟨ni, rfl, hc.1, hc.2.1, hc.2.2, rfl⟩

theorem islandNbr_hit (s : IslandState) (o : Option Nat) (k : Nat)
    (hbin : ∀ j, s.vis j = 0 ∨ s.vis j = 1)
    (ho : o = some k) (hm : m k = 3) (hd : dem k ≤ labTh) :
    (islandNbr m dem labTh s o).vis k = 1 := by
  subst ho
  rw [islandNbr_some]
  by_cases hc : s.vis k ≠ 0 ∨ m k ≠ 3 ∨ labTh < dem k
  · rw [if_pos hc]
    rcases hc with hv | hv | hv
    · rcases hbin k with h0 | h1
      · exact absurd h0 hv
      · exact h1
    · exact absurd hm hv
    · exact absurd hd (not_le.mpr hv)
  · rw [if_neg hc]
    dsimp only
    exact Function.update_same _ _ _

theorem islandNbr_vis_persist (s : IslandState) (o : Option Nat) (j : Nat)
    (hj : s.vis j = 1) : (islandNbr m dem labTh s o).vis j = 1 := by
  rcases islandNbr_vals m dem labTh s o with hv | ⟨ni, _, _, _, _, hv⟩
  · rw [hv]; exact hj
  · rw [hv]
    dsimp only
    rcases eq_or_ne j ni with rfl | hne
    · exact Function.update_same _ _ _
    · rw [Function.update_noteq hne]
      exact hj

theorem islNbrFold_vis_persist (ci : Nat) (ds : List Nat) (st : IslandState)
    (j : Nat) (hj : st.vis j = 1) :
    (islNbrFold w h m dem labTh ci ds st).vis j = 1 := by
  rw [islNbrFold]
  exact foldl_preserve (P := fun (s : IslandState) => s.vis j = 1)
    (fun s d hs _ => islandNbr_vis_persist m dem labTh s _ j hs) hj

theorem islNbrFold_rg (ci : Nat) (ds : List Nat) (st : IslandState) :
    (islNbrFold w h m dem labTh ci ds st).rg = st.rg := by
  rw [islNbrFold]
  refine foldl_preserve (P := fun (s : IslandState) => s.rg = st.rg)
    (fun s d hs _ => ?_) rfl
  rcases islandNbr_vals m dem labTh s (neighborIdx w h ci d) with hv | ⟨ni, _, _, _, _, hv⟩
  · rw [hv]; exact hs
  · rw [hv]; exact hs

theorem islNbrFold_vbin (ci : Nat) (ds : List Nat) (st : IslandState)
    (hbin : ∀ j, st.vis j = 0 ∨ st.vis j = 1) :
    ∀ j, (islNbrFold w h m dem labTh ci ds st).vis j = 0 ∨
      (islNbrFold w h m dem labTh ci ds st).vis j = 1 := by
  rw [islNbrFold]
  refine foldl_preserve
    (P := fun (s : IslandState) => ∀ j, s.vis j = 0 ∨ s.vis j = 1)
    (fun s d hs _ => ?_) hbin
  intro j
  rcases islandNbr_vals m dem labTh s (neighborIdx w h ci d) with hv | ⟨ni, _, _, _, _, hv⟩
  · rw [hv]; exact hs j
  · rw [hv]
    dsimp only
    rcases eq_or_ne j ni with rfl | hne
    · exact Or.inr (Function.update_same _ _ _)
    · rw [Function.update_noteq hne]
      exact hs j

theorem islNbrFold_hit (ci : Nat) (ds : List Nat) (st : IslandState)
    (hbin : ∀ j, st.vis j = 0 ∨ st.vis j = 1) :
    ∀ d ∈ ds, ∀ k, neighborIdx w h ci d = some k → m k = 3 → dem k ≤ labTh →
      (islNbrFold w h m dem labTh ci ds st).vis k = 1 := by
  induction ds generalizing st with
  | nil => exact fun d hd => absurd hd (List.not_mem_nil d)
  | cons d0 t ih =>
    intro d hd k hnk hm hdem
    rw [islNbrFold, List.foldl_cons, ← islNbrFold]
    rcases List.mem_cons.mp hd with rfl | hd
    · exact islNbrFold_vis_persist w h m dem labTh ci t _ k
        (islandNbr_hit m dem labTh st _ k hbin hnk hm hdem)
    · exact ih (islandNbr m dem labTh st (neighborIdx w h ci d0))
        (fun j => by
          rcases islandNbr_vals m dem labTh st (neighborIdx w h ci d0) with hv |
            ⟨ni, _, _, _, _, hv⟩
          · rw [hv]; exact hbin j
          · rw [hv]
            dsimp only
            rcases eq_or_ne j ni with rfl | hne
            · exact Or.inr (Function.update_same _ _ _)
            · rw [Function.update_noteq hne]; exact hbin j)
        d hd k hnk hm hdem

theorem islNbrFold_new_marks (ci : Nat) (ds : List Nat) (st : IslandState)
    (j : Nat) (hj : (islNbrFold w h m dem labTh ci ds st).vis j = 1) :
    st.vis j = 1 ∨
      (m j = 3 ∧ dem j ≤ labTh ∧ ∃ d ∈ ds, neighborIdx w h ci d = some j) := by
  induction ds generalizing st with
  | nil => exact Or.inl hj
  | cons d0 t ih =>
    rw [islNbrFold, List.foldl_cons, ← islNbrFold] at hj
    rcases ih (islandNbr m dem labTh st (neighborIdx w h ci d0)) hj with h1 | ⟨hm, hd, d, hdt, hnd⟩
    · rcases islandNbr_vals m dem labTh st (neighborIdx w h ci d0) with hv |
        ⟨ni, hsome, hvis0, hm3, hdem, hv⟩
      · rw [hv] at h1
        exact Or.inl h1
      · rw [hv] at h1
        dsimp only at h1
        rcases eq_or_ne j ni with rfl | hne
        · exact Or.inr ⟨hm3, hdem, d0, List.mem_cons_self _ _, hsome⟩
        · rw [Function.update_noteq hne] at h1
          exact Or.inl h1
    · exact Or.inr ⟨hm, hd, d, List.mem_cons_of_mem d0 hdt, hnd⟩

theorem islNbrFold_pending_mem (ci : Nat) (ds : List Nat) (st : IslandState) :
    ∀ j, j ∈ (islNbrFold w h m dem labTh ci ds st).pending ↔
      (j ∈ st.pending ∨
        (st.vis j = 0 ∧ (islNbrFold w h m dem labTh ci ds st).vis j = 1)) := by
  induction ds generalizing st with
  | nil =>
    intro j
    constructor
    · exact fun hp => Or.inl hp
    · rintro (hp | ⟨h0, h1⟩)
      · exact hp
      · have h1' : st.vis j = 1 := h1
        omega
  | cons d0 t ih =>
    intro j
    rw [islNbrFold, List.foldl_cons, ← islNbrFold]
    rcases islandNbr_vals m dem labTh st (neighborIdx w h ci d0) with hv |
      ⟨ni, hsome, hvis0, hm3, hdem, hv⟩
    · rw [hv]
      rw [ih st j]
    · rw [hv]
      rw [ih ⟨Function.update st.vis ni 1, st.pending ++ [ni], st.rg⟩ j]
      dsimp only
      constructor
      · rintro (hp | ⟨h0, h1⟩)
        · rcases List.mem_append.mp hp with hp | hp
          · exact Or.inl hp
          · rcases List.mem_singleton.mp hp with rfl
            refine Or.inr ⟨hvis0, ?_⟩
            exact islNbrFold_vis_persist w h m dem labTh ci t _ j
              (Function.update_same _ _ _)
        · rcases eq_or_ne j ni with rfl | hne
          · rw [Function.update_same] at h0
            omega
          · rw [Function.update_noteq hne] at h0
            exact Or.inr ⟨h0, h1⟩
      · rintro (hp | ⟨h0, h1⟩)
        · exact Or.inl (List.mem_append_left _ hp)
        · rcases eq_or_ne j ni with rfl | hne
          · exact Or.inl (List.mem_append_right _ (List.mem_singleton.mpr rfl))
          · refine Or.inr ⟨?_, h1⟩
            rw [Function.update_noteq hne]
            exact h0

/-- The set the component search explores: still-foreground,
background-coloured, unvisited pixels. -/
def islandSA (V0 : Nat → Nat) : Set Nat :=
  {j | m j = 3 ∧ dem j ≤ labTh ∧ V0 j = 0}

/-- Invariant of the phase-2 component-collection loop. -/
structure IslInv (V0 : Nat → Nat) (seed : Nat) (st : IslandState) : Prop where
  vbin : ∀ j, st.vis j = 0 ∨ st.vis j = 1
  vmono : ∀ j, V0 j = 1 → st.vis j = 1
  vchar : ∀ j, st.vis j = 1 ↔ (V0 j = 1 ∨ j ∈ st.rg ∨ j ∈ st.pending)
  nodup : (st.rg ++ st.pending).Nodup
  fresh : ∀ j, j ∈ st.rg ++ st.pending → V0 j = 0
  sound : ∀ j, (j ∈ st.rg ∨ j ∈ st.pending) →
    ConnIn (islandSA m dem labTh V0) w h seed j
  closed : ∀ j ∈ st.rg, ∀ d, d < 8 → ∀ k, neighborIdx w h j d = some k →
    m k = 3 → dem k ≤ labTh → st.vis k = 1

theorem islNbrFold_measure2 (ci : Nat) (ds : List Nat) (st : IslandState) :
    2 * czCount (w * h) (islNbrFold w h m dem labTh ci ds st).vis +
      (islNbrFold w h m dem labTh ci ds st).pending.length ≤
    2 * czCount (w * h) st.vis + st.pending.length := by
  rw [islNbrFold]
  refine foldl_preserve
    (P := fun (s : IslandState) =>
      2 * czCount (w * h) s.vis + s.pending.length ≤
      2 * czCount (w * h) st.vis + st.pending.length)
    (fun s d hs _ => ?_) (le_refl _)
  rcases islandNbr_vals m dem labTh s (neighborIdx w h ci d) with hv |
    ⟨ni, hsome, hvis0, _, _, hv⟩
  · rw [hv]
    exact hs
  · rw [hv]
    dsimp only
    have hlt : ni < w * h := neighborIdx_lt hsome
    have hcz : czCount (w * h) (Function.update s.vis ni 1) + 1 ≤
        czCount (w * h) s.vis :=
      czCount_update_lt hlt hvis0 (by omega)
    rw [List.length_append, List.length_singleton]
    omega

/-- The six plain components of the invariant survive one neighbour fold. -/
theorem islNbrFold_six (V0 : Nat → Nat) (seed ci : Nat) (ds : List Nat)
    (st : IslandState)
    (hV0 : ∀ j, V0 j = 0 ∨ V0 j = 1)
    (hciSA : ci ∈ islandSA m dem labTh V0)
    (hciConn : ConnIn (islandSA m dem labTh V0) w h seed ci)
    (hds : ∀ d ∈ ds, d < 8)
    (hbin : ∀ j, st.vis j = 0 ∨ st.vis j = 1)
    (hmono : ∀ j, V0 j = 1 → st.vis j = 1)
    (hmarked : ∀ j, j ∈ st.rg ++ st.pending → st.vis j = 1)
    (hnodup : (st.rg ++ st.pending).Nodup)
    (hfresh : ∀ j, j ∈ st.rg ++ st.pending → V0 j = 0)
    (hsound : ∀ j, (j ∈ st.rg ∨ j ∈ st.pending) →
      ConnIn (islandSA m dem labTh V0) w h seed j) :
    (∀ j, (islNbrFold w h m dem labTh ci ds st).vis j = 0 ∨
      (islNbrFold w h m dem labTh ci ds st).vis j = 1) ∧
    (∀ j, V0 j = 1 → (islNbrFold w h m dem labTh ci ds st).vis j = 1) ∧
    (∀ j, j ∈ (islNbrFold w h m dem labTh ci ds st).rg ++
        (islNbrFold w h m dem labTh ci ds st).pending →
      (islNbrFold w h m dem labTh ci ds st).vis j = 1) ∧
    ((islNbrFold w h m dem labTh ci ds st).rg ++
      (islNbrFold w h m dem labTh ci ds st).pending).Nodup ∧
    (∀ j, j ∈ (islNbrFold w h m dem labTh ci ds st).rg ++
        (islNbrFold w h m dem labTh ci ds st).pending → V0 j = 0) ∧
    (∀ j, (j ∈ (islNbrFold w h m dem labTh ci ds st).rg ∨
        j ∈ (islNbrFold w h m dem labTh ci ds st).pending) →
      ConnIn (islandSA m dem labTh V0) w h seed j) := by
  rw [islNbrFold]
  refine foldl_preserve
    (P := fun (s : IslandState) =>
      (∀ j, s.vis j = 0 ∨ s.vis j = 1) ∧
      (∀ j, V0 j = 1 → s.vis j = 1) ∧
      (∀ j, j ∈ s.rg ++ s.pending → s.vis j = 1) ∧
      ((s.rg ++ s.pending).Nodup) ∧
      (∀ j, j ∈ s.rg ++ s.pending → V0 j = 0) ∧
      (∀ j, (j ∈ s.rg ∨ j ∈ s.pending) →
        ConnIn (islandSA m dem labTh V0) w h seed j))
    (fun s d hs hd => ?_)
    ⟨hbin, hmono, hmarked, hnodup, hfresh, hsound⟩
  obtain ⟨sbin, smono, smarked, snodup, sfresh, ssound⟩ := hs
  rcases islandNbr_vals m dem labTh s (neighborIdx w h ci d) with hv |
    ⟨ni, hsome, hvis0, hm3, hdem, hv⟩
  · rw [hv]
    exact ⟨sbin, smono, smarked, snodup, sfresh, ssound⟩
  · rw [hv]
    dsimp only
    have hninotin : ni ∉ s.rg ++ s.pending := fun hmem => by
      have := smarked ni hmem
      omega
    have hniV0 : V0 ni = 0 := by
      rcases hV0 ni with h0 | h1
      · exact h0
      · have := smono ni h1
        omega
    have hniSA : ni ∈ islandSA m dem labTh V0 := ⟨hm3, hdem, hniV0⟩
    have hniConn : ConnIn (islandSA m dem labTh V0) w h seed ni := by
      obtain ⟨hseedSA, hciSA2, hpath⟩ := hciConn
      exact ⟨hseedSA, hniSA,
        Relation.ReflTransGen.tail hpath
          ⟨hciSA, hniSA, d, hds d hd, hsome⟩⟩
    refine ⟨?_, ?_, ?_, ?_, ?_, ?_⟩
    · intro j
      rcases eq_or_ne j ni with rfl | hne
      · exact Or.inr (Function.update_same _ _ _)
      · rw [Function.update_noteq hne]
        exact sbin j
    · intro j h1
      rcases eq_or_ne j ni with rfl | hne
      · exact Function.update_same _ _ _
      · rw [Function.update_noteq hne]
        exact smono j h1
    · intro j hmem
      rw [← List.append_assoc] at hmem
      rcases List.mem_append.mp hmem with hmem | hmem
      · rcases eq_or_ne j ni with rfl | hne
        · exact Function.update_same _ _ _
        · rw [Function.update_noteq hne]
          exact smarked j hmem
      · rcases List.mem_singleton.mp hmem with rfl
        exact Function.update_same _ _ _
    · rw [← List.append_assoc]
      rw [List.nodup_append]
      exact ⟨snodup, List.nodup_singleton ni,
        fun x hx => by
          intro hy
          rcases List.mem_singleton.mp hy with rfl
          exact hninotin hx⟩
    · intro j hmem
      rw [← List.append_assoc] at hmem
      rcases List.mem_append.mp hmem with hmem | hmem
      · exact sfresh j hmem
      · rcases List.mem_singleton.mp hmem with rfl
        exact hniV0
    · intro j hmem
      rcases hmem with hmem | hmem
      · exact ssound j (Or.inl hmem)
      · rcases List.mem_append.mp hmem with hmem | hmem
        · exact ssound j (Or.inr hmem)
        · rcases List.mem_singleton.mp hmem with rfl
          exact hniConn

theorem islandLoop_vis_persist :
    ∀ (fuel : Nat) (st : IslandState) (j : Nat), st.vis j = 1 →
      (islandLoop w h m dem labTh fuel st).vis j = 1 := by
  intro fuel
  induction fuel with
  | zero => exact fun st j hj => hj
  | succ fuel ih =>
    rintro ⟨vis, pending, rg⟩ j hj
    rcases hp : pending with _ | ⟨ci, rest⟩
    · subst hp
      exact hj
    · subst hp
      show (islandLoop w h m dem labTh fuel
        (islandExpand w h m dem labTh ⟨vis, rest, rg ++ [ci]⟩ ci)).vis j = 1
      refine ih _ j ?_
      rw [islandExpand_eq_fold]
      exact islNbrFold_vis_persist w h m dem labTh ci (List.range 8) _ j hj

/-- One dequeue-and-expand step preserves the invariant. -/
theorem islandStep_inv (V0 : Nat → Nat) (seed : Nat)
    (hV0 : ∀ j, V0 j = 0 ∨ V0 j = 1)
    (vis : Nat → Nat) (ci : Nat) (rest rg : List Nat)
    (hinv : IslInv w h m dem labTh V0 seed ⟨vis, ci :: rest, rg⟩) :
    IslInv w h m dem labTh V0 seed
      (islandExpand w h m dem labTh ⟨vis, rest, rg ++ [ci]⟩ ci) := by
  have hciConn : ConnIn (islandSA m dem labTh V0) w h seed ci :=
    hinv.sound ci (Or.inr (List.mem_cons_self _ _))
  have hciSA : ci ∈ islandSA m dem labTh V0 := hciConn.2.1
  have hassoc : (rg ++ [ci]) ++ rest = rg ++ ci :: rest := by
    rw [List.append_assoc]
    rfl
  have hbase_marked : ∀ j, j ∈ (rg ++ [ci]) ++ rest → vis j = 1 := by
    intro j hmem
    rw [hassoc] at hmem
    exact (hinv.vchar j).mpr (by
      rcases List.mem_append.mp hmem with hmem | hmem
      · exact Or.inr (Or.inl hmem)
      · exact Or.inr (Or.inr hmem))
  have hbase_nodup : ((rg ++ [ci]) ++ rest).Nodup := by
    rw [hassoc]
    exact hinv.nodup
  have hbase_fresh : ∀ j, j ∈ (rg ++ [ci]) ++ rest → V0 j = 0 := by
    intro j hmem
    rw [hassoc] at hmem
    exact hinv.fresh j hmem
  have hbase_sound : ∀ j, (j ∈ rg ++ [ci] ∨ j ∈ rest) →
      ConnIn (islandSA m dem labTh V0) w h seed j := by
    intro j hmem
    refine hinv.sound j ?_
    rcases hmem with hmem | hmem
    · rcases List.mem_append.mp hmem with hmem | hmem
      · exact Or.inl hmem
      · rcases List.mem_singleton.mp hmem with rfl
        exact Or.inr (List.mem_cons_self _ _)
    · exact Or.inr (List.mem_cons_of_mem _ hmem)
  rw [islandExpand_eq_fold]
  obtain ⟨fbin, fmono, fmarked, fnodup, ffresh, fsound⟩ :=
    islNbrFold_six w h m dem labTh V0 seed ci (List.range 8)
      ⟨vis, rest, rg ++ [ci]⟩ hV0 hciSA hciConn
      (fun d hd => List.mem_range.mp hd)
      hinv.vbin hinv.vmono hbase_marked hbase_nodup hbase_fresh hbase_sound
  have hrg : (islNbrFold w h m dem labTh ci (List.range 8)
      ⟨vis, rest, rg ++ [ci]⟩).rg = rg ++ [ci] :=
    islNbrFold_rg w h m dem labTh ci (List.range 8) _
  have hpmem := islNbrFold_pending_mem w h m dem labTh ci (List.range 8)
    ⟨vis, rest, rg ++ [ci]⟩
  refine ⟨fbin, fmono, ?_, fnodup, ffresh, fsound, ?_⟩
  · intro j
    constructor
    · intro h1
      rcases islNbrFold_new_marks w h m dem labTh ci (List.range 8) _ j h1 with
        hold | ⟨hm3, hdem, d, hd, hnd⟩
      · have hold' : vis j = 1 := hold
        rcases (hinv.vchar j).mp hold' with hc | hc | hc
        · exact Or.inl hc
        · rw [hrg]
          exact Or.inr (Or.inl (List.mem_append_left _ hc))
        · rcases List.mem_cons.mp hc with rfl | hc
          · rw [hrg]
            exact Or.inr (Or.inl (List.mem_append_right _
              (List.mem_singleton.mpr rfl)))
          · refine Or.inr (Or.inr ?_)
            rw [hpmem j]
            exact Or.inl hc
      · rcases hinv.vbin j with h0 | hone
        · refine Or.inr (Or.inr ?_)
          rw [hpmem j]
          exact Or.inr ⟨h0, h1⟩
        · rcases (hinv.vchar j).mp hone with hc | hc | hc
          · exact Or.inl hc
          · rw [hrg]
            exact Or.inr (Or.inl (List.mem_append_left _ hc))
          · rcases List.mem_cons.mp hc with rfl | hc
            · rw [hrg]
              exact Or.inr (Or.inl (List.mem_append_right _
                (List.mem_singleton.mpr rfl)))
            · refine Or.inr (Or.inr ?_)
              rw [hpmem j]
              exact Or.inl hc
    · intro hc
      rcases hc with hc | hc | hc
      · exact fmono j hc
      · exact fmarked j (List.mem_append_left _ hc)
      · exact fmarked j (List.mem_append_right _ hc)
  · intro j hj d hd k hnd hm3 hdem
    rw [hrg] at hj
    rcases List.mem_append.mp hj with hj | hj
    · exact islNbrFold_vis_persist w h m dem labTh ci (List.range 8) _ k
        (hinv.closed j hj d hd k hnd hm3 hdem)
    · rcases List.mem_singleton.mp hj with rfl
      exact islNbrFold_hit w h m dem labTh j (List.range 8)
        ⟨vis, rest, rg ++ [j]⟩ (fun p => hinv.vbin p) d
        (List.mem_range.mpr hd) k hnd hm3 hdem

/-- The component loop terminates within its fuel and preserves the
invariant. -/
theorem islandLoop_inv (V0 : Nat → Nat) (seed : Nat)
    (hV0 : ∀ j, V0 j = 0 ∨ V0 j = 1) :
    ∀ (fuel : Nat) (st : IslandState),
      IslInv w h m dem labTh V0 seed st →
      2 * czCount (w * h) st.vis + st.pending.length < fuel →
      (islandLoop w h m dem labTh fuel st).pending = [] ∧
      IslInv w h m dem labTh V0 seed (islandLoop w h m dem labTh fuel st) := by
  intro fuel
  induction fuel with
  | zero => exact fun st _ hfuel => absurd hfuel (by omega)
  | succ fuel ih =>
    rintro ⟨vis, pending, rg⟩ hinv hfuel
    rcases hp : pending with _ | ⟨ci, rest⟩
    · subst hp
      exact ⟨rfl, hinv⟩
    · subst hp
      show (islandLoop w h m dem labTh fuel
          (islandExpand w h m dem labTh ⟨vis, rest, rg ++ [ci]⟩ ci)).pending = [] ∧ _
      refine ih _ (islandStep_inv w h m dem labTh V0 seed hV0 vis ci rest rg hinv) ?_
      have hmeas : 2 * czCount (w * h)
            (islandExpand w h m dem labTh ⟨vis, rest, rg ++ [ci]⟩ ci).vis +
          (islandExpand w h m dem labTh ⟨vis, rest, rg ++ [ci]⟩ ci).pending.length ≤
          2 * czCount (w * h) vis + rest.length := by
        rw [islandExpand_eq_fold]
        exact islNbrFold_measure2 w h m dem labTh ci (List.range 8) _
      have hfuel' : 2 * czCount (w * h) vis + (rest.length + 1) < fuel + 1 := hfuel
      omega

/-- Full correctness of the component search from a fresh seed: it halts, rg
lists the connected component of the seed inside the explorable set exactly
once each, and visited grows by exactly that component. -/
theorem islandLoop_complete (V0 : Nat → Nat) (seed : Nat)
    (hV0 : ∀ j, V0 j = 0 ∨ V0 j = 1)
    (hseed : seed ∈ islandSA m dem labTh V0) :
    (islandLoop w h m dem labTh (2 * (w * h) + 2)
        ⟨Function.update V0 seed 1, [seed], []⟩).pending = [] ∧
    (islandLoop w h m dem labTh (2 * (w * h) + 2)
        ⟨Function.update V0 seed 1, [seed], []⟩).rg.Nodup ∧
    (∀ j, j ∈ (islandLoop w h m dem labTh (2 * (w * h) + 2)
        ⟨Function.update V0 seed 1, [seed], []⟩).rg ↔
      ConnIn (islandSA m dem labTh V0) w h seed j) ∧
    (∀ j, (islandLoop w h m dem labTh (2 * (w * h) + 2)
        ⟨Function.update V0 seed 1, [seed], []⟩).vis j = 1 ↔
      (V0 j = 1 ∨ j ∈ (islandLoop w h m dem labTh (2 * (w * h) + 2)
        ⟨Function.update V0 seed 1, [seed], []⟩).rg)) ∧
    (∀ j, (islandLoop w h m dem labTh (2 * (w * h) + 2)
        ⟨Function.update V0 seed 1, [seed], []⟩).vis j = 0 ∨
      (islandLoop w h m dem labTh (2 * (w * h) + 2)
        ⟨Function.update V0 seed 1, [seed], []⟩).vis j = 1) := by
  obtain ⟨hm3, hdem, hV0seed⟩ := hseed
  have hinit : IslInv w h m dem labTh V0 seed
      ⟨Function.update V0 seed 1, [seed], []⟩ := by
    refine ⟨?_, ?_, ?_, ?_, ?_, ?_, ?_⟩
    · intro j
      show Function.update V0 seed 1 j = 0 ∨ Function.update V0 seed 1 j = 1
      rcases eq_or_ne j seed with rfl | hne
      · exact Or.inr (Function.update_same _ _ _)
      · rw [Function.update_noteq hne]
        exact hV0 j
    · intro j h1
      show Function.update V0 seed 1 j = 1
      rcases eq_or_ne j seed with rfl | hne
      · exact Function.update_same _ _ _
      · rw [Function.update_noteq hne]
        exact h1
    · intro j
      show Function.update V0 seed 1 j = 1 ↔ _
      rcases eq_or_ne j seed with rfl | hne
      · rw [Function.update_same]
        simp
      · rw [Function.update_noteq hne]
        constructor
        · exact fun h1 => Or.inl h1
        · rintro (h1 | hmem | hmem)
          · exact h1
          · exact absurd hmem (List.not_mem_nil j)
          · rcases List.mem_singleton.mp hmem with rfl
            exact absurd rfl hne
    · exact List.nodup_singleton seed
    · intro j hmem
      rcases List.mem_singleton.mp (by simpa using hmem) with rfl
      exact hV0seed
    · intro j hmem
      rcases hmem with hmem | hmem
      · exact absurd hmem (List.not_mem_nil j)
      · rcases List.mem_singleton.mp hmem with rfl
        exact ⟨⟨hm3, hdem, hV0seed⟩, ⟨hm3, hdem, hV0seed⟩,
          Relation.ReflTransGen.refl⟩
    · intro j hj
      exact absurd hj (List.not_mem_nil j)
  have hfuel : 2 * czCount (w * h)
      (⟨Function.update V0 seed 1, [seed], []⟩ : IslandState).vis +
      (⟨Function.update V0 seed 1, [seed], []⟩ : IslandState).pending.length <
      2 * (w * h) + 2 := by
    have := czCount_le (w * h) (Function.update V0 seed 1)
    show 2 * czCount (w * h) (Function.update V0 seed 1) + 1 < 2 * (w * h) + 2
    omega
  obtain ⟨hpend, hfinv⟩ := islandLoop_inv w h m dem labTh V0 seed hV0
    (2 * (w * h) + 2) ⟨Function.update V0 seed 1, [seed], []⟩ hinit hfuel
  have hvis_seed : (islandLoop w h m dem labTh (2 * (w * h) + 2)
      ⟨Function.update V0 seed 1, [seed], []⟩).vis seed = 1 :=
    islandLoop_vis_persist w h m dem labTh (2 * (w * h) + 2) _ seed
      (Function.update_same _ _ _)
  have hseed_rg : seed ∈ (islandLoop w h m dem labTh (2 * (w * h) + 2)
      ⟨Function.update V0 seed 1, [seed], []⟩).rg := by
    rcases (hfinv.vchar seed).mp hvis_seed with hc | hc | hc
    · omega
    · exact hc
    · rw [hpend] at hc
      exact absurd hc (List.not_mem_nil seed)
  refine ⟨hpend, ?_, ?_, ?_, hfinv.vbin⟩
  · have := hfinv.nodup
    rw [hpend] at this
    simpa using this
  · intro j
    constructor
    · intro hj
      exact hfinv.sound j (Or.inl hj)
    · rintro ⟨hseedSA, hjSA, hpath⟩
      clear hvis_seed
      induction hpath with
      | refl => exact hseed_rg
      | tail hp hstep ih2 =>
        rename_i b c
        obtain ⟨hbSA, hcSA, d, hd8, hnd⟩ := hstep
        have hvisc := hfinv.closed b (ih2 hbSA) d hd8 c hnd hcSA.1 hcSA.2.1
        rcases (hfinv.vchar c).mp hvisc with hc | hc | hc
        · rw [hcSA.2.2] at hc
          omega
        · exact hc
        · rw [hpend] at hc
          exact absurd hc (List.not_mem_nil c)
  · intro j
    rw [hfinv.vchar j, hpend]
    constructor
    · rintro (hc | hc | hc)
      · exact Or.inl hc
      · exact Or.inr hc
      · exact absurd hc (List.not_mem_nil j)
    · rintro (hc | hc)
      · exact Or.inl hc
      · exact Or.inr (Or.inl hc)

end Phase2Deep

section Phase2Outer

variable (w h : Nat) (m : Nat → Nat) (dem : Nat → ℚ) (labTh transTh : ℚ)

theorem connIn_trans {S : Set Nat} {a b c : Nat}
    (h1 : ConnIn S w h a b) (h2 : ConnIn S w h b c) : ConnIn S w h a c :=
  ⟨h1.1, h2.2.1, h1.2.2.trans h2.2.2⟩

theorem connIn_symm {S : Set Nat} (hb : ∀ j ∈ S, j < w * h) {a b : Nat}
    (hc : ConnIn S w h a b) : ConnIn S w h b a :=
  ⟨hc.2.1, hc.1,
    (Relation.ReflTransGen.symmetric
      (fun x y hs => ⟨hs.2.1, hs.1, adj_symm (hb x hs.1) hs.2.2⟩)) hc.2.2⟩

theorem connIn_comp_eq {S : Set Nat} (hb : ∀ j ∈ S, j < w * h) {a b : Nat}
    (hab : ConnIn S w h a b) :
    {k | ConnIn S w h a k} = {k | ConnIn S w h b k} :=
  Set.ext fun k =>
    ⟨fun hak => connIn_trans w h (connIn_symm w h hb hab) hak,
     fun hbk => connIn_trans w h hab hbk⟩

theorem list_card_of_iff {l : List Nat} (hnd : l.Nodup) {S : Set Nat}
    (hiff : ∀ j, j ∈ l ↔ j ∈ S) : S.ncard = l.length := by
  have hset : S = (l.toFinset : Set Nat) := by
    refine Set.ext fun j => ?_
    rw [List.coe_toFinset]
    exact (hiff j).symm
  rw [hset, Set.ncard_coe_Finset, List.toFinset_card_of_nodup hnd]

theorem ones_mem {rg : List Nat} {g : Nat → Nat} {i : Nat} (hi : i ∈ rg) :
    (rg.foldl (fun g2 idx => Function.update g2 idx 1) g) i = 1 := by
  induction rg generalizing g with
  | nil => exact absurd hi (List.not_mem_nil i)
  | cons a t ih =>
    rw [List.foldl_cons]
    rcases List.mem_cons.mp hi with rfl | hi2
    · exact ones_keep_one (Function.update_same _ _ _)
    · exact ih hi2

theorem ones_not_mem {rg : List Nat} {g : Nat → Nat} {i : Nat} (hi : i ∉ rg) :
    (rg.foldl (fun g2 idx => Function.update g2 idx 1) g) i = g i := by
  refine foldl_preserve (P := fun (g2 : Nat → Nat) => g2 i = g i)
    (fun g2 idx hg hmem => ?_) rfl
  have hg' : g2 i = g i := hg
  have hne : i ≠ idx := fun hc => hi (hc ▸ hmem)
  show Function.update g2 idx 1 i = g i
  rw [Function.update_noteq hne]
  exact hg'

/-- The stepper of haloAt for one direction. -/
def haloStep (idx : Nat) (g : Nat → Nat) (d : Nat) : Nat → Nat :=
  match neighborIdx w h idx d with
  | none => g
  | some ni => if g ni = 3 ∧ dem ni ≤ transTh then Function.update g ni 2 else g

theorem haloAt_eq_haloStep (g : Nat → Nat) (idx : Nat) :
    haloAt w h dem transTh g idx =
      (List.range 8).foldl (haloStep w h dem transTh idx) g := rfl

theorem haloStep_val (idx : Nat) (g : Nat → Nat) (d j : Nat) :
    (haloStep w h dem transTh idx g d) j = g j ∨
    ((haloStep w h dem transTh idx g d) j = 2 ∧ g j = 3 ∧ dem j ≤ transTh ∧
      neighborIdx w h idx d = some j) := by
  rw [haloStep]
  rcases hn : neighborIdx w h idx d with _ | ni
  · exact Or.inl rfl
  · dsimp only
    by_cases hcond : g ni = 3 ∧ dem ni ≤ transTh
    · rw [if_pos hcond]
      rcases eq_or_ne j ni with rfl | hne
      · exact Or.inr ⟨Function.update_same _ _ _, hcond.1, hcond.2, rfl⟩
      · rw [Function.update_noteq hne]
        exact Or.inl rfl
    · rw [if_neg hcond]
      exact Or.inl rfl

theorem haloStep_hit (idx : Nat) (g : Nat → Nat) (d j : Nat)
    (h3 : g j = 3) (hdem : dem j ≤ transTh)
    (hn : neighborIdx w h idx d = some j) :
    (haloStep w h dem transTh idx g d) j = 2 := by
  rw [haloStep, hn]
  dsimp only
  rw [if_pos ⟨h3, hdem⟩]
  exact Function.update_same _ _ _

theorem haloStep_keep2 (idx : Nat) (g : Nat → Nat) (d j : Nat)
    (h2 : g j = 2) : (haloStep w h dem transTh idx g d) j = 2 := by
  rcases haloStep_val w h dem transTh idx g d j with hv | ⟨hv, _⟩
  · rw [hv]; exact h2
  · exact hv

theorem haloFold_keep2 (idx : Nat) (ds : List Nat) (g : Nat → Nat) (j : Nat)
    (h2 : g j = 2) :
    (ds.foldl (haloStep w h dem labTh idx) g) j = 2 := by
  refine foldl_preserve (P := fun (g2 : Nat → Nat) => g2 j = 2)
    (fun g2 d hg _ => haloStep_keep2 w h dem labTh idx g2 d j hg) h2

theorem haloFold_two_iff (idx : Nat) (ds : List Nat) :
    ∀ (g : Nat → Nat) (j : Nat),
      (ds.foldl (haloStep w h dem transTh idx) g) j = 2 ↔
        (g j = 2 ∨ (g j = 3 ∧ dem j ≤ transTh ∧
          ∃ d ∈ ds, neighborIdx w h idx d = some j)) := by
  induction ds with
  | nil =>
    intro g j
    constructor
    · exact fun h2 => Or.inl h2
    · rintro (h2 | ⟨_, _, d, hd, _⟩)
      · exact h2
      · exact absurd hd (List.not_mem_nil d)
  | cons d0 t ih =>
    intro g j
    rw [List.foldl_cons, ih]
    rcases haloStep_val w h dem transTh idx g d0 j with hv | ⟨hv, h3, hdem, hn⟩
    · rw [hv]
      constructor
      · rintro (h2 | ⟨h3, hdem, d, hd, hn⟩)
        · exact Or.inl h2
        · exact Or.inr ⟨h3, hdem, d, List.mem_cons_of_mem d0 hd, hn⟩
      · rintro (h2 | ⟨h3, hdem, d, hd, hn⟩)
        · exact Or.inl h2
        · rcases List.mem_cons.mp hd with rfl | hd
          · have := haloStep_hit w h dem transTh idx g d j h3 hdem hn
            rw [hv] at this
            omega
          · exact Or.inr ⟨h3, hdem, d, hd, hn⟩
    · constructor
      · intro _
        exact Or.inr ⟨h3, hdem, d0, List.mem_cons_self d0 t, hn⟩
      · intro _
        exact Or.inl hv

theorem haloAt_two_iff (idx : Nat) (g : Nat → Nat) (j : Nat) :
    haloAt w h dem transTh g idx j = 2 ↔
      (g j = 2 ∨ (g j = 3 ∧ dem j ≤ transTh ∧ Adj w h idx j)) := by
  rw [haloAt_eq_haloStep, haloFold_two_iff]
  constructor
  · rintro (h2 | ⟨h3, hdem, d, hd, hn⟩)
    · exact Or.inl h2
    · exact Or.inr ⟨h3, hdem, d, List.mem_range.mp hd, hn⟩
  · rintro (h2 | ⟨h3, hdem, d, hd, hn⟩)
    · exact Or.inl h2
    · exact Or.inr ⟨h3, hdem, d, List.mem_range.mpr hd, hn⟩

theorem haloAt_dichot (idx : Nat) (g : Nat → Nat) (j : Nat) :
    haloAt w h dem transTh g idx j = g j ∨ haloAt w h dem transTh g idx j = 2 := by
  rw [haloAt_eq_haloStep]
  refine foldl_preserve (P := fun (g2 : Nat → Nat) => g2 j = g j ∨ g2 j = 2)
    (fun g2 d hg _ => ?_) (Or.inl rfl)
  rcases haloStep_val w h dem transTh idx g2 d j with hv | ⟨hv, _⟩
  · rw [hv]; exact hg
  · exact Or.inr hv

theorem halosRg_dichot (rg : List Nat) (g : Nat → Nat) (j : Nat) :
    (rg.foldl (haloAt w h dem transTh) g) j = g j ∨
    (rg.foldl (haloAt w h dem transTh) g) j = 2 := by
  refine foldl_preserve (P := fun (g2 : Nat → Nat) => g2 j = g j ∨ g2 j = 2)
    (fun g2 idx hg _ => ?_) (Or.inl rfl)
  rcases haloAt_dichot w h dem transTh idx g2 j with hv | hv
  · rw [hv]; exact hg
  · exact Or.inr hv

theorem halosRg_keep2 (rg : List Nat) (g : Nat → Nat) (j : Nat) (h2 : g j = 2) :
    (rg.foldl (haloAt w h dem transTh) g) j = 2 := by
  refine foldl_preserve (P := fun (g2 : Nat → Nat) => g2 j = 2)
    (fun g2 idx hg _ => ?_) h2
  exact (haloAt_two_iff w h dem transTh idx g2 j).mpr (Or.inl hg)

theorem halosRg_two_iff (rg : List Nat) :
    ∀ (g : Nat → Nat) (j : Nat),
      (rg.foldl (haloAt w h dem transTh) g) j = 2 ↔
        (g j = 2 ∨ (g j = 3 ∧ dem j ≤ transTh ∧ ∃ idx ∈ rg, Adj w h idx j)) := by
  induction rg with
  | nil =>
    intro g j
    constructor
    · exact fun h2 => Or.inl h2
    · rintro (h2 | ⟨_, _, idx, hmem, _⟩)
      · exact h2
      · exact absurd hmem (List.not_mem_nil idx)
  | cons a t ih =>
    intro g j
    rw [List.foldl_cons, ih]
    rcases haloAt_dichot w h dem transTh a g j with hv | hv
    · rw [hv]
      constructor
      · rintro (h2 | ⟨h3, hdem, idx, hmem, hadj⟩)
        · exact Or.inl h2
        · exact Or.inr ⟨h3, hdem, idx, List.mem_cons_of_mem a hmem, hadj⟩
      · rintro (h2 | ⟨h3, hdem, idx, hmem, hadj⟩)
        · exact Or.inl h2
        · rcases List.mem_cons.mp hmem with rfl | hmem
          · have := (haloAt_two_iff w h dem transTh idx g j).mpr
              (Or.inr ⟨h3, hdem, hadj⟩)
            rw [hv] at this
            omega
          · exact Or.inr ⟨h3, hdem, idx, hmem, hadj⟩
    · have hsrc := (haloAt_two_iff w h dem transTh a g j).mp hv
      constructor
      · intro _
        rcases hsrc with h2 | ⟨h3, hdem, hadj⟩
        · exact Or.inl h2
        · exact Or.inr ⟨h3, hdem, a, List.mem_cons_self a t, hadj⟩
      · intro _
        exact Or.inl hv

/-- The island-candidate set of the phase-2 input mask: in-range pixels that
are still foreground and background-coloured. -/
def islandT : Set Nat := {j | j < w * h ∧ m j = 3 ∧ dem j ≤ labTh}

/-- The 8-connected component of a pixel inside the island-candidate set. -/
def islandComp (j : Nat) : Set Nat :=
  {k | ConnIn (islandT w h m dem labTh) w h j k}

theorem islandT_bound : ∀ j ∈ islandT w h m dem labTh, j < w * h :=
  fun _ hj => hj.1

/-- Invariant of the outer phase-2 scan after processing the prefix L of
pixel indices. -/
structure P2I (misz : Nat) (L : List Nat) (st : Phase2State) : Prop where
  vbin : ∀ j, st.vis j = 0 ∨ st.vis j = 1
  pv : ∀ j, st.vis j = 1 ↔ ∃ x ∈ L, x ∈ islandT w h m dem labTh ∧
    ConnIn (islandT w h m dem labTh) w h x j
  pm1 : ∀ j, st.mask j = 1 ↔ (m j = 1 ∨ ∃ x ∈ L, x ∈ islandT w h m dem labTh ∧
    ConnIn (islandT w h m dem labTh) w h x j ∧
    misz ≤ (islandComp w h m dem labTh j).ncard)
  pm2 : ∀ j, st.mask j = 2 ↔ (m j = 2 ∨ (m j = 3 ∧ labTh < dem j ∧ dem j ≤ transTh ∧
    ∃ x ∈ L, ∃ k, x ∈ islandT w h m dem labTh ∧
      ConnIn (islandT w h m dem labTh) w h x k ∧
      misz ≤ (islandComp w h m dem labTh k).ncard ∧ Adj w h k j))
  pm0 : ∀ j, st.mask j = m j ∨ st.mask j = 1 ∨ st.mask j = 2

theorem p2i_mask3 {misz : Nat} {L : List Nat} {st : Phase2State}
    (hinv : P2I w h m dem labTh transTh misz L st) (j : Nat)
    (h3 : st.mask j = 3) : m j = 3 := by
  rcases hinv.pm0 j with hc | hc | hc
  · rw [← hc]; exact h3
  · omega
  · omega

/-- Inside a pending visit the explorable set of the component search agrees
with the island-candidate set on the component of the seed. -/
theorem sa_eq_t {misz : Nat} {L : List Nat} {st : Phase2State} {n : Nat}
    (hinv : P2I w h m dem labTh transTh misz L st)
    (hn : n < w * h) (hmask : st.mask n = 3) (hvis : st.vis n = 0)
    (hdem : dem n ≤ labTh) :
    ∀ j, ConnIn (islandSA st.mask dem labTh st.vis) w h n j ↔
      ConnIn (islandT w h m dem labTh) w h n j := by
  have hmn : m n = 3 := p2i_mask3 w h m dem labTh transTh hinv n hmask
  have hnT : n ∈ islandT w h m dem labTh := ⟨hn, hmn, hdem⟩
  have hnSA : n ∈ islandSA st.mask dem labTh st.vis := ⟨hmask, hdem, hvis⟩
  intro j
  constructor
  · rintro ⟨_, hjSA, hpath⟩
    clear hjSA
    have hsuff : j ∈ islandT w h m dem labTh ∧
        Relation.ReflTransGen (StepIn (islandT w h m dem labTh) w h) n j := by
      induction hpath with
      | refl => exact ⟨hnT, Relation.ReflTransGen.refl⟩
      | tail hp hstep ih =>
        rename_i b c
        obtain ⟨hbSA, hcSA, hadj⟩ := hstep
        obtain ⟨hbT, hpT⟩ := ih
        have hcT : c ∈ islandT w h m dem labTh :=
          ⟨adj_lt hadj, p2i_mask3 w h m dem labTh transTh hinv c hcSA.1, hcSA.2.1⟩
        exact ⟨hcT, hpT.tail ⟨hbT, hcT, hadj⟩⟩
    exact ⟨hnT, hsuff.1, hsuff.2⟩
  · rintro ⟨_, hjT, hpath⟩
    clear hjT
    have hsuff : j ∈ islandSA st.mask dem labTh st.vis ∧
        Relation.ReflTransGen (StepIn (islandSA st.mask dem labTh st.vis) w h) n j := by
      induction hpath with
      | refl => exact ⟨hnSA, Relation.ReflTransGen.refl⟩
      | tail hp hstep ih =>
        rename_i b c
        obtain ⟨hbSA, hpSA⟩ := ih
        obtain ⟨hbT, hcT, hadj⟩ := hstep
        have hconn_nc : ConnIn (islandT w h m dem labTh) w h n c :=
          ⟨hnT, hcT, hp.tail ⟨hbT, hcT, hadj⟩⟩
        have hvisc : st.vis c = 0 := by
          rcases hinv.vbin c with h0 | h1
          · exact h0
          · exfalso
            obtain ⟨x, hxL, hxT, hxc⟩ := (hinv.pv c).mp h1
            have hxn : ConnIn (islandT w h m dem labTh) w h x n :=
              connIn_trans w h hxc
                (connIn_symm w h (islandT_bound w h m dem labTh) hconn_nc)
            have := (hinv.pv n).mpr ⟨x, hxL, hxT, hxn⟩
            omega
        have hmaskc : st.mask c = 3 := by
          rcases hinv.pm0 c with hc | hc | hc
          · rw [hc]
            exact hcT.2.1
          · exfalso
            rcases (hinv.pm1 c).mp hc with hm1 | ⟨x, hxL, hxT, hxc, _⟩
            · have := hcT.2.1
              omega
            · have := (hinv.pv c).mpr ⟨x, hxL, hxT, hxc⟩
              omega
          · exfalso
            rcases (hinv.pm2 c).mp hc with hm2 | ⟨_, hlab, _⟩
            · have := hcT.2.1
              omega
            · have := hcT.2.2
              linarith
        have hcSA : c ∈ islandSA st.mask dem labTh st.vis :=
          ⟨hmaskc, hcT.2.2, hvisc⟩
        exact ⟨hcSA, hpSA.tail ⟨hbSA, hcSA, hadj⟩⟩
    exact ⟨hnSA, hsuff.1, hsuff.2⟩

/-- One outer-scan visit preserves the phase-2 invariant. -/
theorem p2_visit_inv (misz : Nat) (L : List Nat) (st : Phase2State) (n : Nat)
    (hn : n < w * h) (hinv : P2I w h m dem labTh transTh misz L st) :
    P2I w h m dem labTh transTh misz (L ++ [n])
      (islandVisit w h dem labTh transTh misz st n) := by
  by_cases hguard : st.mask n ≠ 3 ∨ st.vis n ≠ 0 ∨ labTh < dem n
  · rw [islandVisit_eq, if_pos hguard]
    have hcov : n ∈ islandT w h m dem labTh →
        ∃ x0 ∈ L, x0 ∈ islandT w h m dem labTh ∧
          ConnIn (islandT w h m dem labTh) w h x0 n := by
      intro hnT
      rcases hguard with hmaskne | hvisne | hlab
      · rcases hinv.pm0 n with hc | hc | hc
        · exact absurd (hc.trans hnT.2.1) hmaskne
        · rcases (hinv.pm1 n).mp hc with hm1 | ⟨x, hxL, hxT, hxn, _⟩
          · have := hnT.2.1
            omega
          · exact ⟨x, hxL, hxT, hxn⟩
        · rcases (hinv.pm2 n).mp hc with hm2 | ⟨_, hlab2, _⟩
          · have := hnT.2.1
            omega
          · exfalso
            have := hnT.2.2
            linarith
      · rcases hinv.vbin n with h0 | h1
        · exact absurd h0 hvisne
        · exact (hinv.pv n).mp h1
      · exfalso
        have := hnT.2.2
        linarith
    have hrep : ∀ j, n ∈ islandT w h m dem labTh →
        ConnIn (islandT w h m dem labTh) w h n j →
        ∃ x0 ∈ L, x0 ∈ islandT w h m dem labTh ∧
          ConnIn (islandT w h m dem labTh) w h x0 j := by
      intro j hnT hnj
      obtain ⟨x0, hx0L, hx0T, hx0n⟩ := hcov hnT
      exact ⟨x0, hx0L, hx0T, connIn_trans w h hx0n hnj⟩
    refine ⟨hinv.vbin, ?_, ?_, ?_, hinv.pm0⟩
    · intro j
      rw [hinv.pv j]
      constructor
      · rintro ⟨x, hxL, hxT, hxj⟩
        exact ⟨x, List.mem_append_left _ hxL, hxT, hxj⟩
      · rintro ⟨x, hxapp, hxT, hxj⟩
        rcases List.mem_append.mp hxapp with hxL | hxn
        · exact ⟨x, hxL, hxT, hxj⟩
        · rcases List.mem_singleton.mp hxn with rfl
          exact hrep j hxT hxj
    · intro j
      rw [hinv.pm1 j]
      constructor
      · rintro (hm1 | ⟨x, hxL, hxT, hxj, hbig⟩)
        · exact Or.inl hm1
        · exact Or.inr ⟨x, List.mem_append_left _ hxL, hxT, hxj, hbig⟩
      · rintro (hm1 | ⟨x, hxapp, hxT, hxj, hbig⟩)
        · exact Or.inl hm1
        · rcases List.mem_append.mp hxapp with hxL | hxn
          · exact Or.inr ⟨x, hxL, hxT, hxj, hbig⟩
          · rcases List.mem_singleton.mp hxn with rfl
            obtain ⟨x0, hx0L, hx0T, hx0j⟩ := hrep j hxT hxj
            exact Or.inr ⟨x0, hx0L, hx0T, hx0j, hbig⟩
    · intro j
      rw [hinv.pm2 j]
      constructor
      · rintro (hm2 | ⟨hm3, hlab, htr, x, hxL, k, hxT, hxk, hbig, hadj⟩)
        · exact Or.inl hm2
        · exact Or.inr ⟨hm3, hlab, htr, x, List.mem_append_left _ hxL, k,
            hxT, hxk, hbig, hadj⟩
      · rintro (hm2 | ⟨hm3, hlab, htr, x, hxapp, k, hxT, hxk, hbig, hadj⟩)
        · exact Or.inl hm2
        · rcases List.mem_append.mp hxapp with hxL | hxn
          · exact Or.inr ⟨hm3, hlab, htr, x, hxL, k, hxT, hxk, hbig, hadj⟩
          · rcases List.mem_singleton.mp hxn with rfl
            obtain ⟨x0, hx0L, hx0T, hx0k⟩ := hrep k hxT hxk
            exact Or.inr ⟨hm3, hlab, htr, x0, hx0L, k, hx0T, hx0k, hbig, hadj⟩
  · push_neg at hguard
    obtain ⟨hmask3, hvis0, hdemle⟩ := hguard
    have hmn : m n = 3 := p2i_mask3 w h m dem labTh transTh hinv n hmask3
    have hnT : n ∈ islandT w h m dem labTh := ⟨hn, hmn, hdemle⟩
    obtain ⟨hpend, hnodup, hrgiff, hvisiff, hvbinF⟩ :=
      islandLoop_complete w h st.mask dem labTh st.vis n hinv.vbin
        ⟨hmask3, hdemle, hvis0⟩
    have hsa := sa_eq_t w h m dem labTh transTh hinv hn hmask3 hvis0 hdemle
    set inner := islandLoop w h st.mask dem labTh (2 * (w * h) + 2)
      ⟨Function.update st.vis n 1, [n], []⟩ with hinner
    have hrgT : ∀ j, j ∈ inner.rg ↔
        ConnIn (islandT w h m dem labTh) w h n j :=
      fun j => (hrgiff j).trans (hsa j)
    have hcard : (islandComp w h m dem labTh n).ncard = inner.rg.length := by
      refine list_card_of_iff hnodup (fun j => ?_)
      exact hrgT j
    have hcompj : ∀ j, ConnIn (islandT w h m dem labTh) w h n j →
        (islandComp w h m dem labTh j).ncard = inner.rg.length := by
      intro j hnj
      rw [islandComp, ← connIn_comp_eq w h (islandT_bound w h m dem labTh) hnj]
      exact hcard
    have hrgsub : ∀ j ∈ inner.rg, j ∈ islandT w h m dem labTh :=
      fun j hj => ((hrgT j).mp hj).2.1
    have hpv : ∀ j, inner.vis j = 1 ↔
        ∃ x ∈ L ++ [n], x ∈ islandT w h m dem labTh ∧
          ConnIn (islandT w h m dem labTh) w h x j := by
      intro j
      rw [hvisiff j, hinv.pv j, hrgT j]
      constructor
      · rintro (⟨x, hxL, hxT, hxj⟩ | hconn)
        · exact ⟨x, List.mem_append_left _ hxL, hxT, hxj⟩
        · exact ⟨n, List.mem_append_right _ (List.mem_singleton.mpr rfl),
            hnT, hconn⟩
      · rintro ⟨x, hxapp, hxT, hxj⟩
        rcases List.mem_append.mp hxapp with hxL | hxn
        · exact Or.inl ⟨x, hxL, hxT, hxj⟩
        · rcases List.mem_singleton.mp hxn with rfl
          exact Or.inr hxj
    rw [islandVisit_eq, if_neg (by push_neg; exact ⟨hmask3, hvis0, hdemle⟩)]
    rw [← hinner]
    by_cases hbig : misz ≤ inner.rg.length
    · rw [if_pos hbig]
      refine ⟨hvbinF, hpv, ?_, ?_, ?_⟩
      · intro j
        show (inner.rg.foldl (haloAt w h dem transTh)
          (inner.rg.foldl (fun g idx => Function.update g idx 1) st.mask)) j = 1 ↔ _
        constructor
        · intro h1
          have hones : (inner.rg.foldl (fun g idx => Function.update g idx 1)
              st.mask) j = 1 := halos_one_of h1
          rcases ones_one_of hones with hm1 | hmem
          · rcases (hinv.pm1 j).mp hm1 with hm1' | ⟨x, hxL, hxT, hxj, hbigj⟩
            · exact Or.inl hm1'
            · exact Or.inr ⟨x, List.mem_append_left _ hxL, hxT, hxj, hbigj⟩
          · have hconn := (hrgT j).mp hmem
            refine Or.inr ⟨n, List.mem_append_right _ (List.mem_singleton.mpr rfl),
              hnT, hconn, ?_⟩
            rw [hcompj j hconn]
            exact hbig
        · rintro (hm1 | ⟨x, hxapp, hxT, hxj, hbigj⟩)
          · exact halos_keep_one (ones_keep_one ((hinv.pm1 j).mpr (Or.inl hm1)))
          · rcases List.mem_append.mp hxapp with hxL | hxn
            · exact halos_keep_one (ones_keep_one
                ((hinv.pm1 j).mpr (Or.inr ⟨x, hxL, hxT, hxj, hbigj⟩)))
            · rcases List.mem_singleton.mp hxn with rfl
              exact halos_keep_one (ones_mem ((hrgT j).mpr hxj))
      · intro j
        show (inner.rg.foldl (haloAt w h dem transTh)
          (inner.rg.foldl (fun g idx => Function.update g idx 1) st.mask)) j = 2 ↔ _
        rw [halosRg_two_iff w h dem transTh]
        constructor
        · rintro (h2 | ⟨h3, htr, idx, hidx, hadj⟩)
          · have hst2 : st.mask j = 2 := ones_two_of h2
            rcases (hinv.pm2 j).mp hst2 with hm2 | ⟨hm3, hlab, htr2, x, hxL, k,
              hxT, hxk, hbigk, hadj2⟩
            · exact Or.inl hm2
            · exact Or.inr ⟨hm3, hlab, htr2, x, List.mem_append_left _ hxL, k,
                hxT, hxk, hbigk, hadj2⟩
          · have hjnotrg : j ∉ inner.rg := by
              intro hc
              rw [ones_mem hc] at h3
              omega
            have hst3 : st.mask j = 3 := by
              rw [ones_not_mem hjnotrg] at h3
              exact h3
            have hmj3 : m j = 3 := p2i_mask3 w h m dem labTh transTh hinv j hst3
            have hjlt : j < w * h := adj_lt hadj
            have hlab : labTh < dem j := by
              by_contra hc
              push_neg at hc
              have hjT : j ∈ islandT w h m dem labTh := ⟨hjlt, hmj3, hc⟩
              have hconn_nj : ConnIn (islandT w h m dem labTh) w h n j := by
                refine connIn_trans w h ((hrgT idx).mp hidx)
                  ⟨(hrgsub idx hidx), hjT, Relation.ReflTransGen.single
                    ⟨(hrgsub idx hidx), hjT, hadj⟩⟩
              exact hjnotrg ((hrgT j).mpr hconn_nj)
            exact Or.inr ⟨hmj3, hlab, htr, n,
              List.mem_append_right _ (List.mem_singleton.mpr rfl), idx, hnT,
              (hrgT idx).mp hidx, by rw [hcompj idx ((hrgT idx).mp hidx)]; exact hbig,
              hadj⟩
        · rintro (hm2 | ⟨hm3, hlab, htr, x, hxapp, k, hxT, hxk, hbigk, hadj⟩)
          · refine Or.inl (?_ : (inner.rg.foldl (fun g idx => Function.update g idx 1)
              st.mask) j = 2)
            have hst2 : st.mask j = 2 := (hinv.pm2 j).mpr (Or.inl hm2)
            have hjnotrg : j ∉ inner.rg := by
              intro hc
              have := (hrgsub j hc).2.1
              have := (hinv.pm0 j)
              omega
            rw [ones_not_mem hjnotrg]
            exact hst2
          · rcases List.mem_append.mp hxapp with hxL | hxn
            · have hst2 : st.mask j = 2 := (hinv.pm2 j).mpr
                (Or.inr ⟨hm3, hlab, htr, x, hxL, k, hxT, hxk, hbigk, hadj⟩)
              have hjnotrg : j ∉ inner.rg := by
                intro hc
                have h3 := (hrgsub j hc).2.1
                have hq := (hrgT j).mp hc
                have : dem j ≤ labTh := hq.2.1.2.2
                linarith
              refine Or.inl ?_
              rw [ones_not_mem hjnotrg]
              exact hst2
            · rcases List.mem_singleton.mp hxn with rfl
              have hkrg : k ∈ inner.rg := (hrgT k).mpr hxk
              have hjnotT : j ∉ islandT w h m dem labTh := by
                rintro ⟨_, _, hc⟩
                linarith
              have hjnotrg : j ∉ inner.rg := fun hc => hjnotT (hrgsub j hc)
              rcases hinv.pm0 j with hc | hc | hc
              · refine Or.inr ⟨?_, htr, k, hkrg, hadj⟩
                rw [ones_not_mem hjnotrg, hc]
                exact hm3
              · exfalso
                rcases (hinv.pm1 j).mp hc with hm1 | ⟨x2, _, _, hx2j, _⟩
                · omega
                · exact hjnotT hx2j.2.1
              · refine Or.inl ?_
                rw [ones_not_mem hjnotrg]
                exact hc
      · intro j
        show ((inner.rg.foldl (haloAt w h dem transTh)
            (inner.rg.foldl (fun g idx => Function.update g idx 1) st.mask)) j = m j ∨
          (inner.rg.foldl (haloAt w h dem transTh)
            (inner.rg.foldl (fun g idx => Function.update g idx 1) st.mask)) j = 1 ∨
          (inner.rg.foldl (haloAt w h dem transTh)
            (inner.rg.foldl (fun g idx => Function.update g idx 1) st.mask)) j = 2)
        rcases halosRg_dichot w h dem transTh inner.rg
          (inner.rg.foldl (fun g idx => Function.update g idx 1) st.mask) j with
          hv | hv
        · rw [hv]
          rcases ones_val inner.rg st.mask j with hov | ⟨hov, _⟩
          · rw [hov]
            exact hinv.pm0 j
          · rw [hov]
            exact Or.inr (Or.inl rfl)
        · rw [hv]
          exact Or.inr (Or.inr rfl)
    · rw [if_neg hbig]
      refine ⟨hvbinF, hpv, ?_, ?_, hinv.pm0⟩
      · intro j
        show st.mask j = 1 ↔ _
        rw [hinv.pm1 j]
        constructor
        · rintro (hm1 | ⟨x, hxL, hxT, hxj, hbigj⟩)
          · exact Or.inl hm1
          · exact Or.inr ⟨x, List.mem_append_left _ hxL, hxT, hxj, hbigj⟩
        · rintro (hm1 | ⟨x, hxapp, hxT, hxj, hbigj⟩)
          · exact Or.inl hm1
          · rcases List.mem_append.mp hxapp with hxL | hxn
            · exact Or.inr ⟨x, hxL, hxT, hxj, hbigj⟩
            · rcases List.mem_singleton.mp hxn with rfl
              exfalso
              rw [hcompj j hxj] at hbigj
              omega
      · intro j
        show st.mask j = 2 ↔ _
        rw [hinv.pm2 j]
        constructor
        · rintro (hm2 | ⟨hm3, hlab, htr, x, hxL, k, hxT, hxk, hbigk, hadj⟩)
          · exact Or.inl hm2
          · exact Or.inr ⟨hm3, hlab, htr, x, List.mem_append_left _ hxL, k,
              hxT, hxk, hbigk, hadj⟩
        · rintro (hm2 | ⟨hm3, hlab, htr, x, hxapp, k, hxT, hxk, hbigk, hadj⟩)
          · exact Or.inl hm2
          · rcases List.mem_append.mp hxapp with hxL | hxn
            · exact Or.inr ⟨hm3, hlab, htr, x, hxL, k, hxT, hxk, hbigk, hadj⟩
            · rcases List.mem_singleton.mp hxn with rfl
              exfalso
              rw [hcompj k hxk] at hbigk
              omega

theorem p2_fold_inv (misz : Nat) :
    ∀ (l : List Nat) (L : List Nat) (st : Phase2State),
      (∀ x ∈ l, x < w * h) →
      P2I w h m dem labTh transTh misz L st →
      P2I w h m dem labTh transTh misz (L ++ l)
        (l.foldl (islandVisit w h dem labTh transTh misz) st) := by
  intro l
  induction l with
  | nil =>
    intro L st _ hinv
    rw [List.append_nil]
    exact hinv
  | cons n t ih =>
    intro L st hb hinv
    rw [List.foldl_cons]
    have hstep := p2_visit_inv w h m dem labTh transTh misz L st n
      (hb n (List.mem_cons_self _ _)) hinv
    have hrec := ih (L ++ [n]) _ (fun x hx => hb x (List.mem_cons_of_mem _ hx)) hstep
    rw [List.append_assoc] at hrec
    exact hrec

/-- The phase-2 invariant at the end of the whole scan. -/
theorem p2_final (misz : Nat) :
    P2I w h m dem labTh transTh misz (List.range (w * h))
      ((List.range (w * h)).foldl (islandVisit w h dem labTh transTh misz)
        ⟨m, fun _ => 0⟩) := by
  have hinit : P2I w h m dem labTh transTh misz [] ⟨m, fun _ => 0⟩ := by
    refine ⟨fun j => Or.inl rfl, fun j => ?_, fun j => ?_, fun j => ?_,
      fun j => Or.inl rfl⟩
    · constructor
      · intro h1
        have h1' : (0 : Nat) = 1 := h1
        omega
      · rintro ⟨x, hx, _⟩
        exact absurd hx (List.not_mem_nil x)
    · constructor
      · exact fun h1 => Or.inl h1
      · rintro (h1 | ⟨x, hx, _⟩)
        · exact h1
        · exact absurd hx (List.not_mem_nil x)
    · constructor
      · exact fun h2 => Or.inl h2
      · rintro (h2 | ⟨_, _, _, x, hx, _⟩)
        · exact h2
        · exact absurd hx (List.not_mem_nil x)
  have hres := p2_fold_inv w h m dem labTh transTh misz (List.range (w * h)) []
    ⟨m, fun _ => 0⟩ (fun x hx => List.mem_range.mp hx) hinit
  rw [List.nil_append] at hres
  exact hres

end Phase2Outer

/-- Claim C4 (confirmed): phase 2 reclassifies a pixel of the
island-candidate set (in-range, still Foreground, delta-E within
labThreshold) to Background exactly when its 8-connected component inside
that set has at least minIslandSize pixels, and leaves it Foreground exactly
when the component is smaller — in particular a component of exactly
minIslandSize pixels becomes Background and one of minIslandSize - 1 pixels
stays Foreground. A pixel becomes Transition exactly when it was already
Transition or is a still-Foreground pixel within transitionThreshold that is
8-adjacent to a reclassified (at least minIslandSize) component: the
one-ring halo. -/
theorem c4_islands (w h : Nat) (dem : Nat → ℚ) (labTh transTh : ℚ)
    (misz : Nat) (m : Nat → Nat) :
    (∀ i, i ∈ islandT w h m dem labTh →
      (phase2 w h dem labTh transTh misz m i = 1 ↔
        misz ≤ (islandComp w h m dem labTh i).ncard) ∧
      (phase2 w h dem labTh transTh misz m i = 3 ↔
        (islandComp w h m dem labTh i).ncard < misz)) ∧
    (∀ j, phase2 w h dem labTh transTh misz m j = 2 ↔
      (m j = 2 ∨ (m j = 3 ∧ labTh < dem j ∧ dem j ≤ transTh ∧
        ∃ k, k ∈ islandT w h m dem labTh ∧
          misz ≤ (islandComp w h m dem labTh k).ncard ∧ Adj w h k j))) := by
  have hfin := p2_final w h m dem labTh transTh misz
  have hmask : ∀ j, phase2 w h dem labTh transTh misz m j =
      ((List.range (w * h)).foldl (islandVisit w h dem labTh transTh misz)
        ⟨m, fun _ => 0⟩).mask j := fun j => rfl
  have hm2iff : ∀ j, phase2 w h dem labTh transTh misz m j = 2 ↔
      (m j = 2 ∨ (m j = 3 ∧ labTh < dem j ∧ dem j ≤ transTh ∧
        ∃ k, k ∈ islandT w h m dem labTh ∧
          misz ≤ (islandComp w h m dem labTh k).ncard ∧ Adj w h k j)) := by
    intro j
    rw [hmask j, hfin.pm2 j]
    constructor
    · rintro (hm2 | ⟨hm3, hlab, htr, x, hx, k, hxT, hxk, hbigk, hadj⟩)
      · exact Or.inl hm2
      · exact Or.inr ⟨hm3, hlab, htr, k, hxk.2.1, hbigk, hadj⟩
    · rintro (hm2 | ⟨hm3, hlab, htr, k, hkT, hbigk, hadj⟩)
      · exact Or.inl hm2
      · exact Or.inr ⟨hm3, hlab, htr, k, List.mem_range.mpr hkT.1, k, hkT,
          ⟨hkT, hkT, Relation.ReflTransGen.refl⟩, hbigk, hadj⟩
  refine ⟨fun i hiT => ?_, hm2iff⟩
  have hm1iff : phase2 w h dem labTh transTh misz m i = 1 ↔
      misz ≤ (islandComp w h m dem labTh i).ncard := by
    rw [hmask i, hfin.pm1 i]
    constructor
    · rintro (hm1 | ⟨x, hx, hxT, hxi, hbigi⟩)
      · have := hiT.2.1
        omega
      · exact hbigi
    · intro hbigi
      exact Or.inr ⟨i, List.mem_range.mpr hiT.1, hiT,
        ⟨hiT, hiT, Relation.ReflTransGen.refl⟩, hbigi⟩
  have hnot2 : phase2 w h dem labTh transTh misz m i ≠ 2 := by
    intro hc
    rw [hm2iff i] at hc
    rcases hc with hm2 | ⟨_, hlab, _⟩
    · have := hiT.2.1
      omega
    · have := hiT.2.2
      linarith
  refine ⟨hm1iff, ?_⟩
  constructor
  · intro h3
    rcases Nat.lt_or_ge (islandComp w h m dem labTh i).ncard misz with hlt | hge
    · exact hlt
    · exfalso
      have := hm1iff.mpr hge
      omega
  · intro hlt
    have hne1 : phase2 w h dem labTh transTh misz m i ≠ 1 := by
      intro hc
      have := hm1iff.mp hc
      omega
    rw [hmask i] at hne1 hnot2 ⊢
    rcases hfin.pm0 i with hc | hc | hc
    · rw [hc]
      exact hiT.2.1
    · exact absurd hc hne1
    · exact absurd hc hnot2

/-- Witness for claim C4 at a concrete instance. -/
theorem c4_witness :
    (phase2 3 3 (fun i => if i = 4 then 0 else 100) 12 (mkRat 78 5) 1
        (fun _ => 3) 4 = 1 ↔
      1 ≤ (islandComp 3 3 (fun _ => 3) (fun i => if i = 4 then 0 else 100) 12
        4).ncard) ∧
    (phase2 3 3 (fun i => if i = 4 then 0 else 100) 12 (mkRat 78 5) 1
        (fun _ => 3) 4 = 3 ↔
      (islandComp 3 3 (fun _ => 3) (fun i => if i = 4 then 0 else 100) 12
        4).ncard < 1) := by
  exact (c4_islands 3 3 (fun i => if i = 4 then 0 else 100) 12 (mkRat 78 5) 1
    (fun _ => 3)).1 4 ⟨by decide, by decide, by decide⟩

/-! ## Claim C1: terminal background connectivity -/

/-- The endpoint's erosion loop: erosionRadius successive radius-1 erosions,
each reading the current buffer and mask and updating both. -/
def erodeIter (w h ch : Nat) : Nat → (Nat → Nat) × (Nat → Nat) → (Nat → Nat) × (Nat → Nat)
  | 0, p => p
  | k + 1, p => erodeIter w h ch k (smartErosion p.1 w h ch p.2 1)

/-- Every Background pixel of the mask M reaches, through an 8-connected path
of in-range Background pixels of M, either a border pixel or a pixel of a
reclassifiable interior island (a component of background-coloured,
border-unreachable pixels of the reference mask m1 with at least misz
members). -/
def GoodMask (w h : Nat) (dem : Nat → ℚ) (labTh : ℚ) (m1 : Nat → Nat)
    (misz : Nat) (M : Nat → Nat) : Prop :=
  ∀ i, i < w * h → M i = 1 →
    ∃ j, ConnIn {k | k < w * h ∧ M k = 1} w h i j ∧
      (OnBorder w h j ∨ (j ∈ islandT w h m1 dem labTh ∧
        misz ≤ (islandComp w h m1 dem labTh j).ncard))

theorem connIn_mono {w h : Nat} {S T : Set Nat} (hss : S ⊆ T) {a b : Nat}
    (hc : ConnIn S w h a b) : ConnIn T w h a b :=
  ⟨hss hc.1, hss hc.2.1,
    Relation.ReflTransGen.mono (fun x y hs => ⟨hss hs.1, hss hs.2.1, hs.2.2⟩) hc.2.2⟩

/-- Extending a good mask with new Background pixels that are each on the
border, a reclassifiable island pixel, or 8-adjacent to an old Background
pixel keeps it good. -/
theorem good_extend {w h : Nat} {dem : Nat → ℚ} {labTh : ℚ} {m1 : Nat → Nat}
    {misz : Nat} {M M2 : Nat → Nat}
    (hkeep : ∀ i, M i = 1 → M2 i = 1)
    (hnew : ∀ i, i < w * h → M2 i = 1 → M i ≠ 1 →
      OnBorder w h i ∨
      (i ∈ islandT w h m1 dem labTh ∧ misz ≤ (islandComp w h m1 dem labTh i).ncard) ∨
      ∃ k, k < w * h ∧ Adj w h i k ∧ M k = 1)
    (hgood : GoodMask w h dem labTh m1 misz M) :
    GoodMask w h dem labTh m1 misz M2 := by
  have hsub : {k | k < w * h ∧ M k = 1} ⊆ {k | k < w * h ∧ M2 k = 1} :=
    fun k hk => ⟨hk.1, hkeep k hk.2⟩
  intro i hi h1'
  by_cases h1 : M i = 1
  · obtain ⟨j, hconn, htgt⟩ := hgood i hi h1
    exact ⟨j, connIn_mono hsub hconn, htgt⟩
  · rcases hnew i hi h1' h1 with hb | hisl | ⟨k, hk, hadj, hk1⟩
    · exact ⟨i, ⟨⟨hi, h1'⟩, ⟨hi, h1'⟩, Relation.ReflTransGen.refl⟩, Or.inl hb⟩
    · exact ⟨i, ⟨⟨hi, h1'⟩, ⟨hi, h1'⟩, Relation.ReflTransGen.refl⟩, Or.inr hisl⟩
    · obtain ⟨j, hconn, htgt⟩ := hgood k hk hk1
      refine ⟨j, connIn_trans w h ⟨⟨hi, h1'⟩, ⟨hk, hkeep k hk1⟩,
        Relation.ReflTransGen.single ⟨⟨hi, h1'⟩, ⟨hk, hkeep k hk1⟩, hadj⟩⟩
        (connIn_mono hsub hconn), htgt⟩

theorem dxy8_bounds (d : Nat) (hd : d < 8) :
    -1 ≤ dx8.getD d 0 ∧ dx8.getD d 0 ≤ 1 ∧ -1 ≤ dy8.getD d 0 ∧ dy8.getD d 0 ≤ 1 := by
  interval_cases d <;> decide

theorem dir_of_offset (kx ky : Int)
    (h1 : -1 ≤ kx) (h2 : kx ≤ 1) (h3 : -1 ≤ ky) (h4 : ky ≤ 1)
    (hne : ¬ (kx = 0 ∧ ky = 0)) :
    ∃ d, d < 8 ∧ dx8.getD d 0 = kx ∧ dy8.getD d 0 = ky := by
  interval_cases kx <;> interval_cases ky
  · exact ⟨4, by decide⟩
  · exact ⟨0, by decide⟩
  · exact ⟨5, by decide⟩
  · exact ⟨2, by decide⟩
  · exact absurd ⟨rfl, rfl⟩ hne
  · exact ⟨3, by decide⟩
  · exact ⟨6, by decide⟩
  · exact ⟨1, by decide⟩
  · exact ⟨7, by decide⟩

/-- A missing neighbour lookup puts the pixel on the image border. -/
theorem neighborIdx_none_onBorder {w h i d : Nat} (hd : d < 8) (hi : i < w * h)
    (hn : neighborIdx w h i d = none) : OnBorder w h i := by
  have hw : 0 < w := by
    rcases Nat.eq_zero_or_pos w with rfl | hw
    · omega
    · exact hw
  have hh : 0 < h := by
    rcases Nat.eq_zero_or_pos h with rfl | hh
    · omega
    · exact hh
  have hxlt : xOf w i < w := xOf_lt i hw
  have hylt : yOf w i < h := yOf_lt i hw hi
  obtain ⟨hb1, hb2, hb3, hb4⟩ := dxy8_bounds d hd
  rw [neighborIdx] at hn
  split at hn
  · exact absurd hn (by simp)
  · rename_i hcond
    push_neg at hcond
    rw [OnBorder]
    by_cases hx0 : 0 ≤ (xOf w i : Int) + dx8.getD d 0
    · by_cases hxw : (xOf w i : Int) + dx8.getD d 0 < (w : Int)
      · by_cases hy0 : 0 ≤ (yOf w i : Int) + dy8.getD d 0
        · have hyh := hcond hx0 hxw hy0
          right; right; right
          omega
        · right; right; left
          omega
      · right; left
        omega
    · left
      omega

/-- A positive background-neighbour count at an interior pixel exhibits an
in-range background 8-neighbour. -/
theorem nbrCounts_bg_exists {w h : Nat} (g : Nat → Nat) (i : Nat)
    (hint : InteriorPix w h i)
    (hpos : 1 ≤ (nbrCounts w g (xOf w i) (yOf w i)).2) :
    ∃ k, k < w * h ∧ Adj w h i k ∧ g k = 1 := by
  have hex : ∃ d, d < 8 ∧
      g ((((yOf w i : Int) + dy8.getD d 0) * w +
        ((xOf w i : Int) + dx8.getD d 0)).toNat) = 1 := by
    by_contra hno
    push_neg at hno
    have hz : (nbrCounts w g (xOf w i) (yOf w i)).2 = 0 := by
      rw [nbrCounts]
      refine foldl_preserve (P := fun (c : Nat × Nat) => c.2 = 0)
        (fun c d hc hd => ?_) rfl
      show ((if g ((((yOf w i : Int) + dy8.getD d 0) * w +
          ((xOf w i : Int) + dx8.getD d 0)).toNat) = 3 then (c.1 + 1, c.2)
        else if g ((((yOf w i : Int) + dy8.getD d 0) * w +
          ((xOf w i : Int) + dx8.getD d 0)).toNat) = 1 then (c.1, c.2 + 1)
        else c) : Nat × Nat).2 = 0
      split
      · exact hc
      · split
        · rename_i hval
          exact absurd hval (hno d (List.mem_range.mp hd))
        · exact hc
    omega
  obtain ⟨d, hd, hval⟩ := hex
  obtain ⟨hb1, hb2, hb3, hb4⟩ := dxy8_bounds d hd
  obtain ⟨hx0, hxw, hy0, hyh⟩ := hint
  have hc1 : 0 ≤ (xOf w i : Int) + dx8.getD d 0 := by omega
  have hc2 : (xOf w i : Int) + dx8.getD d 0 < (w : Int) := by omega
  have hc3 : 0 ≤ (yOf w i : Int) + dy8.getD d 0 := by omega
  have hc4 : (yOf w i : Int) + dy8.getD d 0 < (h : Int) := by omega
  have hni : neighborIdx w h i d = some ((((yOf w i : Int) + dy8.getD d 0) * w +
      ((xOf w i : Int) + dx8.getD d 0)).toNat) := by
    rw [neighborIdx, if_pos ⟨hc1, hc2, hc3, hc4⟩]
  exact ⟨_, neighborIdx_lt hni, ⟨d, hd, hni⟩, hval⟩

/-- The mask phase 1 leaves is good: every Background pixel is border
reachable through Background pixels. -/
theorem good_phase1 {w h : Nat} {dem : Nat → ℚ} {labTh transTh : ℚ}
    (hw : 0 < w) (hh : 0 < h) (hlt : labTh ≤ transTh) (misz : Nat)
    (mref : Nat → Nat) :
    GoodMask w h dem labTh mref misz (phase1 w h dem labTh transTh) := by
  intro i hi h1
  obtain ⟨b, hbord, hbLow, hiLow, rtg⟩ := (phase1_one_iff hw hh hlt i).mp h1
  have hb1 : phase1 w h dem labTh transTh b = 1 :=
    (phase1_one_iff hw hh hlt b).mpr ⟨b, hbord, hbLow, hbLow, Relation.ReflTransGen.refl⟩
  have hpath : ∀ x, Relation.ReflTransGen (StepIn (Low w h dem labTh) w h) b x →
      x ∈ Low w h dem labTh →
      ConnIn {p | p < w * h ∧ phase1 w h dem labTh transTh p = 1} w h b x := by
    intro x hx
    induction hx with
    | refl => exact fun _ => ⟨⟨hbLow.1, hb1⟩, ⟨hbLow.1, hb1⟩, Relation.ReflTransGen.refl⟩
    | tail hxy hstep ih =>
      rename_i x' y'
      intro _
      obtain ⟨hxLow, hyLow, hadj⟩ := hstep
      have hy1 : phase1 w h dem labTh transTh y' = 1 :=
        (phase1_one_iff hw hh hlt y').mpr
          ⟨b, hbord, hbLow, hyLow, hxy.tail ⟨hxLow, hyLow, hadj⟩⟩
      have hx1 : phase1 w h dem labTh transTh x' = 1 :=
        (phase1_one_iff hw hh hlt x').mpr ⟨b, hbord, hbLow, hxLow, hxy⟩
      exact connIn_trans w h (ih hxLow)
        ⟨⟨hxLow.1, hx1⟩, ⟨hyLow.1, hy1⟩,
          Relation.ReflTransGen.single ⟨⟨hxLow.1, hx1⟩, ⟨hyLow.1, hy1⟩, hadj⟩⟩
  refine ⟨b, connIn_symm w h (fun j hj => hj.1) (hpath i rtg hiLow), Or.inl hbord⟩

/-- Phase 2 keeps a good mask good: new Background pixels belong to a
reclassified island of at least minIslandSize pixels. -/
theorem good_phase2 {w h : Nat} {dem : Nat → ℚ} {labTh transTh : ℚ} {misz : Nat}
    {m : Nat → Nat} (hgood : GoodMask w h dem labTh m misz m) :
    GoodMask w h dem labTh m misz (phase2 w h dem labTh transTh misz m) := by
  have hfin := p2_final w h m dem labTh transTh misz
  refine good_extend (fun i h1 => ?_) (fun i hi h1' h1 => ?_) hgood
  · exact (hfin.pm1 i).mpr (Or.inl h1)
  · rcases (hfin.pm1 i).mp h1' with hold | ⟨x, _, _, hconn, hcard⟩
    · exact absurd hold h1
    · exact Or.inr (Or.inl ⟨hconn.2.1, hcard⟩)

/-- One transition-refinement visit keeps a good mask good: a demoted pixel
has a Background 8-neighbour on the partially updated mask. -/
theorem good_refineVisit {w h : Nat} {dem : Nat → ℚ} {labTh : ℚ} {m1 : Nat → Nat}
    {misz : Nat} {g : Nat → Nat} {j : Nat} (hj : j ∈ interiorIndices w h)
    (hg : GoodMask w h dem labTh m1 misz g) :
    GoodMask w h dem labTh m1 misz (refineVisit w g j) := by
  refine good_extend (fun i h1 => ?_) (fun i hi h1' h1 => ?_) hg
  · rcases refineVisit_vals (m := g) (j := j) (i := i) with hv | ⟨_, hg2, _⟩
    · rw [hv]
      exact h1
    · omega
  · rcases eq_or_ne i j with rfl | hne
    · have hint : InteriorPix w h i := mem_interiorIndices.mp hj
      rw [refineVisit_eq] at h1'
      by_cases hm2 : g i ≠ 2
      · rw [if_pos hm2] at h1'
        exact absurd h1' h1
      · rw [if_neg hm2] at h1'
        by_cases hpro : (nbrCounts w g (xOf w i) (yOf w i)).1 >
            (nbrCounts w g (xOf w i) (yOf w i)).2 ∧
            (nbrCounts w g (xOf w i) (yOf w i)).1 ≥ 3
        · rw [if_pos hpro, Function.update_same] at h1'
          omega
        · rw [if_neg hpro] at h1'
          by_cases hdem : (nbrCounts w g (xOf w i) (yOf w i)).2 ≥ 5
          · obtain ⟨k, hk, hadj, hk1⟩ := nbrCounts_bg_exists g i hint (by omega)
            exact Or.inr (Or.inr ⟨k, hk, hadj, hk1⟩)
          · rw [if_neg hdem] at h1'
            exact absurd h1' h1
    · rw [refineVisit_other hne] at h1'
      exact absurd h1' h1

/-- Phase 3 keeps a good mask good. -/
theorem good_phase3 {w h : Nat} {dem : Nat → ℚ} {labTh : ℚ} {m1 : Nat → Nat}
    {misz : Nat} {M : Nat → Nat} (hg : GoodMask w h dem labTh m1 misz M) :
    GoodMask w h dem labTh m1 misz (phase3 w h M) := by
  rw [phase3]
  exact foldl_preserve (P := fun g => GoodMask w h dem labTh m1 misz g)
    (fun g j hgd hj => good_refineVisit hj hgd) hg

/-- One boundary-cleanup visit keeps a good mask good: a pixel reclassified
Background touches the image border or a Background 8-neighbour. -/
theorem good_boundaryVisit {w h : Nat} {dem : Nat → ℚ} {labTh : ℚ} {m1 : Nat → Nat}
    {misz : Nat} {st : (Nat → Nat) × Nat} {j : Nat}
    (hg : GoodMask w h dem labTh m1 misz st.1) :
    GoodMask w h dem labTh m1 misz (boundaryVisit w h dem labTh st j).1 := by
  refine good_extend (fun i h1 => boundaryVisit_one_persist h1)
    (fun i hi h1' h1 => ?_) hg
  rw [boundaryVisit] at h1'
  split at h1'
  · exact absurd h1' h1
  · split at h1'
    · exact absurd h1' h1
    · rename_i htb
      split at h1'
      · rcases eq_or_ne i j with rfl | hne
        · have htb' : touchesBackground w h st.1 i = true := not_not.mp htb
          rw [touchesBackground, List.any_eq_true] at htb'
          obtain ⟨d, hd, hcase⟩ := htb'
          rw [List.mem_range] at hd
          rcases hn : neighborIdx w h i d with _ | ni
          · rw [hn] at hcase
            exact Or.inl (neighborIdx_none_onBorder hd hi hn)
          · rw [hn] at hcase
            have hni1 : st.1 ni = 1 := by
              have hcase' : (st.1 ni == 1) = true := hcase
              exact beq_iff_eq.mp hcase'
            exact Or.inr (Or.inr ⟨ni, neighborIdx_lt hn, ⟨d, hd, hn⟩, hni1⟩)
        · replace h1' : Function.update st.1 j 1 i = 1 := h1'
          rw [Function.update_noteq hne] at h1'
          exact absurd h1' h1
      · split at h1'
        · rcases eq_or_ne i j with rfl | hne
          · replace h1' : Function.update st.1 i 2 i = 1 := h1'
            rw [Function.update_same] at h1'
            omega
          · replace h1' : Function.update st.1 j 2 i = 1 := h1'
            rw [Function.update_noteq hne] at h1'
            exact absurd h1' h1
        · exact absurd h1' h1

/-- One boundary-cleanup pass keeps a good mask good. -/
theorem good_boundaryPass {w h : Nat} {dem : Nat → ℚ} {labTh : ℚ} {m1 : Nat → Nat}
    {misz : Nat} {M : Nat → Nat} (hg : GoodMask w h dem labTh m1 misz M) :
    GoodMask w h dem labTh m1 misz (boundaryPass w h dem labTh M).1 := by
  rw [boundaryPass]
  exact foldl_preserve
    (P := fun (st : (Nat → Nat) × Nat) => GoodMask w h dem labTh m1 misz st.1)
    (fun st j hst _ => good_boundaryVisit hst) hg

/-- The whole phase-4 pass loop keeps a good mask good, for any fuel. -/
theorem good_phase4Loop {w h : Nat} {dem : Nat → ℚ} {labTh : ℚ} {m1 : Nat → Nat}
    {misz : Nat} (fuel : Nat) {M : Nat → Nat}
    (hg : GoodMask w h dem labTh m1 misz M) :
    GoodMask w h dem labTh m1 misz (phase4Loop w h dem labTh fuel M) := by
  induction fuel generalizing M with
  | zero => exact hg
  | succ n ih =>
    show GoodMask w h dem labTh m1 misz
      (if (boundaryPass w h dem labTh M).2 = 0 then (boundaryPass w h dem labTh M).1
       else phase4Loop w h dem labTh n (boundaryPass w h dem labTh M).1)
    split
    · exact good_boundaryPass hg
    · exact ih (good_boundaryPass hg)

/-- Phase 4 keeps a good mask good. -/
theorem good_phase4 {w h : Nat} {dem : Nat → ℚ} {labTh : ℚ} {m1 : Nat → Nat}
    {misz : Nat} {M : Nat → Nat} (hg : GoodMask w h dem labTh m1 misz M) :
    GoodMask w h dem labTh m1 misz (phase4 w h dem labTh M) :=
  good_phase4Loop 5 hg

/-- A radius-1 smartErosion keeps the mask good: every pixel it marks
Background sits on the image border or 8-touches a pixel that was already
Background. -/
theorem good_smartErosion {w h ch : Nat} {dem : Nat → ℚ} {labTh : ℚ}
    {m1 : Nat → Nat} {misz : Nat} {data M : Nat → Nat}
    (hg : GoodMask w h dem labTh m1 misz M) :
    GoodMask w h dem labTh m1 misz (smartErosion data w h ch M 1).2 := by
  have hsnd : (smartErosion data w h ch M 1).2 =
      ((List.range h).flatMap fun y =>
        ((List.range w).filter fun x =>
          data ((y * w + x) * ch + 3) != 0 && erodeTouch w h M 1 x y).map
            fun x => y * w + x).foldl (fun mm i => Function.update mm i 1) M := rfl
  rw [hsnd]
  refine good_extend (fun i h1 => ones_keep_one h1) (fun i hi h1' h1 => ?_) hg
  rcases ones_one_of h1' with hold | hmem
  · exact absurd hold h1
  · obtain ⟨y, hym, hmem2⟩ := List.mem_flatMap.mp hmem
    rw [List.mem_range] at hym
    obtain ⟨x, hxf, rfl⟩ := List.mem_map.mp hmem2
    obtain ⟨hxm, hpred⟩ := List.mem_filter.mp hxf
    rw [List.mem_range] at hxm
    rw [Bool.and_eq_true] at hpred
    have htouch := hpred.2
    simp only [erodeTouch, List.any_eq_true] at htouch
    obtain ⟨ky, hkym, kx, hkxm, hcase⟩ := htouch
    rw [mem_intRange] at hkym hkxm
    by_cases hcen : kx = 0 ∧ ky = 0
    · rw [if_pos hcen] at hcase
      exact absurd hcase (by decide)
    · rw [if_neg hcen] at hcase
      by_cases hoob : (y : Int) + ky < 0 ∨ (h : Int) ≤ (y : Int) + ky ∨
          (x : Int) + kx < 0 ∨ (w : Int) ≤ (x : Int) + kx
      · left
        rw [OnBorder, xOf_encode x y hxm, yOf_encode x y hxm]
        omega
      · rw [if_neg hoob] at hcase
        push_neg at hoob
        have hkval : M (((y : Int) + ky) * w + ((x : Int) + kx)).toNat = 1 := by
          have hcase' : (M (((y : Int) + ky) * w + ((x : Int) + kx)).toNat == 1) = true :=
            hcase
          exact beq_iff_eq.mp hcase'
        obtain ⟨d, hd, hdx, hdy⟩ := dir_of_offset kx ky (by omega) (by omega)
          (by omega) (by omega) hcen
        have hni : neighborIdx w h (y * w + x) d =
            some ((((y : Int) + ky) * w + ((x : Int) + kx)).toNat) := by
          rw [neighborIdx, xOf_encode x y hxm, yOf_encode x y hxm, hdx, hdy]
          rw [if_pos ⟨by omega, by omega, by omega, by omega⟩]
        exact Or.inr (Or.inr ⟨_, neighborIdx_lt hni, ⟨d, hd, hni⟩, hkval⟩)

/-- The endpoint's erosion loop keeps the mask good, for any iteration count
and any buffer component. -/
theorem good_erodeIter {w h ch : Nat} {dem : Nat → ℚ} {labTh : ℚ}
    {m1 : Nat → Nat} {misz : Nat} (k : Nat)
    (p : (Nat → Nat) × (Nat → Nat)) (hg : GoodMask w h dem labTh m1 misz p.2) :
    GoodMask w h dem labTh m1 misz (erodeIter w h ch k p).2 := by
  induction k generalizing p with
  | zero => exact hg
  | succ n ih => exact ih _ (good_smartErosion hg)

/-- The spec-side island set: in-range background-coloured pixels not
reachable from the border through background-coloured pixels. -/
def IslandSet (w h : Nat) (dem : Nat → ℚ) (labTh : ℚ) : Set Nat :=
  {j | j < w * h ∧ dem j ≤ labTh ∧ ¬ ReachB w h dem labTh j}

/-- On the phase-1 mask, the island-candidate set is exactly the spec-side
island set. -/
theorem islandT_phase1_eq {w h : Nat} {dem : Nat → ℚ} {labTh transTh : ℚ}
    (hw : 0 < w) (hh : 0 < h) (hlt : labTh ≤ transTh) :
    islandT w h (phase1 w h dem labTh transTh) dem labTh =
      IslandSet w h dem labTh := by
  refine Set.ext fun j => ?_
  rw [islandT, IslandSet]
  constructor
  · rintro ⟨hj, h3, hlow⟩
    exact ⟨hj, hlow, ((phase1_low_three_iff hw hh hlt j hj hlow).1).mp h3⟩
  · rintro ⟨hj, hlow, hnr⟩
    exact ⟨hj, ((phase1_low_three_iff hw hh hlt j hj hlow).1).mpr hnr, hlow⟩

/-- Claim C1 (confirmed): after the full mask pipeline — border flood fill,
interior island detection, transition refinement, boundary relaxation and any
number of radius-1 smart erosions — every pixel classified Background has an
8-connected path of Background-classified pixels either to an image-border
pixel or to a pixel of a component of at least minIslandSize
background-coloured, border-unreachable pixels. -/
theorem c1_background_connectivity (data : Nat → Nat) (w h channels : Nat)
    (dem : Nat → ℚ) (threshold : ℚ) (misz k : Nat) (res : Nat → Nat)
    (hw : 0 < w) (hh : 0 < h) (i : Nat) (hi : i < w * h)
    (h1 : (erodeIter w h channels k
      (res, (advancedBackgroundRemoval data w h channels dem threshold misz).mask)).2 i
        = 1) :
    ∃ j, ConnIn {p | p < w * h ∧ (erodeIter w h channels k
        (res, (advancedBackgroundRemoval data w h channels dem threshold misz).mask)).2 p
          = 1} w h i j ∧
      (OnBorder w h j ∨ (j ∈ IslandSet w h dem (labThOf threshold) ∧
        misz ≤ {p | ConnIn (IslandSet w h dem (labThOf threshold)) w h j p}.ncard)) := by
  have hlt : labThOf threshold ≤ transThOf (labThOf threshold) :=
    labTh_le_transTh threshold
  have hg1 : GoodMask w h dem (labThOf threshold)
      (phase1 w h dem (labThOf threshold) (transThOf (labThOf threshold))) misz
      (phase1 w h dem (labThOf threshold) (transThOf (labThOf threshold))) :=
    good_phase1 hw hh hlt misz _
  have hg2 : GoodMask w h dem (labThOf threshold)
      (phase1 w h dem (labThOf threshold) (transThOf (labThOf threshold))) misz
      (phase2 w h dem (labThOf threshold) (transThOf (labThOf threshold)) misz
        (phase1 w h dem (labThOf threshold) (transThOf (labThOf threshold)))) :=
    good_phase2 hg1
  have hg4 := good_phase4 (good_phase3 hg2)
  have hg5 : GoodMask w h dem (labThOf threshold)
      (phase1 w h dem (labThOf threshold) (transThOf (labThOf threshold))) misz
      ((erodeIter w h channels k
        (res, (advancedBackgroundRemoval data w h channels dem threshold misz).mask)).2) :=
    good_erodeIter k
      (res, (advancedBackgroundRemoval data w h channels dem threshold misz).mask) hg4
  obtain ⟨j, hconn, htgt⟩ := hg5 i hi h1
  have hset : islandT w h
      (phase1 w h dem (labThOf threshold) (transThOf (labThOf threshold)))
      dem (labThOf threshold) = IslandSet w h dem (labThOf threshold) :=
    islandT_phase1_eq hw hh hlt
  refine ⟨j, hconn, ?_⟩
  rcases htgt with hb | ⟨hjT, hcard⟩
  · exact Or.inl hb
  · refine Or.inr ⟨hset ▸ hjT, ?_⟩
    have hcomp : islandComp w h
        (phase1 w h dem (labThOf threshold) (transThOf (labThOf threshold)))
        dem (labThOf threshold) j =
        {p | ConnIn (IslandSet w h dem (labThOf threshold)) w h j p} := by
      rw [islandComp, hset]
    rw [← hcomp]
    exact hcard

/-- Witness for claim C1: a 1 × 1 image whose sole pixel the boundary relaxer
classifies Background, with two erosion iterations. -/
theorem c1_witness :
    (0 < 1 ∧ 0 < 1 ∧ 0 < 1 * 1 ∧
      (erodeIter 1 1 4 2 ((fun _ => 0),
        (advancedBackgroundRemoval (fun _ => 0) 1 1 4 (fun _ => 16) 15 100).mask)).2 0
          = 1) ∧
    ∃ j, ConnIn {p | p < 1 * 1 ∧ (erodeIter 1 1 4 2 ((fun _ => 0),
        (advancedBackgroundRemoval (fun _ => 0) 1 1 4 (fun _ => 16) 15 100).mask)).2 p
          = 1} 1 1 0 j ∧
      (OnBorder 1 1 j ∨ (j ∈ IslandSet 1 1 (fun _ => 16) (labThOf 15) ∧
        100 ≤ {p | ConnIn (IslandSet 1 1 (fun _ => 16) (labThOf 15)) 1 1 j p}.ncard)) :=
  ⟨⟨by decide, by decide, by decide, by decide⟩,
    c1_background_connectivity (fun _ => 0) 1 1 4 (fun _ => 16) 15 100 2 (fun _ => 0)
      (by decide) (by decide) 0 (by decide) (by decide)⟩

end AutoCrop
